import Mathlib

/-! MediaSync relay: room registry, broadcaster and message router

A shallow embedding of `hub/hub.go`, `protocol/handler.go`, `domain/domain.go`
and the `Send` operation of `websocket/adapter.go`, with the properties of the
registry (`Register`, `Unregister`, `Broadcast`, `Stats`) and of the router
(`Handle`) proved over it.

Go maps are association lists with at most one entry per key; a method call on
an interface value is recorded as an event instead of being executed.
-/

namespace MediaSync

/-- Go `[]byte` payloads, read as text. -/
abbrev Bytes := List Char

/-- A value of the interface `domain.Connection`: what `ID()` and `Room()`
return (both fixed for the lifetime of the connection) and the address of the
object behind the interface, which tells two connection objects apart even when
they report the same identity. -/
structure Connection where
  ID : String
  Room : String
  addr : Nat
deriving DecidableEq, Repr

/-! ## Go maps with string keys -/

/-- A Go `map[string]V`: key/value entries, at most one per key. -/
abbrev GoMap (V : Type) := List (String × V)

namespace GoMap

variable {V : Type}

/-- The lookup `v, exists := m[k]`. -/
def get : GoMap V → String → Option V
  | [], _ => none
  | (k', v) :: rest, k => if k' = k then some v else get rest k

/-- The assignment `m[k] = v`: overwrites the entry of `k`, or adds one. -/
def set : GoMap V → String → V → GoMap V
  | [], k, v => [(k, v)]
  | (k', v') :: rest, k, v => if k' = k then (k, v) :: rest else (k', v') :: set rest k v

/-- The builtin `delete(m, k)`. -/
def delete (m : GoMap V) (k : String) : GoMap V :=
  m.filter (fun e => !decide (e.1 = k))

/-- The builtin `len(m)`. -/
def len (m : GoMap V) : Nat := m.length

/-- The keys of the map. -/
def keys (m : GoMap V) : List String := m.map Prod.fst

end GoMap

/-! ## hub/hub.go -/

/-- The struct `room`: the member set, keyed by connection identity. -/
structure room where
  clients : GoMap Connection
deriving DecidableEq, Repr

/-- The struct `Hub`: the registry, keyed by room identifier. The registry holds
pointers to rooms; a mutation made through such a pointer is an update of the
entry in place. -/
structure Hub where
  rooms : GoMap room
deriving DecidableEq, Repr

/-- `New()`: a hub with an empty registry. -/
def New : Hub := ⟨[]⟩

/-- `Hub.Register(conn)`: look the room up, create it when absent, then store
`conn` under its identity. -/
def Hub.Register (h : Hub) (conn : Connection) : Hub :=
  match h.rooms.get conn.Room with
  | some r => ⟨h.rooms.set conn.Room ⟨r.clients.set conn.ID conn⟩⟩
  | none => ⟨h.rooms.set conn.Room ⟨GoMap.set [] conn.ID conn⟩⟩

/-- `Hub.Unregister(conn)`: return when the room is absent; otherwise delete the
identity from the room and, when the room's member count is then zero, delete
the room from the registry. -/
def Hub.Unregister (h : Hub) (conn : Connection) : Hub :=
  match h.rooms.get conn.Room with
  | none => h
  | some r =>
    let clients := r.clients.delete conn.ID
    let count := clients.len
    let h1 : Hub := ⟨h.rooms.set conn.Room ⟨clients⟩⟩
    if count = 0 then ⟨h1.rooms.delete conn.Room⟩ else h1

/-- `Hub.Stats()`: the number of registry entries and the sum of the rooms'
member counts. -/
def Hub.Stats (h : Hub) : Nat × Nat :=
  (h.rooms.len, h.rooms.foldl (fun clients e => clients + e.2.clients.len) 0)

/-- One call `conn.Send(data)` made by `Broadcast`, with whether it returned an
error. -/
structure SendCall where
  conn : Connection
  data : Bytes
  failed : Bool
deriving DecidableEq, Repr

/-- What a `Broadcast` does: the state of the world the connections live in
after the `Send` calls, the `Send` calls in the order made, and the connections
`c` for which a goroutine `go func(c) { h.Unregister(c) }(conn)` was started. -/
structure BroadcastResult (σ : Type) where
  world : σ
  calls : List SendCall
  spawned : List Connection

/-- The loop `for id, conn := range r.clients` of `Broadcast`, over the entries
in the order the iteration visits them. `send conn data w` is `conn.Send(data)`
in world `w`: whether it returned an error, and the world after it. -/
def broadcastLoop {σ : Type} (send : Connection → Bytes → σ → Bool × σ)
    (senderID : String) (data : Bytes) :
    List (String × Connection) → σ → BroadcastResult σ
  | [], w => ⟨w, [], []⟩
  | (id, conn) :: rest, w =>
    if id = senderID then broadcastLoop send senderID data rest w
    else
      let out := send conn data w
      let r := broadcastLoop send senderID data rest out.2
      ⟨r.world, ⟨conn, data, out.1⟩ :: r.calls,
        if out.1 then conn :: r.spawned else r.spawned⟩

/-- `Hub.Broadcast(sender, data)`: nothing when the sender's room is absent,
otherwise the loop over the room's members. The order in which Go iterates over
a map is unspecified: `range` gives the order of the visit. -/
def Hub.Broadcast {σ : Type} (h : Hub) (send : Connection → Bytes → σ → Bool × σ)
    (range : GoMap Connection → List (String × Connection))
    (sender : Connection) (data : Bytes) (w : σ) : BroadcastResult σ :=
  match h.rooms.get sender.Room with
  | none => ⟨w, [], []⟩
  | some r => broadcastLoop send sender.ID data (range r.clients) w

/-- The hub states that `Register` and `Unregister` calls build from `New()`. -/
inductive Reachable : Hub → Prop
  | new : Reachable New
  | register {h : Hub} (c : Connection) : Reachable h → Reachable (h.Register c)
  | unregister {h : Hub} (c : Connection) : Reachable h → Reachable (h.Unregister c)

/-- The member set of the room the registry holds under `name`; empty when
there is no such room. -/
def Hub.clientsOf (h : Hub) (name : String) : GoMap Connection :=
  match h.rooms.get name with
  | some r => r.clients
  | none => []

/-- The connection object `c` is a member of the room named `name`. -/
def Hub.isMember (h : Hub) (name : String) (c : Connection) : Prop :=
  ∃ id, (id, c) ∈ h.clientsOf name

/-- The shape of a hub that `Register` and `Unregister` maintain: one registry
entry per room identifier, one member entry per identity, no empty room, and
every member stored under its own identity in the room it names. -/
structure Hub.WF (h : Hub) : Prop where
  roomsNodup : h.rooms.keys.Nodup
  clientsNodup : ∀ e ∈ h.rooms, e.2.clients.keys.Nodup
  nonempty : ∀ e ∈ h.rooms, e.2.clients ≠ []
  stored : ∀ e ∈ h.rooms, ∀ ce ∈ e.2.clients, ce.2.ID = ce.1 ∧ ce.2.Room = e.1

/-- `websocket.Conn.Send`: the non-blocking send on the connection's outbound
channel, created with capacity 256. The world maps the address of a connection
to the content of its channel. -/
def Conn.Send (c : Connection) (data : Bytes) (w : Nat → List Bytes) :
    Bool × (Nat → List Bytes) :=
  if (w c.addr).length < 256 then
    (false, fun a => if a = c.addr then w a ++ [data] else w a)
  else (true, w)

/-! ## A scenario: three connections in `room1`, one in `room2` -/

/-- The broadcasting connection. -/
def exSender : Connection := ⟨"sender", "room1", 1⟩

/-- A healthy peer of the sender. -/
def exRecv1 : Connection := ⟨"recv1", "room1", 2⟩

/-- A peer of the sender whose outbound channel is full. -/
def exRecv2 : Connection := ⟨"recv2", "room1", 3⟩

/-- A connection in another room. -/
def exOther : Connection := ⟨"other", "room2", 4⟩

/-- The hub after the four registrations. -/
def exHub : Hub :=
  (((New.Register exSender).Register exRecv1).Register exRecv2).Register exOther

/-- The outbound channels: the one of `exRecv2` holds 256 messages, the others
are empty. -/
def exWorld : Nat → List Bytes :=
  fun a => if a = 3 then List.replicate 256 [] else []

/-! ## Interleavings of the critical sections of `Register` and `Unregister`

`Register` has two critical sections (one under `h.mu`, one under `r.mu`),
`Unregister` has up to three (`h.mu` read-locked, `r.mu`, `h.mu`). Between two of
its sections a call holds no lock and keeps only its local variables, so the
sections of other calls can run in between. -/

/-- The hub as the goroutines share it: the registry maps a room identifier to
the address of a room object, and `heap` holds the member set of every room
object allocated so far, by address. -/
structure SharedHub where
  rooms : GoMap Nat
  heap : List (GoMap Connection)
deriving DecidableEq, Repr

/-- The member set of the room object at address `r`. -/
def SharedHub.clients (s : SharedHub) (r : Nat) : GoMap Connection :=
  s.heap.getD r []

/-- `Stats()` on the shared hub. -/
def SharedHub.Stats (s : SharedHub) : Nat × Nat :=
  (s.rooms.len, s.rooms.foldl (fun clients e => clients + (s.clients e.2).len) 0)

/-- A call in progress, by the critical section it runs next, with the local
variables it holds. -/
inductive Call
  /-- `Register(conn)` before `h.mu.Lock()`. -/
  | Register (conn : Connection)
  /-- `Register(conn)` after `h.mu.Unlock()`, holding the room pointer `r`. -/
  | RegisterRoom (conn : Connection) (r : Nat)
  /-- `Unregister(conn)` before `h.mu.RLock()`. -/
  | Unregister (conn : Connection)
  /-- `Unregister(conn)` after `h.mu.RUnlock()`, the room exists at `r`. -/
  | UnregisterRoom (conn : Connection) (r : Nat)
  /-- `Unregister(conn)` after `r.mu.Unlock()`, with `count == 0`. -/
  | UnregisterEmpty (conn : Connection)
deriving DecidableEq, Repr

/-- The next critical section of a call: the hub after it, and what is left of
the call (`none` when it returns). -/
def Call.step (s : SharedHub) : Call → SharedHub × Option Call
  | .Register conn =>
    match s.rooms.get conn.Room with
    | some r => (s, some (.RegisterRoom conn r))
    | none =>
      (⟨s.rooms.set conn.Room s.heap.length, s.heap ++ [[]]⟩,
        some (.RegisterRoom conn s.heap.length))
  | .RegisterRoom conn r =>
    (⟨s.rooms, s.heap.set r ((s.clients r).set conn.ID conn)⟩, none)
  | .Unregister conn =>
    match s.rooms.get conn.Room with
    | none => (s, none)
    | some r => (s, some (.UnregisterRoom conn r))
  | .UnregisterRoom conn r =>
    let clients := (s.clients r).delete conn.ID
    let count := clients.len
    if count = 0 then (⟨s.rooms, s.heap.set r clients⟩, some (.UnregisterEmpty conn))
    else (⟨s.rooms, s.heap.set r clients⟩, none)
  | .UnregisterEmpty conn =>
    (⟨s.rooms.delete conn.Room, s.heap⟩, none)

/-- A call run to its end with no critical section of another call in
between. -/
def Call.finish (s : SharedHub) (call : Call) : SharedHub :=
  match call.step s with
  | (s1, none) => s1
  | (s1, some call1) =>
    match call1.step s1 with
    | (s2, none) => s2
    | (s2, some call2) => (call2.step s2).1

/-- The hub a shared hub stands for: every room pointer of the registry replaced
by the member set of the room object it points to. -/
def SharedHub.view (s : SharedHub) : Hub :=
  ⟨s.rooms.map (fun e => (e.1, ⟨s.clients e.2⟩))⟩

/-- The shape of a shared hub: one registry entry per room identifier, each with
its own allocated room object. -/
structure SharedHub.WF (s : SharedHub) : Prop where
  keysNodup : s.rooms.keys.Nodup
  ptrNodup : (s.rooms.map Prod.snd).Nodup
  ptrValid : ∀ e ∈ s.rooms, e.2 < s.heap.length

/-- The shared hub and the goroutines: each goroutine is the list of the calls it
still has to make, the first one possibly in progress. -/
structure System where
  hub : SharedHub
  goroutines : List (List Call)
deriving DecidableEq, Repr

/-- Goroutine `i` runs its next critical section. -/
def System.step (sys : System) (i : Nat) : System :=
  match sys.goroutines.getD i [] with
  | [] => sys
  | call :: later =>
    match call.step sys.hub with
    | (hub, some call2) => ⟨hub, sys.goroutines.set i (call2 :: later)⟩
    | (hub, none) => ⟨hub, sys.goroutines.set i later⟩

/-- The system after the critical sections of a schedule, given as the goroutine
that runs at each step. -/
def System.run (sys : System) (schedule : List Nat) : System :=
  schedule.foldl System.step sys

/-- Two goroutines on a fresh hub: one registers `c` and, once that has
returned, unregisters it; the other registers `d` into the same room. -/
def raceSystem : System :=
  ⟨⟨[], []⟩,
    [[.Register ⟨"c", "r", 1⟩, .Unregister ⟨"c", "r", 1⟩], [.Register ⟨"d", "r", 2⟩]]⟩

/-! ## A broadcast and the goroutines it starts, step by step

`Broadcast` looks the room up under `h.mu`, read-locks `r.mu`, visits the members
one by one and releases `r.mu` when it returns. A goroutine it starts runs
`Unregister`, whose second critical section write-locks `r.mu` and therefore
waits while the broadcaster holds the read lock. -/

/-- Where the broadcaster stands. -/
inductive BroadcastPC
  /-- Before `h.mu.RLock()`. -/
  | start
  /-- After `h.mu.RUnlock()`, the room exists at `r`; before `r.mu.RLock()`. -/
  | found (r : Nat)
  /-- Inside the loop, holding the read lock of `r.mu`; `todo` are the members
  still to visit. -/
  | iter (r : Nat) (todo : List (String × Connection))
  /-- Returned. -/
  | done
deriving DecidableEq, Repr

/-- The state of a broadcast in progress: the shared hub, the room object whose
`r.mu` the broadcaster holds read-locked, the world of the connections, the
`Send` calls made so far, the broadcaster, and the goroutines started so far,
each with the connection it was started for and the call it has in progress
(`none` once it has returned). -/
structure BroadcastRun (σ : Type) where
  hub : SharedHub
  readLocked : Option Nat
  world : σ
  calls : List SendCall
  pc : BroadcastPC
  spawned : List (Connection × Option Call)

/-- The state when `Broadcast` is called. -/
def BroadcastRun.init {σ : Type} (s : SharedHub) (w : σ) : BroadcastRun σ :=
  ⟨s, none, w, [], .start, []⟩

/-- The next step of the broadcaster: the lookup, the read lock, one iteration of
the loop, or the deferred `r.mu.RUnlock()`. While the read lock is held the
member set cannot change, so the members to visit are taken when it is
acquired. -/
def BroadcastRun.stepBroadcast {σ : Type} (send : Connection → Bytes → σ → Bool × σ)
    (range : GoMap Connection → List (String × Connection))
    (sender : Connection) (data : Bytes) (st : BroadcastRun σ) : BroadcastRun σ :=
  match st.pc with
  | .start =>
    match st.hub.rooms.get sender.Room with
    | none => { st with pc := .done }
    | some r => { st with pc := .found r }
  | .found r => { st with readLocked := some r, pc := .iter r (range (st.hub.clients r)) }
  | .iter _ [] => { st with readLocked := none, pc := .done }
  | .iter r ((id, conn) :: rest) =>
    if id = sender.ID then { st with pc := .iter r rest }
    else
      { st with
        world := (send conn data st.world).2
        calls := st.calls ++ [⟨conn, data, (send conn data st.world).1⟩]
        pc := .iter r rest
        spawned :=
          if (send conn data st.world).1 then st.spawned ++ [(conn, some (.Unregister conn))]
          else st.spawned }
  | .done => st

/-- The next critical section of the call write-locks the `r.mu` that is held
read-locked, so the call waits. -/
def Call.waits (call : Call) (readLocked : Option Nat) : Bool :=
  match call, readLocked with
  | .RegisterRoom _ r, some l => r == l
  | .UnregisterRoom _ r, some l => r == l
  | _, _ => false

/-- Goroutine `i` runs its next critical section, unless it has returned or
waits for a lock. -/
def BroadcastRun.stepGoroutine {σ : Type} (st : BroadcastRun σ) (i : Nat) :
    BroadcastRun σ :=
  match st.spawned.get? i with
  | none => st
  | some (_, none) => st
  | some (c, some call) =>
    if call.waits st.readLocked then st
    else
      { st with
        hub := (call.step st.hub).1
        spawned := st.spawned.set i (c, (call.step st.hub).2) }

/-- One step of the run: of the broadcaster (`none`) or of goroutine `i`
(`some i`). -/
def BroadcastRun.step {σ : Type} (send : Connection → Bytes → σ → Bool × σ)
    (range : GoMap Connection → List (String × Connection))
    (sender : Connection) (data : Bytes) (st : BroadcastRun σ) :
    Option Nat → BroadcastRun σ
  | none => st.stepBroadcast send range sender data
  | some i => st.stepGoroutine i

/-- The run after the steps of a schedule. -/
def BroadcastRun.run {σ : Type} (send : Connection → Bytes → σ → Bool × σ)
    (range : GoMap Connection → List (String × Connection))
    (sender : Connection) (data : Bytes) (st : BroadcastRun σ)
    (schedule : List (Option Nat)) : BroadcastRun σ :=
  schedule.foldl (BroadcastRun.step send range sender data) st

/-- The scenario `exHub` as a shared hub. -/
def exShared : SharedHub :=
  ⟨[("room1", 0), ("room2", 1)],
    [[("sender", exSender), ("recv1", exRecv1), ("recv2", exRecv2)], [("other", exOther)]]⟩

/-- What a goroutine started for the connection `p.1` can have in progress, when
`r` is the room object of the sender's room and `members` its member set: the
call not yet begun, the call holding the room pointer, the call about to delete
the room (the room is then empty), or nothing more (the connection is then not a
member). -/
def goroutineOk (members : GoMap Connection) (r : Nat) (p : Connection × Option Call) :
    Prop :=
  p.2 = some (.Unregister p.1) ∨ p.2 = some (.UnregisterRoom p.1 r) ∨
  (p.2 = some (.UnregisterEmpty p.1) ∧ members = []) ∨
  (p.2 = none ∧ ∀ e ∈ members, e.1 ≠ p.1.ID)

/-- The loop so far and the loop still to run make up the whole loop over
`entries` from the world `w`. -/
def loopProgress {σ : Type} (send : Connection → Bytes → σ → Bool × σ)
    (sender : Connection) (data : Bytes) (entries : List (String × Connection)) (w : σ)
    (todo : List (String × Connection)) (st : BroadcastRun σ) : Prop :=
  (broadcastLoop send sender.ID data entries w).world
    = (broadcastLoop send sender.ID data todo st.world).world ∧
  (broadcastLoop send sender.ID data entries w).calls
    = st.calls ++ (broadcastLoop send sender.ID data todo st.world).calls ∧
  (broadcastLoop send sender.ID data entries w).spawned
    = st.spawned.map Prod.fst ++ (broadcastLoop send sender.ID data todo st.world).spawned

/-- The hub during the unregistrations, against the hub `s` the broadcast started
from: the registry is unchanged or has lost the sender's room, which is then
empty; the room has lost members only, and none but those a goroutine was
started for. -/
structure hubInv {σ : Type} (s : SharedHub) (name : String) (r : Nat)
    (st : BroadcastRun σ) : Prop where
  rooms : st.hub.rooms = s.rooms ∨
    (st.hub.rooms = s.rooms.delete name ∧ st.hub.clients r = [])
  heapLen : st.hub.heap.length = s.heap.length
  sub : ∀ e ∈ st.hub.clients r, e ∈ s.clients r
  kept : ∀ e ∈ s.clients r, (∀ c ∈ st.spawned.map Prod.fst, c.ID ≠ e.1) →
    e ∈ st.hub.clients r
  tasks : ∀ p ∈ st.spawned, goroutineOk (st.hub.clients r) r p ∧ p.1.Room = name

/-- The invariant of a run of a broadcast that started from the hub `s` and the
world `w`. -/
def BroadcastRun.Inv {σ : Type} (send : Connection → Bytes → σ → Bool × σ)
    (range : GoMap Connection → List (String × Connection))
    (sender : Connection) (data : Bytes) (s : SharedHub) (w : σ)
    (st : BroadcastRun σ) : Prop :=
  match st.pc with
  | .start => st = BroadcastRun.init s w
  | .found r =>
    s.rooms.get sender.Room = some r ∧ st = ⟨s, none, w, [], .found r, []⟩
  | .iter r todo =>
    s.rooms.get sender.Room = some r ∧ st.readLocked = some r ∧ st.hub = s ∧
    (∀ e ∈ todo, e ∈ s.clients r) ∧
    loopProgress send sender data (range (s.clients r)) w todo st ∧
    ∀ p ∈ st.spawned,
      (p.2 = some (.Unregister p.1) ∨ p.2 = some (.UnregisterRoom p.1 r)) ∧
      p.1.Room = sender.Room
  | .done =>
    st.readLocked = none ∧
    ((s.rooms.get sender.Room = none ∧ st = ⟨s, none, w, [], .done, []⟩) ∨
      ∃ r, s.rooms.get sender.Room = some r ∧
        loopProgress send sender data (range (s.clients r)) w [] st ∧
        hubInv s sender.Room r st)

/-- The number of critical sections a call still has to run, at most; none when
it has returned. -/
def Call.sectionsLeft : Option Call → Nat
  | none => 0
  | some (.Register _) => 2
  | some (.RegisterRoom _ _) => 1
  | some (.Unregister _) => 3
  | some (.UnregisterRoom _ _) => 2
  | some (.UnregisterEmpty _) => 1

/-- The number of critical sections goroutine `j` of a run still has to run, at
most. -/
def BroadcastRun.sectionsLeft {σ : Type} (st : BroadcastRun σ) (j : Nat) : Nat :=
  Call.sectionsLeft ((st.spawned.get? j).bind Prod.snd)

/-! ## domain/domain.go: the message envelope -/

/-- Go `int64`: the integers from -2^63 to 2^63 - 1. -/
def Int64 : Type := { n : Int // -9223372036854775808 ≤ n ∧ n ≤ 9223372036854775807 }

instance : DecidableEq Int64 := fun a b =>
  decidable_of_iff (a.val = b.val) Subtype.ext_iff.symm

/-- The `int64` of an integer in range. -/
def Int64.ofInt? (n : Int) : Option Int64 :=
  if h : -9223372036854775808 ≤ n ∧ n ≤ 9223372036854775807 then some ⟨n, h⟩ else none

/-- The struct `domain.Message`. `Type_` is the field `Type` (json `type`),
`Position` is the `*int64` field (json `position`, omitted when nil),
`Timestamp` the json field `timestamp`, `ClientID` the json field `clientId`
(omitted when empty). -/
structure Message where
  Type_ : String
  Position : Option Int64
  Timestamp : Int64
  ClientID : String
deriving DecidableEq

/-- The zero value of `domain.Message`, what `var msg domain.Message` declares. -/
def Message.zero : Message := ⟨"", none, ⟨0, by decide⟩, ""⟩

/-! ## encoding/json, as far as `domain.Message` uses it

The Go standard library is not part of the repository. Its documented behaviour
on the struct `domain.Message` is transcribed here: the JSON grammar, the
decoding of an object into the struct (field names matched exactly or, failing
that, case-insensitively; unknown fields skipped; `null` leaving a field as it
is; a value of the wrong type, or a number that is not an `int64`, reported as
an error) and the encoding of the struct (fields in declaration order,
`omitempty`, strings escaped as `json.Marshal` escapes them). -/

/-- A JSON value as the struct decoder sees it: scalars with their content,
arrays and objects by kind only (their content is checked by the scanner and
skipped by the decoder). -/
inductive Value
  | null
  | bool (b : Bool)
  | number (lit : List Char)
  | string (s : List Char)
  | array
  | object
deriving DecidableEq, Repr

/-- JSON white space. -/
def isSpace (c : Char) : Bool :=
  c = ' ' || c = '\t' || c = '\r' || c = '\n'

/-- The input after leading white space. -/
def skipSpace : List Char → List Char
  | [] => []
  | c :: rest => if isSpace c then skipSpace rest else c :: rest

/-- The value of a hexadecimal digit. -/
def hexVal (c : Char) : Option Nat :=
  if '0' ≤ c ∧ c ≤ '9' then some (c.toNat - 48)
  else if 'a' ≤ c ∧ c ≤ 'f' then some (c.toNat - 87)
  else if 'A' ≤ c ∧ c ≤ 'F' then some (c.toNat - 55)
  else none

/-- The number written by four hexadecimal digits. -/
def hex4 (a b c d : Char) : Option Nat :=
  match hexVal a, hexVal b, hexVal c, hexVal d with
  | some x, some y, some z, some w => some (((x * 16 + y) * 16 + z) * 16 + w)
  | _, _, _, _ => none

/-- The character a one-letter escape stands for. -/
def unescape (e : Char) : Option Char :=
  if e = '"' then some '"'
  else if e = '\\' then some '\\'
  else if e = '/' then some '/'
  else if e = 'b' then some (Char.ofNat 8)
  else if e = 'f' then some (Char.ofNat 12)
  else if e = 'n' then some '\n'
  else if e = 'r' then some '\r'
  else if e = 't' then some '\t'
  else none

/-- The Unicode replacement character U+FFFD. -/
def replacementChar : Char := Char.ofNat 0xFFFD

/-- A UTF-16 surrogate code unit (`utf16.IsSurrogate`). -/
def isSurrogate (n : Nat) : Bool := 0xD800 ≤ n && n < 0xE000

/-- The character of a surrogate pair, the replacement character when the pair
is not a high surrogate followed by a low one (`utf16.DecodeRune`). -/
def decodeSurrogates (hi lo : Nat) : Char :=
  if 0xD800 ≤ hi ∧ hi < 0xDC00 ∧ 0xDC00 ≤ lo ∧ lo < 0xE000 then
    Char.ofNat ((hi - 0xD800) * 0x400 + (lo - 0xDC00) + 0x10000)
  else replacementChar

/-- Adds a decoded character in front of the rest of a scanned string. -/
def consChar (c : Char) (r : Option (List Char × List Char)) :
    Option (List Char × List Char) :=
  r.map (fun p => (c :: p.1, p.2))

/-- The number written by an escape `\uXXXX` at the head of the input (`getu4`). -/
def getu4 (input : List Char) : Option Nat :=
  match input with
  | bs :: u :: a :: b :: c :: d :: _ => if bs = '\\' ∧ u = 'u' then hex4 a b c d else none
  | _ => none

/-- Decodes the escape `\uXXXX` from just after the `u`: the character, and the
number of characters of input the escape takes, backslash and `u` included. A
surrogate followed by an escape that completes a pair gives the character of the
pair and takes both escapes; any other surrogate gives the replacement
character. -/
def decodeU (input : List Char) : Option (Char × Nat) :=
  match input with
  | a :: b :: c :: d :: rest =>
    match hex4 a b c d with
    | none => none
    | some n =>
      if isSurrogate n then
        match getu4 rest with
        | some n2 =>
          if decodeSurrogates n n2 = replacementChar then some (replacementChar, 6)
          else some (decodeSurrogates n n2, 12)
        | none => some (replacementChar, 6)
      else some (Char.ofNat n, 6)
  | _ => none

/-- Decodes what stands at the head of the content of a string literal: the
character, and the number of characters of input it takes; `none` on a control
character or a bad escape. -/
def decodeAt (input : List Char) : Option (Char × Nat) :=
  match input with
  | [] => none
  | c :: rest =>
    if c = '\\' then
      match rest with
      | [] => none
      | e :: rest2 =>
        if e = 'u' then decodeU rest2
        else (unescape e).map (fun ch => (ch, 2))
    else if c.toNat < 0x20 then none
    else some (c, 1)

/-- Scans the content of a string literal, after passing over `skip` characters
that belong to an escape already decoded. -/
def scanStringAux : Nat → List Char → Option (List Char × List Char)
  | _, [] => none
  | skip + 1, _ :: rest => scanStringAux skip rest
  | 0, c :: rest =>
    if c = '"' then some ([], rest)
    else
      match decodeAt (c :: rest) with
      | none => none
      | some (ch, n) => consChar ch (scanStringAux (n - 1) rest)

/-- Scans a string literal from just after its opening quote: the decoded
content and the input after the closing quote; `none` on a syntax error (no
closing quote, a control character, a bad escape). -/
def scanString (input : List Char) : Option (List Char × List Char) :=
  scanStringAux 0 input

/-- A decimal digit. -/
def isDigit (c : Char) : Bool := '0' ≤ c && c ≤ '9'

/-- The fraction part of a number, when there is one: a point and at least one
digit. -/
def scanFrac (input : List Char) : Option (List Char × List Char) :=
  match input with
  | [] => some ([], [])
  | c :: rest =>
    if c = '.' then
      if (rest.span isDigit).1 = [] then none
      else some (c :: (rest.span isDigit).1, (rest.span isDigit).2)
    else some ([], c :: rest)

/-- The digits of an exponent, after `e` and the sign: at least one. -/
def scanExpDigits (pre : List Char) (input : List Char) : Option (List Char × List Char) :=
  if (input.span isDigit).1 = [] then none
  else some (pre ++ (input.span isDigit).1, (input.span isDigit).2)

/-- The exponent part of a number, when there is one. -/
def scanExp (input : List Char) : Option (List Char × List Char) :=
  match input with
  | [] => some ([], [])
  | c :: rest =>
    if c = 'e' ∨ c = 'E' then
      match rest with
      | [] => none
      | s :: rest2 =>
        if s = '+' ∨ s = '-' then scanExpDigits [c, s] rest2
        else scanExpDigits [c] (s :: rest2)
    else some ([], c :: rest)

/-- The integer, fraction and exponent parts of a number, after the sign. -/
def scanUnsigned (input : List Char) : Option (List Char × List Char) :=
  match input with
  | [] => none
  | c :: rest =>
    if isDigit c then
      let int := if c = '0' then [c] else c :: (rest.span isDigit).1
      let rest1 := if c = '0' then rest else (rest.span isDigit).2
      match scanFrac rest1 with
      | none => none
      | some (frac, rest2) =>
        match scanExp rest2 with
        | none => none
        | some (exp, rest3) => some (int ++ frac ++ exp, rest3)
    else none

/-- Scans a number literal: its text and the input after it. -/
def scanNumber (input : List Char) : Option (List Char × List Char) :=
  match input with
  | [] => none
  | c :: rest =>
    if c = '-' then (scanUnsigned rest).map (fun p => (c :: p.1, p.2))
    else scanUnsigned (c :: rest)

/-- Scans the literal `word` (`true`, `false` or `null`). -/
def scanLiteral (word : List Char) (v : Value) (input : List Char) :
    Option (Value × List Char) :=
  if input.take word.length = word then some (v, input.drop word.length) else none

mutual

/-- Scans one JSON value at the head of the input; `fuel` bounds the depth of
the calls. -/
def scanValue : Nat → List Char → Option (Value × List Char)
  | 0, _ => none
  | fuel + 1, input =>
    match input with
    | [] => none
    | c :: rest =>
      if c = '"' then (scanString rest).map (fun p => (Value.string p.1, p.2))
      else if c = '{' then
        match skipSpace rest with
        | [] => none
        | c2 :: rest2 =>
          if c2 = '}' then some (Value.object, rest2)
          else (scanMembers fuel (c2 :: rest2)).map (fun p => (Value.object, p.2))
      else if c = '[' then
        match skipSpace rest with
        | [] => none
        | c2 :: rest2 =>
          if c2 = ']' then some (Value.array, rest2)
          else (scanElements fuel (c2 :: rest2)).map (fun r => (Value.array, r))
      else if c = 't' then scanLiteral "true".toList (Value.bool true) (c :: rest)
      else if c = 'f' then scanLiteral "false".toList (Value.bool false) (c :: rest)
      else if c = 'n' then scanLiteral "null".toList Value.null (c :: rest)
      else (scanNumber (c :: rest)).map (fun p => (Value.number p.1, p.2))

/-- Scans the members of an object from the opening quote of a key up to and
including the closing brace: the keys with their values, and the input after
the brace. -/
def scanMembers : Nat → List Char → Option (List (List Char × Value) × List Char)
  | 0, _ => none
  | fuel + 1, input =>
    match input with
    | [] => none
    | q :: rest =>
      if q = '"' then
        match scanString rest with
        | none => none
        | some (key, rest1) =>
          match skipSpace rest1 with
          | [] => none
          | colon :: rest2 =>
            if colon = ':' then
              match scanValue fuel (skipSpace rest2) with
              | none => none
              | some (v, rest3) =>
                match skipSpace rest3 with
                | [] => none
                | sep :: rest4 =>
                  if sep = ',' then
                    (scanMembers fuel (skipSpace rest4)).map
                      (fun p => ((key, v) :: p.1, p.2))
                  else if sep = '}' then some ([(key, v)], rest4)
                  else none
            else none
      else none

/-- Scans the elements of an array from its first element up to and including
the closing bracket: the input after the bracket. -/
def scanElements : Nat → List Char → Option (List Char)
  | 0, _ => none
  | fuel + 1, input =>
    match scanValue fuel input with
    | none => none
    | some (_, rest) =>
      match skipSpace rest with
      | [] => none
      | sep :: rest2 =>
        if sep = ',' then scanElements fuel (skipSpace rest2)
        else if sep = ']' then some rest2
        else none

end

/-- The depth of calls granted for a payload: enough for every nesting its length
allows. -/
def scanFuel (data : Bytes) : Nat := 2 * data.length + 2

/-- The top-level JSON value of a payload: `none` on a syntax error, otherwise
the value and, when it is an object, its members in the order written. -/
def parseTop (data : Bytes) : Option (Value × List (List Char × Value)) :=
  match skipSpace data with
  | [] => none
  | c :: rest =>
    if c = '{' then
      match skipSpace rest with
      | [] => none
      | c2 :: rest2 =>
        if c2 = '}' then
          if skipSpace rest2 = [] then some (Value.object, []) else none
        else
          match scanMembers (scanFuel data) (c2 :: rest2) with
          | none => none
          | some (members, rest3) =>
            if skipSpace rest3 = [] then some (Value.object, members) else none
    else
      match scanValue (scanFuel data) (c :: rest) with
      | none => none
      | some (v, rest2) => if skipSpace rest2 = [] then some (v, []) else none

/-- The fields of `domain.Message`. -/
inductive Field
  | Type_
  | Position
  | Timestamp
  | ClientID
deriving DecidableEq, Repr

/-- Case folding of a character of a key: ASCII letters to upper case, and the
two letters outside ASCII that fold onto an ASCII letter, the long s (U+017F)
and the Kelvin sign (U+212A). -/
def foldChar (c : Char) : Char :=
  if 'a' ≤ c ∧ c ≤ 'z' then Char.ofNat (c.toNat - 32)
  else if c = Char.ofNat 0x17F then 'S'
  else if c = Char.ofNat 0x212A then 'K'
  else c

/-- The field a key of the object names: the one with that json name, or else
the one whose json name equals the key up to case. -/
def findField (key : List Char) : Option Field :=
  if key = "type".toList then some .Type_
  else if key = "position".toList then some .Position
  else if key = "timestamp".toList then some .Timestamp
  else if key = "clientId".toList then some .ClientID
  else if key.map foldChar = "TYPE".toList then some .Type_
  else if key.map foldChar = "POSITION".toList then some .Position
  else if key.map foldChar = "TIMESTAMP".toList then some .Timestamp
  else if key.map foldChar = "CLIENTID".toList then some .ClientID
  else none

/-- The number a string of decimal digits writes. -/
def natOfDigits (ds : List Char) : Nat :=
  ds.foldl (fun acc c => acc * 10 + (c.toNat - 48)) 0

/-- `strconv.ParseInt(lit, 10, 64)` on a JSON number literal: the `int64` it
writes, `none` when it has a fraction or an exponent or is out of range. -/
def parseInt64 (lit : List Char) : Option Int64 :=
  match lit with
  | [] => none
  | c :: rest =>
    if c = '-' then
      if rest ≠ [] ∧ rest.all isDigit then Int64.ofInt? (-(natOfDigits rest : Int)) else none
    else if (c :: rest).all isDigit then Int64.ofInt? (natOfDigits (c :: rest) : Int)
    else none

/-- Why `json.Unmarshal` returned an error. -/
inductive UnmarshalError
  /-- The payload is not valid JSON (`*json.SyntaxError`). -/
  | syntaxError
  /-- A JSON value does not fit the Go type it is decoded into
  (`*json.UnmarshalTypeError`). -/
  | typeError
deriving DecidableEq, Repr

/-- Decodes one member of the object into the message: a member whose key names
no field is skipped; `null` clears the `Position` pointer and leaves any other
field as it is; a string goes into a string field, a number that is an `int64`
into an integer field; anything else is a type error. -/
def decodeMember (msg : Message) (member : List Char × Value) :
    Except UnmarshalError Message :=
  match findField member.1 with
  | none => .ok msg
  | some .Type_ =>
    match member.2 with
    | .null => .ok msg
    | .string s => .ok { msg with Type_ := ⟨s⟩ }
    | _ => .error .typeError
  | some .Position =>
    match member.2 with
    | .null => .ok { msg with Position := none }
    | .number lit =>
      match parseInt64 lit with
      | some n => .ok { msg with Position := some n }
      | none => .error .typeError
    | _ => .error .typeError
  | some .Timestamp =>
    match member.2 with
    | .null => .ok msg
    | .number lit =>
      match parseInt64 lit with
      | some n => .ok { msg with Timestamp := n }
      | none => .error .typeError
    | _ => .error .typeError
  | some .ClientID =>
    match member.2 with
    | .null => .ok msg
    | .string s => .ok { msg with ClientID := ⟨s⟩ }
    | _ => .error .typeError

/-- Decodes the members of the object, in order, into the message. -/
def decodeMembers (msg : Message) : List (List Char × Value) → Except UnmarshalError Message
  | [] => .ok msg
  | member :: rest =>
    match decodeMember msg member with
    | .ok msg2 => decodeMembers msg2 rest
    | .error e => .error e

/-- `json.Unmarshal(data, &msg)` on a zero `domain.Message`: the message, or the
error. A payload that is not valid JSON is a syntax error; `null` leaves the
message zero; an object is decoded member by member; any other value is a type
error. -/
def Unmarshal (data : Bytes) : Except UnmarshalError Message :=
  match parseTop data with
  | none => .error .syntaxError
  | some (.object, members) => decodeMembers Message.zero members
  | some (.null, _) => .ok Message.zero
  | some (_, _) => .error .typeError

/-- The lower-case hexadecimal digit of a number below 16. -/
def hexDigit (n : Nat) : Char :=
  if n < 10 then Char.ofNat (48 + n) else Char.ofNat (87 + n)

/-- How `json.Marshal` writes one character of a string: the quote and the
backslash behind a backslash, the control characters as `\b`, `\f`, `\n`, `\r`,
`\t` or `\u00XX`, the characters `<`, `>`, `&`, U+2028 and U+2029 as `\uXXXX`,
every other character as it is. -/
def escapeChar (c : Char) : List Char :=
  if c = '"' ∨ c = '\\' then ['\\', c]
  else if c = Char.ofNat 8 then ['\\', 'b']
  else if c = Char.ofNat 12 then ['\\', 'f']
  else if c = '\n' then ['\\', 'n']
  else if c = '\r' then ['\\', 'r']
  else if c = '\t' then ['\\', 't']
  else if c.toNat < 0x20 ∨ c = '<' ∨ c = '>' ∨ c = '&' then
    ['\\', 'u', '0', '0', hexDigit (c.toNat / 16), hexDigit (c.toNat % 16)]
  else if c.toNat = 0x2028 ∨ c.toNat = 0x2029 then
    ['\\', 'u', '2', '0', '2', hexDigit (c.toNat % 16)]
  else [c]

/-- The escaped content of a string. -/
def escape : List Char → List Char
  | [] => []
  | c :: rest => escapeChar c ++ escape rest

/-- A string as a JSON string literal. -/
def quote (s : List Char) : List Char := '"' :: (escape s ++ ['"'])

/-- The decimal digits of a natural number in front of `acc`; `fuel` bounds
their number. -/
def formatNatAux : Nat → Nat → List Char → List Char
  | 0, _, acc => acc
  | fuel + 1, n, acc =>
    if n < 10 then Char.ofNat (48 + n) :: acc
    else formatNatAux fuel (n / 10) (Char.ofNat (48 + n % 10) :: acc)

/-- A natural number in decimal. -/
def formatNat (n : Nat) : List Char := formatNatAux (n + 1) n []

/-- An integer in decimal (`strconv.AppendInt(b, n, 10)`). -/
def formatInt : Int → List Char
  | .ofNat n => formatNat n
  | .negSucc n => '-' :: formatNat (n + 1)

/-- The members the struct encoder writes for a message, in the order of the
fields: json name and encoded value. `position` is left out when the pointer is
nil, `clientId` when the string is empty. -/
def Message.members (m : Message) : List (List Char × List Char) :=
  [("type".toList, quote m.Type_.data)]
    ++ (match m.Position with
        | some p => [("position".toList, formatInt p.val)]
        | none => [])
    ++ [("timestamp".toList, formatInt m.Timestamp.val)]
    ++ (if m.ClientID = "" then [] else [("clientId".toList, quote m.ClientID.data)])

/-- The members of the object `json.Marshal` writes for a message, as JSON
values. -/
def Message.values (m : Message) : List (List Char × Value) :=
  [("type".toList, Value.string m.Type_.data)]
    ++ (match m.Position with
        | some p => [("position".toList, Value.number (formatInt p.val))]
        | none => [])
    ++ [("timestamp".toList, Value.number (formatInt m.Timestamp.val))]
    ++ (if m.ClientID = "" then [] else [("clientId".toList, Value.string m.ClientID.data)])

/-- The members of an object as text, separated by commas. -/
def writeMembers : List (List Char × List Char) → List Char
  | [] => []
  | [member] => quote member.1 ++ ':' :: member.2
  | member :: rest => quote member.1 ++ ':' :: member.2 ++ ',' :: writeMembers rest

/-- Why `json.Marshal` returned an error. -/
inductive MarshalError
  /-- A value of a type that JSON cannot represent. -/
  | unsupported
deriving DecidableEq, Repr

/-- `json.Marshal(msg)` for a `domain.Message`: the object with the members of
the message. Every field has a type JSON represents, so there is no error. -/
def Marshal (m : Message) : Except MarshalError Bytes :=
  .ok ('{' :: (writeMembers m.members ++ ['}']))

/-- The text is JSON text of the value `v`: it starts with no white space, and
scanning it in front of a separator gives `v` and stops at the separator. -/
def Encodes (text : List Char) (v : Value) : Prop :=
  (∃ c rest, text = c :: rest ∧ isSpace c = false) ∧
  ∀ (fuel : Nat) (sep : Char) (tail : List Char), sep = ',' ∨ sep = '}' →
    scanValue (fuel + 1) (text ++ sep :: tail) = some (v, sep :: tail)

/-! ## protocol/handler.go -/

/-- A call that a handler of the system makes on one of its collaborators: the
methods of `domain.Connection` and `domain.Broadcaster`, and the log. -/
inductive Event
  | Send (conn : Connection) (data : Bytes)
  | Close (conn : Connection)
  | Register (conn : Connection)
  | Unregister (conn : Connection)
  | Broadcast (sender : Connection) (data : Bytes)
  | Stats
  | Warn (msg : String)
deriving DecidableEq, Repr

/-- `Handler.Handle(conn, data)`: the calls it makes, in order. -/
def Handle (conn : Connection) (data : Bytes) : List Event :=
  match Unmarshal data with
  | .error _ => [.Warn "invalid message"]
  | .ok msg =>
    if msg.Type_ = "ping" then
      match Marshal ⟨"pong", none, msg.Timestamp, conn.ID⟩ with
      | .ok resp => [.Send conn resp]
      | .error _ => []
    else
      match Marshal { msg with ClientID := conn.ID } with
      | .error _ => [.Warn "marshal error"]
      | .ok broadcast => [.Broadcast conn broadcast]

/-! ## Payloads of the handler tests -/

/-- The connection of the handler tests. -/
def exClient : Connection := ⟨"client1", "room1", 1⟩

/-- The liveness probe of `TestHandler_PingPong`. -/
def exPing : Bytes := "\x7b\"type\":\"ping\",\"timestamp\":12345\x7d".toList

/-- The message of `TestHandler_Broadcast`. -/
def exToggle : Bytes := "\x7b\"type\":\"toggle\",\"timestamp\":99999\x7d".toList

/-- A message with a field that is not part of the envelope, and with a
`clientId` of the sender's choosing. -/
def exChat : Bytes :=
  "\x7b\"type\":\"chat\",\"timestamp\":1,\"text\":\"hi\",\"clientId\":\"someone\"\x7d".toList

/-- What the handler broadcasts for `exChat` received from `exClient`. -/
def exChatRelayed : Bytes :=
  "\x7b\"type\":\"chat\",\"timestamp\":1,\"clientId\":\"client1\"\x7d".toList

/-! ## Lemmas on Go maps -/

namespace GoMap
variable {V : Type}

theorem get_set_self (m : GoMap V) (k : String) (v : V) : (m.set k v).get k = some v := by
  induction m with
  | nil => simp [set, get]
  | cons e rest ih =>
    obtain ⟨k', v'⟩ := e
    by_cases hk : k' = k <;> simp [set, get, hk, ih]

theorem get_set_ne (m : GoMap V) {k k2 : String} (v : V) (hne : k2 ≠ k) :
    (m.set k v).get k2 = m.get k2 := by
  induction m with
  | nil => simp [set, get, Ne.symm hne]
  | cons e rest ih =>
    obtain ⟨k', v'⟩ := e
    by_cases hk : k' = k
    · subst hk; simp [set, get, Ne.symm hne]
    · by_cases hk2 : k' = k2
      · subst hk2; simp [set, get, hne]
      · simp [set, get, hk, hk2, ih]

theorem set_of_get {m : GoMap V} {k : String} {v : V} (hget : m.get k = some v) :
    m.set k v = m := by
  induction m with
  | nil => simp [get] at hget
  | cons e rest ih =>
    obtain ⟨k', v'⟩ := e
    by_cases hk : k' = k
    · subst hk; simp [get] at hget; simp [set, hget]
    · simp [get, hk] at hget; simp [set, hk, ih hget]

theorem get_eq_none_iff (m : GoMap V) (k : String) : m.get k = none ↔ k ∉ m.keys := by
  induction m with
  | nil => simp [get, keys]
  | cons e rest ih =>
    obtain ⟨k', v'⟩ := e
    by_cases hk : k' = k
    · subst hk; simp [get, keys]
    · simp only [keys] at ih
      simp [get, keys, hk, ih, Ne.symm hk]

theorem mem_of_get {m : GoMap V} {k : String} {v : V} (hget : m.get k = some v) :
    (k, v) ∈ m := by
  induction m with
  | nil => simp [get] at hget
  | cons e rest ih =>
    obtain ⟨k', v'⟩ := e
    by_cases hk : k' = k
    · subst hk; simp [get] at hget; simp [hget]
    · simp [get, hk] at hget; simp [ih hget]

theorem get_of_mem {m : GoMap V} (hnd : m.keys.Nodup) {k : String} {v : V}
    (hmem : (k, v) ∈ m) : m.get k = some v := by
  induction m with
  | nil => simp at hmem
  | cons e rest ih =>
    obtain ⟨k', v'⟩ := e
    simp only [keys, List.map_cons, List.nodup_cons] at hnd
    rcases List.mem_cons.mp hmem with heq | hin
    · cases heq; simp [get]
    · have hk : k' ≠ k := by
        rintro rfl
        exact hnd.1 (List.mem_map.mpr ⟨(k', v), hin, rfl⟩)
      simp [get, hk, ih hnd.2 hin]

theorem mem_set_iff {m : GoMap V} (hnd : m.keys.Nodup) (k : String) (v : V)
    (e : String × V) : e ∈ m.set k v ↔ e = (k, v) ∨ (e ∈ m ∧ e.1 ≠ k) := by
  induction m with
  | nil => simp [set]
  | cons e' rest ih =>
    obtain ⟨k', v'⟩ := e'
    simp only [keys, List.map_cons, List.nodup_cons] at hnd
    by_cases hk : k' = k
    · subst hk
      simp only [set, if_true, List.mem_cons]
      constructor
      · rintro (h | h)
        · exact Or.inl h
        · refine Or.inr ⟨Or.inr h, ?_⟩
          intro he
          exact hnd.1 (List.mem_map.mpr ⟨e, h, he⟩)
      · rintro (h | ⟨h | h, hne⟩)
        · exact Or.inl h
        · subst h; exact absurd rfl hne
        · exact Or.inr h
    · simp only [set, hk, if_false, List.mem_cons, ih hnd.2]
      constructor
      · rintro (h | h | h)
        · subst h; exact Or.inr ⟨Or.inl rfl, hk⟩
        · exact Or.inl h
        · exact Or.inr ⟨Or.inr h.1, h.2⟩
      · rintro (h | ⟨h | h, hne⟩)
        · exact Or.inr (Or.inl h)
        · exact Or.inl h
        · exact Or.inr (Or.inr ⟨h, hne⟩)

theorem keys_set_of_mem {m : GoMap V} {k : String} (v : V) (hk : k ∈ m.keys) :
    (m.set k v).keys = m.keys := by
  induction m with
  | nil => simp [keys] at hk
  | cons e rest ih =>
    obtain ⟨k', v'⟩ := e
    by_cases hk' : k' = k
    · subst hk'; simp [set, keys]
    · have : k ∈ keys rest := by
        simp only [keys, List.map_cons, List.mem_cons] at hk
        rcases hk with h | h
        · exact absurd h.symm hk'
        · exact h
      simp only [keys] at ih
      simp [set, keys, hk', ih this]

theorem keys_set_of_not_mem {m : GoMap V} {k : String} (v : V) (hk : k ∉ m.keys) :
    (m.set k v).keys = m.keys ++ [k] := by
  induction m with
  | nil => simp [set, keys]
  | cons e rest ih =>
    obtain ⟨k', v'⟩ := e
    simp only [keys, List.map_cons, List.mem_cons, not_or] at hk
    simp only [keys] at ih
    simp [set, keys, Ne.symm hk.1, ih hk.2]

theorem nodup_keys_set {m : GoMap V} (hnd : m.keys.Nodup) (k : String) (v : V) :
    (m.set k v).keys.Nodup := by
  by_cases hk : k ∈ m.keys
  · rw [keys_set_of_mem v hk]; exact hnd
  · rw [keys_set_of_not_mem v hk]
    exact List.Nodup.append hnd (List.nodup_singleton k) (by simpa using hk)

theorem mem_delete_iff (m : GoMap V) (k : String) (e : String × V) :
    e ∈ m.delete k ↔ e ∈ m ∧ e.1 ≠ k := by
  simp [delete]

theorem keys_delete (m : GoMap V) (k : String) :
    (m.delete k).keys = m.keys.filter (fun x => !decide (x = k)) := by
  simp only [delete, keys, List.filter_map]
  rfl

theorem nodup_keys_delete {m : GoMap V} (hnd : m.keys.Nodup) (k : String) :
    (m.delete k).keys.Nodup := by
  rw [keys_delete]; exact hnd.filter _

theorem get_delete_self (m : GoMap V) (k : String) : (m.delete k).get k = none := by
  rw [get_eq_none_iff, keys_delete]; simp

theorem get_delete_ne (m : GoMap V) {k k2 : String} (hne : k2 ≠ k) :
    (m.delete k).get k2 = m.get k2 := by
  induction m with
  | nil => simp [delete, get]
  | cons e rest ih =>
    obtain ⟨k', v'⟩ := e
    simp only [delete] at ih
    by_cases hk : k' = k
    · subst hk; simp [delete, get, Ne.symm hne, ih]
    · by_cases hk2 : k' = k2
      · subst hk2; simp [delete, get, hk]
      · simp [delete, get, hk, hk2, ih]

theorem delete_of_get_none {m : GoMap V} {k : String} (hget : m.get k = none) :
    m.delete k = m := by
  rw [get_eq_none_iff] at hget
  simp only [delete, List.filter_eq_self, Bool.not_eq_true', decide_eq_false_iff_not]
  intro e he hek
  exact hget (List.mem_map.mpr ⟨e, he, hek⟩)

end GoMap

namespace GoMap
variable {V : Type}

theorem set_ne_nil (m : GoMap V) (k : String) (v : V) : m.set k v ≠ [] := by
  cases m with
  | nil => simp [set]
  | cons e rest =>
    obtain ⟨k', v'⟩ := e
    by_cases hk : k' = k <;> simp [set, hk]

theorem mem_keys_of_get {m : GoMap V} {k : String} {v : V} (hget : m.get k = some v) :
    k ∈ m.keys :=
  List.mem_map.mpr ⟨(k, v), mem_of_get hget, rfl⟩

theorem length_set_of_get {m : GoMap V} {k : String} {old : V} (v : V)
    (hget : m.get k = some old) : (m.set k v).length = m.length := by
  have h := congrArg List.length (keys_set_of_mem v (mem_keys_of_get hget))
  simpa [keys] using h

theorem length_set_of_none {m : GoMap V} {k : String} (v : V)
    (hget : m.get k = none) : (m.set k v).length = m.length + 1 := by
  have h := congrArg List.length (keys_set_of_not_mem v ((get_eq_none_iff m k).mp hget))
  simpa [keys] using h

theorem sum_set_of_get {m : GoMap V} {k : String} {old : V} (v : V) (f : String × V → Nat)
    (hget : m.get k = some old) :
    ((m.set k v).map f).sum + f (k, old) = (m.map f).sum + f (k, v) := by
  induction m with
  | nil => simp [get] at hget
  | cons e rest ih =>
    obtain ⟨k', v'⟩ := e
    by_cases hk : k' = k
    · subst hk
      simp only [get, if_true, Option.some.injEq] at hget
      subst hget
      simp only [set, if_true, List.map_cons, List.sum_cons]
      omega
    · simp only [get, hk, if_false] at hget
      have := ih hget
      simp only [set, hk, if_false, List.map_cons, List.sum_cons]
      omega

theorem sum_set_of_none {m : GoMap V} {k : String} (v : V) (f : String × V → Nat)
    (hget : m.get k = none) : ((m.set k v).map f).sum = (m.map f).sum + f (k, v) := by
  induction m with
  | nil => simp [set]
  | cons e rest ih =>
    obtain ⟨k', v'⟩ := e
    by_cases hk : k' = k
    · simp [get, hk] at hget
    · simp only [get, hk, if_false] at hget
      have := ih hget
      simp only [set, hk, if_false, List.map_cons, List.sum_cons]
      omega

theorem sum_delete_of_get {m : GoMap V} (hnd : m.keys.Nodup) {k : String} {old : V}
    (f : String × V → Nat) (hget : m.get k = some old) :
    ((m.delete k).map f).sum + f (k, old) = (m.map f).sum := by
  induction m with
  | nil => simp [get] at hget
  | cons e rest ih =>
    obtain ⟨k', v'⟩ := e
    simp only [keys, List.map_cons, List.nodup_cons] at hnd
    by_cases hk : k' = k
    · subst hk
      simp only [get, if_true, Option.some.injEq] at hget
      subst hget
      have hnone : get rest k' = none := (get_eq_none_iff rest k').mpr hnd.1
      have hrest := delete_of_get_none hnone
      simp only [delete] at hrest
      simp only [delete, List.filter_cons, decide_True, Bool.not_true, Bool.false_eq_true,
        if_false, hrest, List.map_cons, List.sum_cons]
      omega
    · simp only [get, hk, if_false] at hget
      have := ih hnd.2 hget
      simp only [delete] at this
      simp only [delete, List.filter_cons, hk, decide_False, Bool.not_false, if_true,
        List.map_cons, List.sum_cons]
      omega

theorem length_delete_of_get {m : GoMap V} (hnd : m.keys.Nodup) {k : String} {old : V}
    (hget : m.get k = some old) : (m.delete k).length + 1 = m.length := by
  have h := sum_delete_of_get hnd (fun _ => 1) hget
  simpa using h

end GoMap

/-! ## The registry invariant -/

theorem Hub.Stats_eq (h : Hub) :
    h.Stats = (h.rooms.length, (h.rooms.map (fun e => e.2.clients.length)).sum) := by
  have hfold : ∀ (l : GoMap room) (acc : Nat),
      l.foldl (fun clients e => clients + e.2.clients.len) acc
        = acc + (l.map (fun e => e.2.clients.length)).sum := by
    intro l
    induction l with
    | nil => intro acc; simp
    | cons e rest ih =>
      intro acc
      rw [List.foldl_cons, ih, List.map_cons, List.sum_cons]
      simp only [GoMap.len]
      omega
  unfold Hub.Stats
  rw [hfold]
  simp [GoMap.len]

theorem Hub.clientsOf_of_get {h : Hub} {name : String} {r : room}
    (hget : h.rooms.get name = some r) : h.clientsOf name = r.clients := by
  simp [Hub.clientsOf, hget]

theorem Hub.clientsOf_of_none {h : Hub} {name : String}
    (hget : h.rooms.get name = none) : h.clientsOf name = [] := by
  simp [Hub.clientsOf, hget]

theorem Hub.Register_rooms (h : Hub) (c : Connection) :
    (h.Register c).rooms = h.rooms.set c.Room ⟨(h.clientsOf c.Room).set c.ID c⟩ := by
  unfold Hub.Register Hub.clientsOf
  cases h.rooms.get c.Room <;> rfl

theorem WF_New : New.WF := by
  constructor <;> simp [New, GoMap.keys]

theorem Hub.WF.clientsOf_nodup {h : Hub} (hwf : h.WF) (name : String) :
    (h.clientsOf name).keys.Nodup := by
  unfold Hub.clientsOf
  cases hget : h.rooms.get name with
  | none => simp [GoMap.keys]
  | some r => exact hwf.clientsNodup _ (GoMap.mem_of_get hget)

theorem Hub.WF.clientsOf_stored {h : Hub} (hwf : h.WF) {name : String}
    {ce : String × Connection} (hmem : ce ∈ h.clientsOf name) :
    ce.2.ID = ce.1 ∧ ce.2.Room = name := by
  unfold Hub.clientsOf at hmem
  cases hget : h.rooms.get name with
  | none => simp [hget] at hmem
  | some r =>
    simp only [hget] at hmem
    exact hwf.stored _ (GoMap.mem_of_get hget) ce hmem

theorem Hub.WF.Register {h : Hub} (hwf : h.WF) (c : Connection) : (h.Register c).WF := by
  have hrooms := Hub.Register_rooms h c
  constructor
  · rw [hrooms]; exact GoMap.nodup_keys_set hwf.roomsNodup _ _
  · intro e he
    rw [hrooms, GoMap.mem_set_iff hwf.roomsNodup] at he
    rcases he with rfl | ⟨he, _⟩
    · exact GoMap.nodup_keys_set (hwf.clientsOf_nodup _) _ _
    · exact hwf.clientsNodup e he
  · intro e he
    rw [hrooms, GoMap.mem_set_iff hwf.roomsNodup] at he
    rcases he with rfl | ⟨he, _⟩
    · exact GoMap.set_ne_nil _ _ _
    · exact hwf.nonempty e he
  · intro e he ce hce
    rw [hrooms, GoMap.mem_set_iff hwf.roomsNodup] at he
    rcases he with rfl | ⟨he, _⟩
    · rw [GoMap.mem_set_iff (hwf.clientsOf_nodup _)] at hce
      rcases hce with rfl | ⟨hce, _⟩
      · exact ⟨rfl, rfl⟩
      · exact hwf.clientsOf_stored hce
    · exact hwf.stored e he ce hce

theorem Hub.WF.Unregister {h : Hub} (hwf : h.WF) (c : Connection) :
    (h.Unregister c).WF := by
  unfold Hub.Unregister
  cases hget : h.rooms.get c.Room with
  | none => exact hwf
  | some r =>
    have hr := GoMap.mem_of_get hget
    have hnd1 : (h.rooms.set c.Room ⟨r.clients.delete c.ID⟩).keys.Nodup :=
      GoMap.nodup_keys_set hwf.roomsNodup _ _
    simp only
    split
    · constructor
      · exact GoMap.nodup_keys_delete hnd1 _
      · intro e he
        rw [GoMap.mem_delete_iff, GoMap.mem_set_iff hwf.roomsNodup] at he
        rcases he with ⟨rfl | ⟨he, _⟩, hne⟩
        · exact absurd rfl hne
        · exact hwf.clientsNodup e he
      · intro e he
        rw [GoMap.mem_delete_iff, GoMap.mem_set_iff hwf.roomsNodup] at he
        rcases he with ⟨rfl | ⟨he, _⟩, hne⟩
        · exact absurd rfl hne
        · exact hwf.nonempty e he
      · intro e he
        rw [GoMap.mem_delete_iff, GoMap.mem_set_iff hwf.roomsNodup] at he
        rcases he with ⟨rfl | ⟨he, _⟩, hne⟩
        · exact absurd rfl hne
        · exact hwf.stored e he
    · rename_i hcount
      constructor
      · exact hnd1
      · intro e he
        rw [GoMap.mem_set_iff hwf.roomsNodup] at he
        rcases he with rfl | ⟨he, _⟩
        · exact GoMap.nodup_keys_delete (hwf.clientsNodup _ hr) _
        · exact hwf.clientsNodup e he
      · intro e he
        rw [GoMap.mem_set_iff hwf.roomsNodup] at he
        rcases he with rfl | ⟨he, _⟩
        · intro hnil
          apply hcount
          simp only at hnil
          simp [GoMap.len, hnil]
        · exact hwf.nonempty e he
      · intro e he ce hce
        rw [GoMap.mem_set_iff hwf.roomsNodup] at he
        rcases he with rfl | ⟨he, _⟩
        · rw [GoMap.mem_delete_iff] at hce
          exact hwf.stored _ hr ce hce.1
        · exact hwf.stored e he ce hce

theorem Reachable.WF {h : Hub} (hr : Reachable h) : h.WF := by
  induction hr with
  | new => exact WF_New
  | register c _ ih => exact ih.Register c
  | unregister c _ ih => exact ih.Unregister c

/-! ## Broadcast -/

theorem broadcastLoop_calls {σ : Type} (send : Connection → Bytes → σ → Bool × σ)
    (senderID : String) (data : Bytes) (l : List (String × Connection)) (w : σ) :
    (broadcastLoop send senderID data l w).calls.map SendCall.conn
      = (l.filter (fun e => !decide (e.1 = senderID))).map Prod.snd := by
  induction l generalizing w with
  | nil => simp [broadcastLoop]
  | cons e rest ih =>
    obtain ⟨id, conn⟩ := e
    by_cases hid : id = senderID
    · simp [broadcastLoop, hid, ih]
    · simp [broadcastLoop, hid, ih]

theorem broadcastLoop_data {σ : Type} (send : Connection → Bytes → σ → Bool × σ)
    (senderID : String) (data : Bytes) (l : List (String × Connection)) (w : σ) :
    ∀ call ∈ (broadcastLoop send senderID data l w).calls, call.data = data := by
  induction l generalizing w with
  | nil => simp [broadcastLoop]
  | cons e rest ih =>
    obtain ⟨id, conn⟩ := e
    by_cases hid : id = senderID
    · simpa [broadcastLoop, hid] using ih w
    · intro call hcall
      simp only [broadcastLoop, hid, if_false, List.mem_cons] at hcall
      rcases hcall with rfl | hcall
      · rfl
      · exact ih _ call hcall

theorem broadcastLoop_spawned {σ : Type} (send : Connection → Bytes → σ → Bool × σ)
    (senderID : String) (data : Bytes) (l : List (String × Connection)) (w : σ) :
    (broadcastLoop send senderID data l w).spawned
      = ((broadcastLoop send senderID data l w).calls.filter SendCall.failed).map
          SendCall.conn := by
  induction l generalizing w with
  | nil => simp [broadcastLoop]
  | cons e rest ih =>
    obtain ⟨id, conn⟩ := e
    by_cases hid : id = senderID
    · simpa [broadcastLoop, hid] using ih w
    · simp only [broadcastLoop, hid, if_false]
      cases hs : (send conn data w).1 <;> simp [List.filter_cons, hs, ih]

theorem broadcastLoop_world {σ : Type} (send : Connection → Bytes → σ → Bool × σ)
    (senderID : String) (data : Bytes) (l : List (String × Connection)) (w : σ) :
    (broadcastLoop send senderID data l w).world
      = ((broadcastLoop send senderID data l w).calls.map SendCall.conn).foldl
          (fun w c => (send c data w).2) w := by
  induction l generalizing w with
  | nil => simp [broadcastLoop]
  | cons e rest ih =>
    obtain ⟨id, conn⟩ := e
    by_cases hid : id = senderID
    · simpa [broadcastLoop, hid] using ih w
    · simp only [broadcastLoop, hid, if_false, List.map_cons, List.foldl_cons]
      exact ih _

theorem broadcastLoop_flags {σ : Type} (send : Connection → Bytes → σ → Bool × σ)
    (senderID : String) (data : Bytes) (l : List (String × Connection)) (w : σ)
    (pre : List Connection) (c : Connection) (post : List Connection)
    (hsplit : (broadcastLoop send senderID data l w).calls.map SendCall.conn
      = pre ++ c :: post) :
    (⟨c, data, (send c data (pre.foldl (fun w c => (send c data w).2) w)).1⟩ : SendCall)
      ∈ (broadcastLoop send senderID data l w).calls := by
  induction l generalizing w pre with
  | nil => simp [broadcastLoop] at hsplit
  | cons e rest ih =>
    obtain ⟨id, conn⟩ := e
    by_cases hid : id = senderID
    · simp only [broadcastLoop, hid, if_true] at hsplit ⊢
      exact ih w pre hsplit
    · simp only [broadcastLoop, hid, if_false, List.map_cons] at hsplit ⊢
      cases pre with
      | nil =>
        simp only [List.nil_append, List.cons.injEq] at hsplit
        rw [← hsplit.1]
        exact List.mem_cons_self _ _
      | cons p pre2 =>
        simp only [List.cons_append, List.cons.injEq] at hsplit
        rw [← hsplit.1]
        exact List.mem_cons_of_mem _ (ih _ pre2 hsplit.2)

/-- The connections a broadcast loop over a well-formed member set sends to:
each member whose identity differs from the sender's, once. -/
theorem peers_nodup {m : GoMap Connection} (hnd : m.keys.Nodup)
    (hst : ∀ ce ∈ m, ce.2.ID = ce.1) (senderID : String) :
    ((m.filter (fun e => !decide (e.1 = senderID))).map Prod.snd).Nodup := by
  have hm : m.Nodup := List.Nodup.of_map _ hnd
  refine List.Nodup.map_on ?_ (hm.filter _)
  intro a ha b hb hab
  have h1 := hst a (List.mem_filter.mp ha).1
  have h2 := hst b (List.mem_filter.mp hb).1
  exact Prod.ext (by rw [← h1, ← h2, hab]) hab

theorem mem_peers_iff {m : GoMap Connection} (senderID : String) (c : Connection) :
    c ∈ (m.filter (fun e => !decide (e.1 = senderID))).map Prod.snd
      ↔ ∃ id, (id, c) ∈ m ∧ id ≠ senderID := by
  simp [List.mem_map, List.mem_filter]

theorem Hub.Broadcast_conns {σ : Type} (h : Hub) (send : Connection → Bytes → σ → Bool × σ)
    (range : GoMap Connection → List (String × Connection))
    (sender : Connection) (data : Bytes) (w : σ) :
    (h.Broadcast send range sender data w).calls.map SendCall.conn
      = ((range (h.clientsOf sender.Room)).filter
          (fun e => !decide (e.1 = sender.ID))).map Prod.snd
      ∨ (h.rooms.get sender.Room = none
          ∧ (h.Broadcast send range sender data w).calls = []) := by
  unfold Hub.Broadcast Hub.clientsOf
  cases hget : h.rooms.get sender.Room with
  | none => exact Or.inr ⟨rfl, rfl⟩
  | some r => exact Or.inl (broadcastLoop_calls _ _ _ _ _)

/-- The count of `Send` calls a broadcast makes on a connection. -/
theorem Hub.Broadcast_count {σ : Type} {h : Hub} (hwf : h.WF)
    (send : Connection → Bytes → σ → Bool × σ)
    (range : GoMap Connection → List (String × Connection))
    (hrange : ∀ m, (range m).Perm m)
    (sender : Connection) (data : Bytes) (w : σ) (c : Connection) :
    ((h.Broadcast send range sender data w).calls.map SendCall.conn).Nodup ∧
    (c ∈ (h.Broadcast send range sender data w).calls.map SendCall.conn
      ↔ h.isMember sender.Room c ∧ c.ID ≠ sender.ID) := by
  have hnd := peers_nodup (hwf.clientsOf_nodup sender.Room)
    (fun ce hce => (hwf.clientsOf_stored hce).1) sender.ID
  have hperm : (((range (h.clientsOf sender.Room)).filter
      (fun e => !decide (e.1 = sender.ID))).map Prod.snd).Perm
      (((h.clientsOf sender.Room).filter
      (fun e => !decide (e.1 = sender.ID))).map Prod.snd) :=
    ((hrange _).filter _).map _
  have hiff : c ∈ ((h.clientsOf sender.Room).filter
      (fun e => !decide (e.1 = sender.ID))).map Prod.snd
      ↔ h.isMember sender.Room c ∧ c.ID ≠ sender.ID := by
    rw [mem_peers_iff]
    constructor
    · rintro ⟨id, hmem, hne⟩
      have := (hwf.clientsOf_stored hmem).1
      simp only at this
      exact ⟨⟨id, hmem⟩, by rw [this]; exact hne⟩
    · rintro ⟨⟨id, hmem⟩, hne⟩
      have := (hwf.clientsOf_stored hmem).1
      simp only at this
      exact ⟨id, hmem, by rw [← this]; exact hne⟩
  rcases Hub.Broadcast_conns h send range sender data w with heq | ⟨hnone, hnil⟩
  · rw [heq]
    exact ⟨hperm.nodup_iff.mpr hnd, by rw [hperm.mem_iff]; exact hiff⟩
  · rw [hnil]
    refine ⟨by simp, ?_⟩
    simp only [List.map_nil, List.not_mem_nil, false_iff, not_and]
    rintro ⟨id, hmem⟩
    rw [Hub.clientsOf_of_none hnone] at hmem
    simp at hmem

/-- What a broadcast does to the world: it applies `send` to the connections of
its log, in the order of the log, and to nothing else; and the flag of each log
entry is what that `send` returned. -/
theorem Hub.Broadcast_effect {σ : Type} (h : Hub) (send : Connection → Bytes → σ → Bool × σ)
    (range : GoMap Connection → List (String × Connection))
    (sender : Connection) (data : Bytes) (w : σ) :
    (h.Broadcast send range sender data w).world
      = ((h.Broadcast send range sender data w).calls.map SendCall.conn).foldl
          (fun w c => (send c data w).2) w ∧
    (∀ pre c post,
      (h.Broadcast send range sender data w).calls.map SendCall.conn = pre ++ c :: post →
      (⟨c, data, (send c data (pre.foldl (fun w c => (send c data w).2) w)).1⟩ : SendCall)
        ∈ (h.Broadcast send range sender data w).calls) := by
  unfold Hub.Broadcast
  cases h.rooms.get sender.Room with
  | none => exact ⟨rfl, fun pre c post hs => by simp at hs⟩
  | some r =>
    exact ⟨broadcastLoop_world _ _ _ _ _, fun pre c post hs =>
      broadcastLoop_flags _ _ _ _ _ pre c post hs⟩

/-- C1: in every hub state reachable from `New()`, a broadcast calls
`Send(payload)` exactly once on each member of the sender's room whose identity
differs from the sender's and on no other connection: not on the member that has
the sender's identity, and not on a member of another room. The world after the
broadcast is the world before it with `send` applied once to each of these
connections, in the order visited, and to nothing else; each entry of the log
records what that `send` returned. The outcome of the `Send` calls (`send` is
arbitrary) and the order of the iteration (`range` is any permutation) make no
difference. -/
theorem Broadcast_sends_once_to_each_room_peer {σ : Type} (h : Hub) (hr : Reachable h)
    (send : Connection → Bytes → σ → Bool × σ)
    (range : GoMap Connection → List (String × Connection))
    (hrange : ∀ m, (range m).Perm m)
    (sender : Connection) (data : Bytes) (w : σ) :
    (∀ call ∈ (h.Broadcast send range sender data w).calls, call.data = data) ∧
    (∀ c, h.isMember sender.Room c → c.ID ≠ sender.ID →
      ((h.Broadcast send range sender data w).calls.map SendCall.conn).count c = 1) ∧
    (∀ c, ¬ (h.isMember sender.Room c ∧ c.ID ≠ sender.ID) →
      ((h.Broadcast send range sender data w).calls.map SendCall.conn).count c = 0) ∧
    (∀ c, h.isMember sender.Room c → c.ID = sender.ID →
      c ∉ (h.Broadcast send range sender data w).calls.map SendCall.conn) ∧
    (∀ R2 c, R2 ≠ sender.Room → h.isMember R2 c →
      c ∉ (h.Broadcast send range sender data w).calls.map SendCall.conn) ∧
    (h.Broadcast send range sender data w).world
      = ((h.Broadcast send range sender data w).calls.map SendCall.conn).foldl
          (fun w c => (send c data w).2) w ∧
    (∀ pre c post,
      (h.Broadcast send range sender data w).calls.map SendCall.conn = pre ++ c :: post →
      (⟨c, data, (send c data (pre.foldl (fun w c => (send c data w).2) w)).1⟩ : SendCall)
        ∈ (h.Broadcast send range sender data w).calls) := by
  have hwf := hr.WF
  have heff := Hub.Broadcast_effect h send range sender data w
  refine ⟨?_, ?_, ?_, ?_, ?_, heff.1, heff.2⟩
  · unfold Hub.Broadcast
    cases h.rooms.get sender.Room with
    | none => simp
    | some r => exact broadcastLoop_data _ _ _ _ _
  · intro c hmem hne
    obtain ⟨hnd, hiff⟩ := Hub.Broadcast_count hwf send range hrange sender data w c
    exact List.count_eq_one_of_mem hnd (hiff.mpr ⟨hmem, hne⟩)
  · intro c hnot
    obtain ⟨_, hiff⟩ := Hub.Broadcast_count hwf send range hrange sender data w c
    exact List.count_eq_zero_of_not_mem (fun hc => hnot (hiff.mp hc))
  · intro c _ heq hc
    obtain ⟨_, hiff⟩ := Hub.Broadcast_count hwf send range hrange sender data w c
    exact (hiff.mp hc).2 heq
  · intro R2 c hR2 hmem2 hc
    obtain ⟨_, hiff⟩ := Hub.Broadcast_count hwf send range hrange sender data w c
    obtain ⟨id1, hmem1⟩ := (hiff.mp hc).1
    obtain ⟨id2, hmem2⟩ := hmem2
    have h1 := (hwf.clientsOf_stored hmem1).2
    have h2 := (hwf.clientsOf_stored hmem2).2
    simp only at h1 h2
    exact hR2 (h2.symm.trans h1)

/-! ## Register, Unregister and Stats -/

namespace GoMap
variable {V : Type}

theorem mem_keys_set (m : GoMap V) (k k2 : String) (v : V) :
    k2 ∈ (m.set k v).keys ↔ k2 ∈ m.keys ∨ k2 = k := by
  by_cases hk : k ∈ m.keys
  · rw [keys_set_of_mem v hk]
    constructor
    · exact Or.inl
    · rintro (h | rfl)
      · exact h
      · exact hk
  · rw [keys_set_of_not_mem v hk]; simp

end GoMap

theorem Hub.clientsOf_Register (h : Hub) (c : Connection) (name : String) :
    (h.Register c).clientsOf name
      = if name = c.Room then (h.clientsOf c.Room).set c.ID c else h.clientsOf name := by
  by_cases hn : name = c.Room
  · subst hn
    simp only [if_true]
    conv_lhs => unfold Hub.clientsOf
    rw [Hub.Register_rooms, GoMap.get_set_self]
  · simp only [hn, if_false]
    unfold Hub.clientsOf
    rw [Hub.Register_rooms, GoMap.get_set_ne _ _ hn]

theorem Hub.Register_Stats (h : Hub) (c : Connection) :
    (h.Register c).Stats.1 = h.Stats.1 + (if c.Room ∈ h.rooms.keys then 0 else 1) ∧
    (h.Register c).Stats.2
      = h.Stats.2 + (if c.ID ∈ (h.clientsOf c.Room).keys then 0 else 1) := by
  rw [Hub.Stats_eq, Hub.Stats_eq, Hub.Register_rooms]
  simp only
  cases hget : h.rooms.get c.Room with
  | none =>
    have hk : c.Room ∉ h.rooms.keys := (GoMap.get_eq_none_iff _ _).mp hget
    have hc : h.clientsOf c.Room = [] := Hub.clientsOf_of_none hget
    rw [GoMap.length_set_of_none _ hget, GoMap.sum_set_of_none _ _ hget, hc]
    simp only [GoMap.keys] at hk
    simp [hk, GoMap.set, GoMap.keys]
  | some r =>
    have hk : c.Room ∈ h.rooms.keys := GoMap.mem_keys_of_get hget
    have hc : h.clientsOf c.Room = r.clients := Hub.clientsOf_of_get hget
    have hsum := GoMap.sum_set_of_get (⟨(h.clientsOf c.Room).set c.ID c⟩ : room)
      (fun e => e.2.clients.length) hget
    rw [GoMap.length_set_of_get _ hget]
    refine ⟨by simp [hk], ?_⟩
    simp only at hsum
    rw [hc] at hsum ⊢
    cases hid : r.clients.get c.ID with
    | none =>
      have hnk : c.ID ∉ r.clients.keys := (GoMap.get_eq_none_iff _ _).mp hid
      rw [GoMap.length_set_of_none _ hid] at hsum
      simp only [hnk, if_false]
      omega
    | some old =>
      have hik : c.ID ∈ r.clients.keys := GoMap.mem_keys_of_get hid
      rw [GoMap.length_set_of_get _ hid] at hsum
      simp only [hik, if_true]
      omega

/-- Registering the connections of `cs` one after the other, starting from
`New()`. -/
theorem registerAll_spec (cs : List Connection) :
    (cs.foldl Hub.Register New).WF ∧
    (∀ name, name ∈ (cs.foldl Hub.Register New).rooms.keys ↔ name ∈ cs.map Connection.Room) ∧
    (∀ name id, id ∈ ((cs.foldl Hub.Register New).clientsOf name).keys →
      id ∈ cs.map Connection.ID) := by
  induction cs using List.reverseRecOn with
  | nil =>
    refine ⟨WF_New, ?_, ?_⟩
    · intro name; simp [New, GoMap.keys]
    · intro name id; simp [New, Hub.clientsOf, GoMap.get, GoMap.keys]
  | append_singleton l c ih =>
    obtain ⟨hwf, hrooms, hids⟩ := ih
    rw [List.foldl_append, List.foldl_cons, List.foldl_nil]
    refine ⟨hwf.Register c, ?_, ?_⟩
    · intro name
      rw [Hub.Register_rooms, GoMap.mem_keys_set, hrooms]
      simp
    · intro name id hid
      rw [Hub.clientsOf_Register] at hid
      by_cases hn : name = c.Room
      · simp only [hn, if_true, GoMap.mem_keys_set] at hid
        rcases hid with hid | rfl
        · have := hids _ _ hid
          simp only [List.map_append, List.mem_append]
          exact Or.inl this
        · simp
      · simp only [hn, if_false] at hid
        have := hids _ _ hid
        simp only [List.map_append, List.mem_append]
        exact Or.inl this

theorem registerAll_clients (cs : List Connection) (hnd : (cs.map Connection.ID).Nodup) :
    (cs.foldl Hub.Register New).Stats.2 = cs.length := by
  induction cs using List.reverseRecOn with
  | nil => rfl
  | append_singleton l c ih =>
    rw [List.map_append, List.nodup_append] at hnd
    obtain ⟨hl, _, hdisj⟩ := hnd
    rw [List.foldl_append, List.foldl_cons, List.foldl_nil, (Hub.Register_Stats _ c).2, ih hl]
    have hnot : c.ID ∉ ((l.foldl Hub.Register New).clientsOf c.Room).keys := by
      intro hin
      have := (registerAll_spec l).2.2 _ _ hin
      exact hdisj this (by simp)
    simp [hnot]

/-- C7: `Stats()` returns the number of registry entries and the sum of the
rooms' member counts; on the hub built from `New()` by registering connections
with pairwise distinct identities it returns the number of distinct room
identifiers and the number of connections; on a fresh hub it returns (0, 0). -/
theorem Stats_counts_rooms_and_clients :
    (∀ h : Hub,
      h.Stats = (h.rooms.length, (h.rooms.map (fun e => e.2.clients.length)).sum)) ∧
    (∀ cs : List Connection, (cs.map Connection.ID).Nodup →
      (cs.foldl Hub.Register New).Stats
        = ((cs.map Connection.Room).dedup.length, cs.length)) ∧
    New.Stats = (0, 0) := by
  refine ⟨Hub.Stats_eq, ?_, rfl⟩
  intro cs hnd
  obtain ⟨hwf, hrooms, _⟩ := registerAll_spec cs
  refine Prod.ext ?_ (registerAll_clients cs hnd)
  rw [Hub.Stats_eq]
  show (cs.foldl Hub.Register New).rooms.length = (cs.map Connection.Room).dedup.length
  have hlen : (cs.foldl Hub.Register New).rooms.length
      = (cs.foldl Hub.Register New).rooms.keys.length := by simp [GoMap.keys]
  rw [hlen, ← List.toFinset_card_of_nodup hwf.roomsNodup, ← List.card_toFinset]
  congr 1
  ext name
  simp only [List.mem_toFinset]
  exact hrooms name

/-- C5: when `c` is the only member of its room, `Unregister(c)` removes the
room from the registry and `Stats()` then counts one room and one client fewer;
a later `Register(d)` into the same identifier creates a room whose only member
is `d`, and the room count is back where it was. -/
theorem Unregister_last_member_deletes_room (h : Hub) (hr : Reachable h) (c : Connection)
    (honly : h.rooms.get c.Room = some ⟨[(c.ID, c)]⟩) :
    (h.Unregister c).rooms.get c.Room = none ∧
    (h.Unregister c).Stats.1 + 1 = h.Stats.1 ∧
    (h.Unregister c).Stats.2 + 1 = h.Stats.2 ∧
    (∀ d : Connection, d.Room = c.Room →
      ((h.Unregister c).Register d).rooms.get c.Room = some ⟨[(d.ID, d)]⟩ ∧
      (((h.Unregister c).Register d).clientsOf c.Room).len = 1 ∧
      ((h.Unregister c).Register d).Stats.1 = (h.Unregister c).Stats.1 + 1 ∧
      ((h.Unregister c).Register d).Stats = h.Stats) := by
  have hwf := hr.WF
  have hrooms : (h.Unregister c).rooms
      = (h.rooms.set c.Room ⟨[]⟩).delete c.Room := by
    unfold Hub.Unregister
    simp [honly, GoMap.delete, GoMap.len]
  have hgone : (h.Unregister c).rooms.get c.Room = none := by
    rw [hrooms]; exact GoMap.get_delete_self _ _
  have hnd1 : (h.rooms.set c.Room (⟨[]⟩ : room)).keys.Nodup :=
    GoMap.nodup_keys_set hwf.roomsNodup _ _
  have hget1 : (h.rooms.set c.Room (⟨[]⟩ : room)).get c.Room = some ⟨[]⟩ :=
    GoMap.get_set_self _ _ _
  have hlen : (h.Unregister c).rooms.length + 1 = h.rooms.length := by
    rw [hrooms, GoMap.length_delete_of_get hnd1 hget1, GoMap.length_set_of_get _ honly]
  have hsum : ((h.Unregister c).rooms.map (fun e => e.2.clients.length)).sum + 1
      = (h.rooms.map (fun e => e.2.clients.length)).sum := by
    have h1 := GoMap.sum_delete_of_get hnd1 (fun e => e.2.clients.length) hget1
    have h2 := GoMap.sum_set_of_get (⟨[]⟩ : room) (fun e => e.2.clients.length) honly
    rw [hrooms]
    simp only [List.length_nil, List.length_singleton] at h1 h2
    omega
  have hs1 : (h.Unregister c).Stats.1 + 1 = h.Stats.1 := by
    rw [Hub.Stats_eq, Hub.Stats_eq]; exact hlen
  have hs2 : (h.Unregister c).Stats.2 + 1 = h.Stats.2 := by
    rw [Hub.Stats_eq, Hub.Stats_eq]; exact hsum
  refine ⟨hgone, hs1, hs2, ?_⟩
  intro d hd
  have hkeys : d.Room ∉ (h.Unregister c).rooms.keys := by
    rw [hd]; exact (GoMap.get_eq_none_iff _ _).mp hgone
  have hcl : (h.Unregister c).clientsOf d.Room = [] := by
    rw [hd]; exact Hub.clientsOf_of_none hgone
  have hreg : ((h.Unregister c).Register d).rooms.get c.Room = some ⟨[(d.ID, d)]⟩ := by
    rw [Hub.Register_rooms, hcl, ← hd, GoMap.get_set_self]
    rfl
  obtain ⟨hr1, hr2⟩ := Hub.Register_Stats (h.Unregister c) d
  rw [hcl] at hr2
  simp only [hkeys, if_false] at hr1
  simp only [GoMap.keys, List.map_nil, List.not_mem_nil, if_false] at hr2
  refine ⟨hreg, ?_, hr1, ?_⟩
  · rw [Hub.clientsOf_of_get hreg]; rfl
  · exact Prod.ext (by rw [hr1]; exact hs1) (by rw [hr2]; exact hs2)

theorem Hub.Unregister_of_absent {h : Hub} (hwf : h.WF) (c : Connection)
    (habs : (h.clientsOf c.Room).get c.ID = none) : h.Unregister c = h := by
  unfold Hub.Unregister
  cases hget : h.rooms.get c.Room with
  | none => rfl
  | some r =>
    rw [Hub.clientsOf_of_get hget] at habs
    have hne : r.clients ≠ [] := hwf.nonempty _ (GoMap.mem_of_get hget)
    have hlen : (r.clients.delete c.ID).len ≠ 0 := by
      rw [GoMap.delete_of_get_none habs]
      simpa [GoMap.len] using hne
    simp only [hlen, if_false]
    rw [GoMap.delete_of_get_none habs, GoMap.set_of_get hget]

theorem Hub.clientsOf_Unregister_self {h : Hub} (c : Connection) :
    ((h.Unregister c).clientsOf c.Room).get c.ID = none := by
  unfold Hub.Unregister
  cases hget : h.rooms.get c.Room with
  | none => simp [Hub.clientsOf, hget, GoMap.get]
  | some r =>
    simp only
    split
    · simp [Hub.clientsOf, GoMap.get_delete_self, GoMap.get]
    · simp [Hub.clientsOf, GoMap.get_set_self, GoMap.get_delete_self]

/-- C6: in a hub state reachable from `New()`, `Unregister(c)` of a connection
whose identity is not a member of the room `c.Room()` (whether or not the room
exists) leaves the hub as it was: same rooms, same members, same `Stats()`.
Hence a second `Unregister(c)` changes nothing. -/
theorem Unregister_absent_is_noop (h : Hub) (hr : Reachable h) (c : Connection) :
    ((h.clientsOf c.Room).get c.ID = none →
      h.Unregister c = h ∧ (h.Unregister c).Stats = h.Stats) ∧
    (h.Unregister c).Unregister c = h.Unregister c := by
  constructor
  · intro habs
    have := Hub.Unregister_of_absent hr.WF c habs
    exact ⟨this, by rw [this]⟩
  · exact Hub.Unregister_of_absent (hr.WF.Unregister c) c (Hub.clientsOf_Unregister_self c)

/-! ## The goroutines a broadcast starts -/

theorem Hub.Broadcast_spawned {σ : Type} (h : Hub) (send : Connection → Bytes → σ → Bool × σ)
    (range : GoMap Connection → List (String × Connection))
    (sender : Connection) (data : Bytes) (w : σ) :
    (h.Broadcast send range sender data w).spawned
      = ((h.Broadcast send range sender data w).calls.filter SendCall.failed).map
          SendCall.conn := by
  unfold Hub.Broadcast
  cases h.rooms.get sender.Room with
  | none => rfl
  | some r => exact broadcastLoop_spawned _ _ _ _ _

theorem Hub.Broadcast_data {σ : Type} (h : Hub) (send : Connection → Bytes → σ → Bool × σ)
    (range : GoMap Connection → List (String × Connection))
    (sender : Connection) (data : Bytes) (w : σ) :
    ∀ call ∈ (h.Broadcast send range sender data w).calls, call.data = data := by
  unfold Hub.Broadcast
  cases h.rooms.get sender.Room with
  | none => simp
  | some r => exact broadcastLoop_data _ _ _ _ _

theorem Hub.mem_spawned_iff {σ : Type} (h : Hub) (send : Connection → Bytes → σ → Bool × σ)
    (range : GoMap Connection → List (String × Connection))
    (sender : Connection) (data : Bytes) (w : σ) (c : Connection) :
    c ∈ (h.Broadcast send range sender data w).spawned
      ↔ (⟨c, data, true⟩ : SendCall) ∈ (h.Broadcast send range sender data w).calls := by
  rw [Hub.Broadcast_spawned]
  simp only [List.mem_map, List.mem_filter]
  constructor
  · rintro ⟨call, ⟨hcall, hfail⟩, rfl⟩
    have hd := Hub.Broadcast_data h send range sender data w call hcall
    obtain ⟨conn, d, f⟩ := call
    simp only at hd hfail
    subst hd; subst hfail
    exact hcall
  · intro hcall
    exact ⟨_, ⟨hcall, rfl⟩, rfl⟩

/-! ## The theorems at the scenario -/

theorem exHub_reachable : Reachable exHub :=
  .register exOther (.register exRecv2 (.register exRecv1 (.register exSender .new)))

/-- C1 at the scenario, iterating in reverse order: the healthy peer gets exactly
one `Send`. -/
theorem Broadcast_sends_once_to_each_room_peer_witness :
    Reachable exHub ∧ (∀ m : GoMap Connection, (List.reverse m).Perm m) ∧
    ((exHub.Broadcast Conn.Send List.reverse exSender "test message".toList
      exWorld).calls.map SendCall.conn).count exRecv1 = 1 :=
  ⟨exHub_reachable, fun m => List.reverse_perm m,
    (Broadcast_sends_once_to_each_room_peer exHub exHub_reachable Conn.Send List.reverse
      (fun m => List.reverse_perm m) exSender "test message".toList exWorld).2.1
      exRecv1 ⟨"recv1", by decide⟩ (by decide)⟩

/-- C5 at `New().Register(exOther)`. -/
theorem Unregister_last_member_deletes_room_witness :
    Reachable (New.Register exOther) ∧
    ((New.Register exOther).Unregister exOther).rooms.get exOther.Room = none :=
  ⟨.register exOther .new,
    (Unregister_last_member_deletes_room (New.Register exOther) (.register exOther .new)
      exOther (by decide)).1⟩

/-- C6 at the scenario: unregistering a connection of a room that does not
exist. -/
theorem Unregister_absent_is_noop_witness :
    Reachable exHub ∧ exHub.Unregister ⟨"ghost", "room3", 9⟩ = exHub :=
  ⟨exHub_reachable,
    ((Unregister_absent_is_noop exHub exHub_reachable ⟨"ghost", "room3", 9⟩).1
      (by decide)).1⟩

/-- C7 at the registrations of `TestHub_Stats`: two rooms, three clients. -/
theorem Stats_counts_rooms_and_clients_witness :
    ([⟨"c1", "r1", 1⟩, ⟨"c2", "r1", 2⟩, ⟨"c3", "r2", 3⟩].foldl Hub.Register New).Stats
      = (2, 3) :=
  Stats_counts_rooms_and_clients.2.1 [⟨"c1", "r1", 1⟩, ⟨"c2", "r1", 2⟩, ⟨"c3", "r2", 3⟩]
    (by decide)


/-! ## Strings: scanning what `escape` writes -/

theorem consChar_some (c : Char) (s rest : List Char) :
    consChar c (some (s, rest)) = some (c :: s, rest) := rfl

theorem scanStringAux_skip (pre : List Char) (c : Char) (tail : List Char) :
    scanStringAux pre.length (pre ++ c :: tail) = scanStringAux 0 (c :: tail) := by
  induction pre with
  | nil => rfl
  | cons p rest ih => simpa [scanStringAux] using ih

set_option maxRecDepth 100000 in
theorem hex4_low (n : Nat) (hn : n < 64) :
    hex4 '0' '0' (hexDigit (n / 16)) (hexDigit (n % 16)) = some n := by
  revert n
  decide

theorem hex4_line (n : Nat) (hn : n < 16) :
    hex4 '2' '0' '2' (hexDigit n) = some (0x2020 + n) := by
  revert n
  decide

/-- What `escapeChar` writes for a character decodes to that character and takes
all of it. -/
theorem decodeAt_escapeChar (c : Char) (tail : List Char) :
    decodeAt (escapeChar c ++ tail) = some (c, (escapeChar c).length) ∧
    (escapeChar c).head? ≠ some '"' ∧ escapeChar c ≠ [] := by
  unfold escapeChar
  split_ifs with h1 h2 h3 h4 h5 h6 h7 h8
  · rcases h1 with rfl | rfl <;> simp [decodeAt, unescape]
  · subst h2; simp [decodeAt, unescape]
  · subst h3; simp [decodeAt, unescape]
  · subst h4; simp [decodeAt, unescape]
  · subst h5; simp [decodeAt, unescape]
  · subst h6; simp [decodeAt, unescape]
  · have hlt : c.toNat < 64 := by
      rcases h7 with h | rfl | rfl | rfl
      · omega
      all_goals decide
    have hs : isSurrogate c.toNat = false := by
      simp [isSurrogate]; omega
    simp [decodeAt, decodeU, hex4_low _ hlt, hs, Char.ofNat_toNat]
  · have hmod : c.toNat % 16 < 16 := Nat.mod_lt _ (by decide)
    have hval : 0x2020 + c.toNat % 16 = c.toNat := by
      rcases h8 with h | h <;> rw [h]
    have hs : isSurrogate c.toNat = false := by
      rcases h8 with h | h <;> rw [h] <;> decide
    simp [decodeAt, decodeU, hex4_line _ hmod, hval, hs, Char.ofNat_toNat]
  · push_neg at h1 h7
    have hlt : ¬ c.toNat < 32 := by omega
    simp [decodeAt, h1.1, h1.2, hlt]

theorem scanString_escape (s tail : List Char) :
    scanString (escape s ++ '"' :: tail) = some (s, tail) := by
  unfold scanString
  induction s with
  | nil => simp [escape, scanStringAux]
  | cons c rest ih =>
    obtain ⟨hdec, hhead, hne⟩ := decodeAt_escapeChar c (escape rest ++ '"' :: tail)
    obtain ⟨e, es, hes⟩ := List.exists_cons_of_ne_nil hne
    have hq : e ≠ '"' := by
      intro h; apply hhead; simp [hes, h]
    have hrest : scanStringAux es.length (es ++ (escape rest ++ '"' :: tail))
        = scanStringAux 0 (escape rest ++ '"' :: tail) := by
      cases hr : escape rest ++ '"' :: tail with
      | nil => simp at hr
      | cons x xs => exact scanStringAux_skip es x xs
    simp only [escape, List.append_assoc]
    rw [hes] at hdec ⊢
    simp only [List.cons_append] at hdec ⊢
    rw [scanStringAux]
    simp only [hq, if_false, hdec, List.length_cons, Nat.add_sub_cancel]
    rw [hrest, ih]
    rfl


/-! ## Numbers: scanning and parsing what `formatInt` writes -/

theorem formatNatAux_acc (fuel n : Nat) (acc : List Char) :
    formatNatAux fuel n acc = formatNatAux fuel n [] ++ acc := by
  induction fuel generalizing n acc with
  | zero => simp [formatNatAux]
  | succ fuel ih =>
    simp only [formatNatAux]
    split_ifs
    · simp
    · rw [ih, ih (n / 10) [_]]; simp

theorem formatNatAux_fuel (fuel1 fuel2 n : Nat) (acc : List Char) (h1 : n < fuel1)
    (h2 : n < fuel2) : formatNatAux fuel1 n acc = formatNatAux fuel2 n acc := by
  induction fuel1 generalizing fuel2 n acc with
  | zero => omega
  | succ fuel1 ih =>
    obtain ⟨f2, rfl⟩ : ∃ f2, fuel2 = f2 + 1 := ⟨fuel2 - 1, by omega⟩
    simp only [formatNatAux]
    split_ifs with hlt
    · rfl
    · exact ih f2 (n / 10) _ (by omega) (by omega)

theorem formatNat_eq (n : Nat) :
    formatNat n = if n < 10 then [Char.ofNat (48 + n)]
      else formatNat (n / 10) ++ [Char.ofNat (48 + n % 10)] := by
  unfold formatNat
  rw [formatNatAux]
  split_ifs with hlt
  · rfl
  · rw [formatNatAux_acc, formatNatAux_fuel n (n / 10 + 1) (n / 10) [] (by omega) (by omega)]

theorem digit_facts (d : Nat) (hd : d < 10) :
    isDigit (Char.ofNat (48 + d)) = true ∧ (Char.ofNat (48 + d)).toNat - 48 = d ∧
    (d ≠ 0 → Char.ofNat (48 + d) ≠ '0') ∧ Char.ofNat (48 + d) ≠ '-' := by
  revert d
  decide

theorem natOfDigits_append (ds : List Char) (c : Char) :
    natOfDigits (ds ++ [c]) = natOfDigits ds * 10 + (c.toNat - 48) := by
  simp [natOfDigits, List.foldl_append]

/-- The text `formatNat` writes: decimal digits, at least one, no leading zero
except for zero itself, and they write the number. -/
theorem formatNat_spec (n : Nat) :
    (formatNat n).all isDigit = true ∧ formatNat n ≠ [] ∧
    natOfDigits (formatNat n) = n ∧
    (n ≠ 0 → (formatNat n).head? ≠ some '0') ∧ (n = 0 → formatNat n = ['0']) := by
  induction n using Nat.strong_induction_on with
  | _ n ih =>
    rw [formatNat_eq]
    split_ifs with hlt
    · obtain ⟨h1, h2, h3, _⟩ := digit_facts n hlt
      refine ⟨by simp [h1], by simp, by simp [natOfDigits, h2], ?_, ?_⟩
      · intro hn; simpa using h3 hn
      · rintro rfl; rfl
    · obtain ⟨i1, i2, i3, i4, _⟩ := ih (n / 10) (by omega)
      obtain ⟨h1, h2, _, _⟩ := digit_facts (n % 10) (Nat.mod_lt _ (by decide))
      refine ⟨by simp [i1, h1], by simp, ?_, ?_, by omega⟩
      · rw [natOfDigits_append, i3, h2]; omega
      · intro _
        have := i4 (by omega)
        cases hf : formatNat (n / 10) with
        | nil => exact absurd hf i2
        | cons x xs => rw [hf] at this; simpa using this


theorem span_digits (ds : List Char) (sep : Char) (tail : List Char)
    (hds : ds.all isDigit = true) (hsep : isDigit sep = false) :
    (ds ++ sep :: tail).span isDigit = (ds, sep :: tail) := by
  rw [List.span_eq_take_drop]
  induction ds with
  | nil => simp [List.takeWhile, List.dropWhile, hsep]
  | cons d rest ih =>
    simp only [List.all_cons, Bool.and_eq_true] at hds
    have := ih hds.2
    simp only [Prod.mk.injEq] at this
    simp [List.takeWhile, List.dropWhile, hds.1, this.1, this.2]

theorem sep_facts (sep : Char) (hsep : sep = ',' ∨ sep = '}') :
    isDigit sep = false ∧ sep ≠ '.' ∧ sep ≠ 'e' ∧ sep ≠ 'E' ∧ isSpace sep = false := by
  rcases hsep with rfl | rfl <;> decide

theorem scanUnsigned_formatNat (n : Nat) (sep : Char) (tail : List Char)
    (hsep : sep = ',' ∨ sep = '}') :
    scanUnsigned (formatNat n ++ sep :: tail) = some (formatNat n, sep :: tail) := by
  obtain ⟨hall, hne, _, hhead, hzero⟩ := formatNat_spec n
  obtain ⟨s1, s2, s3, s4, _⟩ := sep_facts sep hsep
  have hfrac : scanFrac (sep :: tail) = some ([], sep :: tail) := by
    simp [scanFrac, s2]
  have hexp : scanExp (sep :: tail) = some ([], sep :: tail) := by
    simp [scanExp, s3, s4]
  by_cases hn : n = 0
  · rw [hzero hn]
    simp [scanUnsigned, isDigit, hfrac, hexp]
  · obtain ⟨c, ds, hcds⟩ := List.exists_cons_of_ne_nil hne
    have hc0 : c ≠ '0' := by
      intro h; apply hhead hn; simp [hcds, h]
    rw [hcds] at hall ⊢
    simp only [List.all_cons, Bool.and_eq_true] at hall
    have hspan := span_digits ds sep tail hall.2 s1
    rw [List.span_eq_take_drop, Prod.mk.injEq] at hspan
    simp [scanUnsigned, hall.1, hc0, hspan.1, hspan.2, hfrac, hexp]

theorem digit_ne (c : Char) (hc : isDigit c = true) :
    c ≠ '"' ∧ c ≠ '{' ∧ c ≠ '[' ∧ c ≠ 't' ∧ c ≠ 'f' ∧ c ≠ 'n' ∧ c ≠ '-' ∧
    isSpace c = false := by
  refine ⟨?_, ?_, ?_, ?_, ?_, ?_, ?_, ?_⟩
  any_goals (rintro rfl; revert hc; decide)
  simp only [isDigit, Bool.and_eq_true, decide_eq_true_eq] at hc
  have h1 : 48 ≤ c.toNat := hc.1
  have h2 : c.toNat ≤ 57 := hc.2
  have : ∀ d : Char, d.toNat < 48 → c ≠ d := fun d hd h => by subst h; omega
  simp [isSpace, this ' ' (by decide), this '\t' (by decide), this '\r' (by decide),
    this '\n' (by decide)]

theorem formatInt_head (n : Int) :
    ∃ c rest, formatInt n = c :: rest ∧ (isDigit c = true ∨ c = '-') := by
  cases n with
  | ofNat m =>
    obtain ⟨hall, hne, _⟩ := formatNat_spec m
    obtain ⟨c, ds, hcds⟩ := List.exists_cons_of_ne_nil hne
    rw [hcds] at hall
    simp only [List.all_cons, Bool.and_eq_true] at hall
    exact ⟨c, ds, hcds, Or.inl hall.1⟩
  | negSucc m => exact ⟨'-', _, rfl, Or.inr rfl⟩

theorem scanNumber_formatInt (n : Int) (sep : Char) (tail : List Char)
    (hsep : sep = ',' ∨ sep = '}') :
    scanNumber (formatInt n ++ sep :: tail) = some (formatInt n, sep :: tail) := by
  cases n with
  | ofNat m =>
    obtain ⟨hall, hne, _⟩ := formatNat_spec m
    obtain ⟨c, ds, hcds⟩ := List.exists_cons_of_ne_nil hne
    have hc : c ≠ '-' := by
      rw [hcds] at hall
      simp only [List.all_cons, Bool.and_eq_true] at hall
      exact (digit_ne c hall.1).2.2.2.2.2.2.1
    have := scanUnsigned_formatNat m sep tail hsep
    simp only [formatInt]
    rw [hcds] at this ⊢
    simpa [scanNumber, hc] using this
  | negSucc m =>
    simp [formatInt, scanNumber, scanUnsigned_formatNat (m + 1) sep tail hsep]

theorem Encodes_formatInt (n : Int) : Encodes (formatInt n) (.number (formatInt n)) := by
  obtain ⟨c, rest, hc, hdig⟩ := formatInt_head n
  have hfacts : c ≠ '"' ∧ c ≠ '{' ∧ c ≠ '[' ∧ c ≠ 't' ∧ c ≠ 'f' ∧ c ≠ 'n' ∧
      isSpace c = false := by
    rcases hdig with h | rfl
    · obtain ⟨a, b, c1, d, e, f, _, g⟩ := digit_ne c h
      exact ⟨a, b, c1, d, e, f, g⟩
    · decide
  obtain ⟨h1, h2, h3, h4, h5, h6, h7⟩ := hfacts
  refine ⟨⟨c, rest, hc, h7⟩, ?_⟩
  · intro fuel sep tail hsep
    have := scanNumber_formatInt n sep tail hsep
    rw [hc] at this ⊢
    rw [List.cons_append] at this ⊢
    rw [scanValue]
    simp [h1, h2, h3, h4, h5, h6, this]

theorem Encodes_quote (s : List Char) : Encodes (quote s) (.string s) := by
  refine ⟨⟨'"', escape s ++ ['"'], rfl, by decide⟩, ?_⟩
  · intro fuel sep tail _
    simp only [quote, List.cons_append, List.append_assoc]
    rw [scanValue]
    simp [scanString_escape]

theorem parseInt64_formatInt (n : Int64) : parseInt64 (formatInt n.val) = some n := by
  obtain ⟨v, hv⟩ := n
  cases v with
  | ofNat m =>
    obtain ⟨hall, hne, hval, _⟩ := formatNat_spec m
    obtain ⟨c, ds, hcds⟩ := List.exists_cons_of_ne_nil hne
    have hc : c ≠ '-' := by
      rw [hcds] at hall
      simp only [List.all_cons, Bool.and_eq_true] at hall
      exact (digit_ne c hall.1).2.2.2.2.2.2.1
    simp only [formatInt]
    rw [hcds] at hall hval ⊢
    simp only [parseInt64, hc, if_false, hall, if_true, hval]
    show Int64.ofInt? (Int.ofNat m) = _
    unfold Int64.ofInt?
    rw [dif_pos hv]
  | negSucc m =>
    obtain ⟨hall, hne, hval, _⟩ := formatNat_spec (m + 1)
    simp only [formatInt, parseInt64, if_true, hall, hval, ne_eq, hne, not_false_eq_true,
      and_self]
    show Int64.ofInt? (Int.negSucc m) = _
    unfold Int64.ofInt?
    rw [dif_pos hv]


/-! ## Objects: scanning and decoding what `Marshal` writes -/

theorem skipSpace_of_not_space (c : Char) (rest : List Char) (h : isSpace c = false) :
    skipSpace (c :: rest) = c :: rest := by
  simp [skipSpace, h]

theorem scanMembers_step (fuel : Nat) (key rest1 : List Char) (rest : List Char)
    (hkey : scanString rest = some (key, ':' :: rest1)) :
    scanMembers (fuel + 1) ('"' :: rest)
      = match scanValue fuel (skipSpace rest1) with
        | none => none
        | some (v, rest3) =>
          match skipSpace rest3 with
          | [] => none
          | sep :: rest4 =>
            if sep = ',' then
              (scanMembers fuel (skipSpace rest4)).map (fun p => ((key, v) :: p.1, p.2))
            else if sep = '}' then some ([(key, v)], rest4)
            else none := by
  rw [scanMembers]
  simp [hkey, skipSpace, isSpace]

theorem scanMembers_member (fuel : Nat) (key text : List Char) (v : Value)
    (henc : Encodes text v) (sep : Char) (tail : List Char) (hsep : sep = ',' ∨ sep = '}') :
    scanMembers (fuel + 2) (quote key ++ ':' :: (text ++ sep :: tail))
      = if sep = ',' then
          (scanMembers (fuel + 1) (skipSpace tail)).map (fun p => ((key, v) :: p.1, p.2))
        else some ([(key, v)], tail) := by
  obtain ⟨⟨c, rest, hc, hsp⟩, hscan⟩ := henc
  have hkey : scanString (escape key ++ '"' :: ':' :: (text ++ sep :: tail))
      = some (key, ':' :: (text ++ sep :: tail)) := scanString_escape _ _
  have hskip : skipSpace (text ++ sep :: tail) = text ++ sep :: tail := by
    rw [hc]; exact skipSpace_of_not_space _ _ hsp
  have hsepsp : skipSpace (sep :: tail) = sep :: tail :=
    skipSpace_of_not_space _ _ (sep_facts sep hsep).2.2.2.2
  have hin : quote key ++ ':' :: (text ++ sep :: tail)
      = '"' :: (escape key ++ '"' :: ':' :: (text ++ sep :: tail)) := by
    simp [quote]
  rw [hin, scanMembers_step (fuel + 1) key _ _ hkey, hskip, hscan fuel sep tail hsep]
  simp only [hsepsp]
  rcases hsep with rfl | rfl
  · simp
  · simp

theorem writeMembers_head (m : List Char × List Char) (rest : List (List Char × List Char)) :
    ∃ t, writeMembers (m :: rest) = '"' :: t := by
  cases rest with
  | nil => exact ⟨escape m.1 ++ '"' :: ':' :: m.2, by simp [writeMembers, quote]⟩
  | cons m2 r =>
    exact ⟨escape m.1 ++ '"' :: ':' :: (m.2 ++ ',' :: writeMembers (m2 :: r)),
      by simp [writeMembers, quote]⟩

/-- Scanning the members that `writeMembers` writes gives back their keys and
values. -/
theorem scanMembers_writeMembers (ms : List (List Char × List Char × Value))
    (hne : ms ≠ []) (henc : ∀ m ∈ ms, Encodes m.2.1 m.2.2) (fuel : Nat)
    (tail : List Char) :
    scanMembers (fuel + ms.length + 1)
        (writeMembers (ms.map (fun m => (m.1, m.2.1))) ++ '}' :: tail)
      = some (ms.map (fun m => (m.1, m.2.2)), tail) := by
  induction ms with
  | nil => exact absurd rfl hne
  | cons m rest ih =>
    obtain ⟨key, text, v⟩ := m
    have hm : Encodes text v := henc (key, text, v) (List.mem_cons_self _ _)
    cases rest with
    | nil =>
      have := scanMembers_member fuel key text v hm '}' tail (Or.inr rfl)
      simpa [writeMembers] using this
    | cons m2 rest2 =>
      have ih2 := ih (by simp) (fun x hx => henc x (List.mem_cons_of_mem _ hx))
      obtain ⟨t, ht⟩ := writeMembers_head (m2.1, m2.2.1)
        (rest2.map (fun m => (m.1, m.2.1)))
      have hsk : skipSpace (writeMembers ((m2 :: rest2).map (fun m => (m.1, m.2.1)))
          ++ '}' :: tail)
          = writeMembers ((m2 :: rest2).map (fun m => (m.1, m.2.1))) ++ '}' :: tail := by
        rw [List.map_cons, ht]
        exact skipSpace_of_not_space _ _ (by decide)
      have := scanMembers_member (fuel + (m2 :: rest2).length) key text v hm ','
        (writeMembers ((m2 :: rest2).map (fun m => (m.1, m.2.1))) ++ '}' :: tail)
        (Or.inl rfl)
      rw [hsk, ih2] at this
      simp only [List.map_cons, List.length_cons] at this ⊢
      simp only [writeMembers, List.append_assoc, List.cons_append]
      rw [show fuel + (rest2.length + 1 + 1) + 1 = fuel + (rest2.length + 1) + 2 by omega]
      rw [this]
      simp


/-- The members of a message with both their text and their value. -/
theorem Message.members_values (m : Message) :
    ∃ ts : List (List Char × List Char × Value),
      ts.map (fun t => (t.1, t.2.1)) = m.members ∧
      ts.map (fun t => (t.1, t.2.2)) = m.values ∧
      ts ≠ [] ∧ ts.length ≤ 4 ∧ ∀ t ∈ ts, Encodes t.2.1 t.2.2 := by
  have hq := Encodes_quote
  have hi := Encodes_formatInt
  cases hp : m.Position with
  | none =>
    by_cases hc : m.ClientID = ""
    · refine ⟨[("type".toList, quote m.Type_.data, .string m.Type_.data),
        ("timestamp".toList, formatInt m.Timestamp.val,
          .number (formatInt m.Timestamp.val))], ?_, ?_, ?_, ?_, ?_⟩
      · simp [Message.members, hp, hc]
      · simp [Message.values, hp, hc]
      · simp
      · simp
      · simp [hq, hi]
    · refine ⟨[("type".toList, quote m.Type_.data, .string m.Type_.data),
        ("timestamp".toList, formatInt m.Timestamp.val,
          .number (formatInt m.Timestamp.val)),
        ("clientId".toList, quote m.ClientID.data, .string m.ClientID.data)],
        ?_, ?_, ?_, ?_, ?_⟩
      · simp [Message.members, hp, hc]
      · simp [Message.values, hp, hc]
      · simp
      · simp
      · simp [hq, hi]
  | some p =>
    by_cases hc : m.ClientID = ""
    · refine ⟨[("type".toList, quote m.Type_.data, .string m.Type_.data),
        ("position".toList, formatInt p.val, .number (formatInt p.val)),
        ("timestamp".toList, formatInt m.Timestamp.val,
          .number (formatInt m.Timestamp.val))], ?_, ?_, ?_, ?_, ?_⟩
      · simp [Message.members, hp, hc]
      · simp [Message.values, hp, hc]
      · simp
      · simp
      · simp [hq, hi]
    · refine ⟨[("type".toList, quote m.Type_.data, .string m.Type_.data),
        ("position".toList, formatInt p.val, .number (formatInt p.val)),
        ("timestamp".toList, formatInt m.Timestamp.val,
          .number (formatInt m.Timestamp.val)),
        ("clientId".toList, quote m.ClientID.data, .string m.ClientID.data)],
        ?_, ?_, ?_, ?_, ?_⟩
      · simp [Message.members, hp, hc]
      · simp [Message.values, hp, hc]
      · simp
      · simp
      · simp [hq, hi]

/-- The payload `Marshal` writes for a message is an object whose members are
the values of the message. -/
theorem parseTop_Marshal (m : Message) :
    ∃ out, Marshal m = .ok out ∧ parseTop out = some (Value.object, m.values) := by
  refine ⟨_, rfl, ?_⟩
  obtain ⟨ts, hmem, hval, hne, hlen, henc⟩ := m.members_values
  obtain ⟨t0, trest, hts⟩ := List.exists_cons_of_ne_nil hne
  obtain ⟨w, hw⟩ := writeMembers_head (t0.1, t0.2.1) (trest.map (fun t => (t.1, t.2.1)))
  have hwm : writeMembers m.members = '"' :: w := by
    rw [← hmem, hts, List.map_cons]; exact hw
  have hfuel : scanFuel ('{' :: (writeMembers m.members ++ ['}']))
      = (scanFuel ('{' :: (writeMembers m.members ++ ['}'])) - (ts.length + 1))
        + ts.length + 1 := by
    simp only [scanFuel, List.length_cons, List.length_append]
    omega
  have hscan := scanMembers_writeMembers ts hne henc
    (scanFuel ('{' :: (writeMembers m.members ++ ['}'])) - (ts.length + 1)) []
  rw [← hfuel, hmem, hval, hwm] at hscan
  unfold parseTop
  rw [skipSpace_of_not_space _ _ (by decide)]
  simp only [if_true, hwm, List.cons_append]
  rw [skipSpace_of_not_space _ _ (by decide)]
  simp only [List.cons_append] at hscan
  show (if '"' = '}' then _ else _) = _
  rw [if_neg (by decide), hscan]
  simp [skipSpace]

theorem decodeMembers_values (m : Message) :
    decodeMembers Message.zero m.values = .ok m := by
  obtain ⟨ty, pos, ts, cid⟩ := m
  have hts := parseInt64_formatInt ts
  cases pos with
  | none =>
    by_cases hc : cid = ""
    · subst hc
      simp [Message.values, decodeMembers, decodeMember, findField, hts, Message.zero]
    · simp [Message.values, decodeMembers, decodeMember, findField, hts, Message.zero, hc]
  | some p =>
    have hp := parseInt64_formatInt p
    by_cases hc : cid = ""
    · subst hc
      simp [Message.values, decodeMembers, decodeMember, findField, hts, hp, Message.zero]
    · simp [Message.values, decodeMembers, decodeMember, findField, hts, hp, Message.zero,
        hc]

/-- Decoding what `Marshal` writes for a message gives the message back. -/
theorem Unmarshal_Marshal (m : Message) :
    ∃ out, Marshal m = .ok out ∧ Unmarshal out = .ok m := by
  obtain ⟨out, hout, hparse⟩ := parseTop_Marshal m
  refine ⟨out, hout, ?_⟩
  unfold Unmarshal
  rw [hparse]
  exact decodeMembers_values m


/-! ## The depth granted to the scanner is always enough -/

theorem skipSpace_length (l : List Char) : (skipSpace l).length ≤ l.length := by
  induction l with
  | nil => simp [skipSpace]
  | cons c rest ih =>
    simp only [skipSpace]
    split_ifs
    · simp only [List.length_cons]; omega
    · exact Nat.le_refl _

theorem consChar_eq_some {c : Char} {r : Option (List Char × List Char)}
    {s rest : List Char} (h : consChar c r = some (s, rest)) :
    ∃ s2, r = some (s2, rest) := by
  cases r with
  | none => simp [consChar] at h
  | some p =>
    obtain ⟨s2, r2⟩ := p
    simp only [consChar, Option.map_some', Option.some.injEq, Prod.mk.injEq] at h
    exact ⟨s2, by rw [h.2]⟩

theorem scanStringAux_length (skip : Nat) (input s rest : List Char)
    (h : scanStringAux skip input = some (s, rest)) : rest.length < input.length := by
  induction input generalizing skip s with
  | nil => simp [scanStringAux] at h
  | cons c tail ih =>
    cases skip with
    | succ k =>
      simp only [scanStringAux] at h
      have := ih k s h
      simp only [List.length_cons]; omega
    | zero =>
      simp only [scanStringAux] at h
      split_ifs at h with hq
      · simp only [Option.some.injEq, Prod.mk.injEq] at h
        rw [← h.2]; simp
      · cases hd : decodeAt (c :: tail) with
        | none => simp [hd] at h
        | some p =>
          obtain ⟨ch, n⟩ := p
          simp only [hd] at h
          obtain ⟨s2, hs2⟩ := consChar_eq_some h
          have := ih (n - 1) s2 hs2
          simp only [List.length_cons]; omega

theorem scanString_length (input s rest : List Char)
    (h : scanString input = some (s, rest)) : rest.length < input.length :=
  scanStringAux_length 0 input s rest h

theorem span_snd_length (p : Char → Bool) (l : List Char) :
    (l.span p).2.length ≤ l.length := by
  rw [List.span_eq_take_drop]
  simp only
  induction l with
  | nil => simp
  | cons c rest ih =>
    simp only [List.dropWhile]
    split
    · simp only [List.length_cons]; omega
    · exact Nat.le_refl _

theorem scanFrac_length (input lit rest : List Char)
    (h : scanFrac input = some (lit, rest)) : rest.length ≤ input.length := by
  cases input with
  | nil => simp [scanFrac] at h; simp [h.2.symm]
  | cons c tail =>
    simp only [scanFrac] at h
    split_ifs at h
    · simp only [Option.some.injEq, Prod.mk.injEq] at h
      have := span_snd_length isDigit tail
      rw [← h.2, List.length_cons]; omega
    · simp only [Option.some.injEq, Prod.mk.injEq] at h
      rw [← h.2]

theorem scanExpDigits_length (pre input lit rest : List Char)
    (h : scanExpDigits pre input = some (lit, rest)) : rest.length ≤ input.length := by
  simp only [scanExpDigits] at h
  split_ifs at h
  simp only [Option.some.injEq, Prod.mk.injEq] at h
  rw [← h.2]; exact span_snd_length isDigit input

theorem scanExp_length (input lit rest : List Char)
    (h : scanExp input = some (lit, rest)) : rest.length ≤ input.length := by
  cases input with
  | nil => simp [scanExp] at h; simp [h.2.symm]
  | cons c tail =>
    simp only [scanExp] at h
    split_ifs at h
    · cases tail with
      | nil => simp at h
      | cons s tail2 =>
        simp only at h
        split_ifs at h
        · have := scanExpDigits_length _ _ _ _ h
          simp only [List.length_cons]; omega
        · have := scanExpDigits_length _ _ _ _ h
          simp only [List.length_cons] at this ⊢; omega
    · simp only [Option.some.injEq, Prod.mk.injEq] at h
      rw [← h.2]

theorem scanUnsigned_length (input lit rest : List Char)
    (h : scanUnsigned input = some (lit, rest)) : rest.length < input.length := by
  cases input with
  | nil => simp [scanUnsigned] at h
  | cons c tail =>
    have key : ∀ (int rest1 : List Char),
        (match scanFrac rest1 with
          | none => none
          | some (frac, rest2) =>
            match scanExp rest2 with
            | none => none
            | some (exp, rest3) => some (int ++ frac ++ exp, rest3)) = some (lit, rest) →
        rest.length ≤ rest1.length := by
      intro int rest1 hk
      cases hf : scanFrac rest1 with
      | none => simp [hf] at hk
      | some p =>
        obtain ⟨frac, rest2⟩ := p
        simp only [hf] at hk
        have h2 := scanFrac_length _ _ _ hf
        cases he : scanExp rest2 with
        | none => simp [he] at hk
        | some q =>
          obtain ⟨exp, rest3⟩ := q
          simp only [he, Option.some.injEq, Prod.mk.injEq] at hk
          have h3 := scanExp_length _ _ _ he
          rw [← hk.2]; omega
    unfold scanUnsigned at h
    simp only at h
    split_ifs at h with hd h0
    · have := key _ _ h
      simp only [List.length_cons]; omega
    · have := key _ _ h
      have := span_snd_length isDigit tail
      simp only [List.length_cons]; omega

theorem scanNumber_length (input lit rest : List Char)
    (h : scanNumber input = some (lit, rest)) : rest.length < input.length := by
  cases input with
  | nil => simp [scanNumber] at h
  | cons c tail =>
    simp only [scanNumber] at h
    split_ifs at h
    · cases hu : scanUnsigned tail with
      | none => simp [hu] at h
      | some p =>
        obtain ⟨l2, r2⟩ := p
        simp only [hu, Option.map_some', Option.some.injEq, Prod.mk.injEq] at h
        have := scanUnsigned_length _ _ _ hu
        rw [← h.2, List.length_cons]; omega
    · exact scanUnsigned_length _ _ _ h

theorem scanLiteral_length (word : List Char) (v v2 : Value) (input rest : List Char)
    (hw : word ≠ []) (h : scanLiteral word v input = some (v2, rest)) :
    rest.length < input.length := by
  simp only [scanLiteral] at h
  split_ifs at h with ht
  simp only [Option.some.injEq, Prod.mk.injEq] at h
  have hlen : word.length ≤ input.length := by
    have := congrArg List.length ht
    simp only [List.length_take] at this
    omega
  have hpos : 0 < word.length := List.length_pos.mpr hw
  rw [← h.2, List.length_drop]; omega


theorem map_eq_some_snd {α β : Type} {r : Option (α × List Char)} {f : α × List Char → β × List Char}
    {b : β} {rest : List Char}
    (h : r.map f = some (b, rest)) (hf : ∀ p, (f p).2 = p.2) : ∃ a, r = some (a, rest) := by
  cases r with
  | none => simp at h
  | some p =>
    obtain ⟨a, r2⟩ := p
    simp only [Option.map_some', Option.some.injEq] at h
    have := hf (a, r2)
    rw [h] at this
    simp only at this
    exact ⟨a, by rw [this]⟩

/-- Every scanner consumes input. -/
theorem scan_length (fuel : Nat) :
    (∀ input v rest, scanValue fuel input = some (v, rest) → rest.length < input.length) ∧
    (∀ input ms rest, scanMembers fuel input = some (ms, rest) →
      rest.length < input.length) ∧
    (∀ input rest, scanElements fuel input = some rest → rest.length < input.length) := by
  induction fuel with
  | zero =>
    refine ⟨?_, ?_, ?_⟩
    · intro input v rest h; simp [scanValue] at h
    · intro input ms rest h; simp [scanMembers] at h
    · intro input rest h; simp [scanElements] at h
  | succ fuel ih =>
    obtain ⟨ihV, ihM, ihE⟩ := ih
    refine ⟨?_, ?_, ?_⟩
    · intro input v rest h
      cases input with
      | nil => simp [scanValue] at h
      | cons c tail =>
        rw [scanValue] at h
        split_ifs at h with h1 h2 h3 h4 h5 h6
        · obtain ⟨s, hs⟩ := map_eq_some_snd h (fun _ => rfl)
          have := scanString_length _ _ _ hs
          simp only [List.length_cons]; omega
        · have hsk := skipSpace_length tail
          cases hsp : skipSpace tail with
          | nil => simp [hsp] at h
          | cons c2 rest2 =>
            rw [hsp] at hsk
            simp only [hsp] at h
            split_ifs at h
            · simp only [Option.some.injEq, Prod.mk.injEq] at h
              rw [← h.2]
              simp only [List.length_cons] at hsk ⊢; omega
            · obtain ⟨ms, hms⟩ := map_eq_some_snd h (fun _ => rfl)
              have := ihM _ _ _ hms
              simp only [List.length_cons] at hsk this ⊢; omega
        · have hsk := skipSpace_length tail
          cases hsp : skipSpace tail with
          | nil => simp [hsp] at h
          | cons c2 rest2 =>
            rw [hsp] at hsk
            simp only [hsp] at h
            split_ifs at h
            · simp only [Option.some.injEq, Prod.mk.injEq] at h
              rw [← h.2]
              simp only [List.length_cons] at hsk ⊢; omega
            · cases he : scanElements fuel (c2 :: rest2) with
              | none => simp [he] at h
              | some r =>
                simp only [he, Option.map_some', Option.some.injEq, Prod.mk.injEq] at h
                have := ihE _ _ he
                rw [← h.2]
                simp only [List.length_cons] at hsk this ⊢; omega
        · exact scanLiteral_length _ _ _ _ _ (by decide) h
        · exact scanLiteral_length _ _ _ _ _ (by decide) h
        · exact scanLiteral_length _ _ _ _ _ (by decide) h
        · obtain ⟨s, hs⟩ := map_eq_some_snd h (fun _ => rfl)
          exact scanNumber_length _ _ _ hs
    · intro input ms rest h
      cases input with
      | nil => simp [scanMembers] at h
      | cons q tail =>
        rw [scanMembers] at h
        split_ifs at h with hq
        cases hs : scanString tail with
        | none => simp [hs] at h
        | some p =>
          obtain ⟨key, rest1⟩ := p
          simp only [hs] at h
          have l1 := scanString_length _ _ _ hs
          have l2 := skipSpace_length rest1
          cases hsp : skipSpace rest1 with
          | nil => simp [hsp] at h
          | cons colon rest2 =>
            rw [hsp] at l2
            simp only [hsp] at h
            split_ifs at h with hc
            have l3 := skipSpace_length rest2
            cases hv : scanValue fuel (skipSpace rest2) with
            | none => simp [hv] at h
            | some pv =>
              obtain ⟨v, rest3⟩ := pv
              simp only [hv] at h
              have l4 := ihV _ _ _ hv
              have l5 := skipSpace_length rest3
              cases hsp3 : skipSpace rest3 with
              | nil => simp [hsp3] at h
              | cons sep rest4 =>
                rw [hsp3] at l5
                simp only [hsp3] at h
                split_ifs at h with hcomma hbrace
                · obtain ⟨ms2, hms2⟩ := map_eq_some_snd h (fun _ => rfl)
                  have l6 := ihM _ _ _ hms2
                  have l7 := skipSpace_length rest4
                  simp only [List.length_cons] at l2 l5 ⊢; omega
                · simp only [Option.some.injEq, Prod.mk.injEq] at h
                  rw [← h.2]
                  simp only [List.length_cons] at l2 l5 ⊢; omega
    · intro input rest h
      rw [scanElements] at h
      cases hv : scanValue fuel input with
      | none => simp [hv] at h
      | some pv =>
        obtain ⟨v, rest1⟩ := pv
        simp only [hv] at h
        have l1 := ihV _ _ _ hv
        have l2 := skipSpace_length rest1
        cases hsp : skipSpace rest1 with
        | nil => simp [hsp] at h
        | cons sep rest2 =>
          rw [hsp] at l2
          simp only [hsp] at h
          split_ifs at h with hcomma hbracket
          · have l3 := ihE _ _ h
            have l4 := skipSpace_length rest2
            simp only [List.length_cons] at l2; omega
          · simp only [Option.some.injEq] at h
            rw [← h]
            simp only [List.length_cons] at l2; omega


/-- The result of a scanner does not depend on the depth granted, once that is
twice the length of the input. -/
theorem scan_fuel (f1 : Nat) : ∀ (f2 : Nat) (input : List Char),
    (2 * input.length ≤ f1 → 2 * input.length ≤ f2 →
      scanValue f1 input = scanValue f2 input ∧
      scanMembers f1 input = scanMembers f2 input) ∧
    (2 * input.length + 1 ≤ f1 → 2 * input.length + 1 ≤ f2 →
      scanElements f1 input = scanElements f2 input) := by
  induction f1 with
  | zero =>
    intro f2 input
    refine ⟨?_, ?_⟩
    · intro h1 _
      have : input = [] := by
        cases input with
        | nil => rfl
        | cons c t => simp only [List.length_cons] at h1; omega
      subst this
      cases f2 <;> simp [scanValue, scanMembers]
    · intro h1 _; omega
  | succ g1 ih =>
    intro f2 input
    refine ⟨?_, ?_⟩
    · intro h1 h2
      cases input with
      | nil => cases f2 <;> simp [scanValue, scanMembers]
      | cons c tail =>
        simp only [List.length_cons] at h1 h2
        obtain ⟨g2, rfl⟩ : ∃ g2, f2 = g2 + 1 := ⟨f2 - 1, by omega⟩
        refine ⟨?_, ?_⟩
        · conv_lhs => rw [scanValue]
          conv_rhs => rw [scanValue]
          have hsk := skipSpace_length tail
          split_ifs with a1 a2 a3
          · rfl
          · cases hsp : skipSpace tail with
            | nil => rfl
            | cons c2 rest2 =>
              rw [hsp] at hsk
              simp only [List.length_cons] at hsk
              simp only
              split_ifs
              · rfl
              · rw [((ih g2 (c2 :: rest2)).1 (by simp only [List.length_cons]; omega)
                  (by simp only [List.length_cons]; omega)).2]
          · cases hsp : skipSpace tail with
            | nil => rfl
            | cons c2 rest2 =>
              rw [hsp] at hsk
              simp only [List.length_cons] at hsk
              simp only
              split_ifs
              · rfl
              · rw [(ih g2 (c2 :: rest2)).2 (by simp only [List.length_cons]; omega)
                  (by simp only [List.length_cons]; omega)]
          all_goals rfl
        · conv_lhs => rw [scanMembers]
          conv_rhs => rw [scanMembers]
          split_ifs with hq
          · cases hs : scanString tail with
            | none => rfl
            | some p =>
              obtain ⟨key, rest1⟩ := p
              have l1 := scanString_length _ _ _ hs
              have l2 := skipSpace_length rest1
              simp only
              cases hsp : skipSpace rest1 with
              | nil => rfl
              | cons colon rest2 =>
                rw [hsp] at l2
                simp only [List.length_cons] at l2
                simp only
                split_ifs with hc
                · have l3 := skipSpace_length rest2
                  rw [((ih g2 (skipSpace rest2)).1 (by omega) (by omega)).1]
                  cases hv : scanValue g2 (skipSpace rest2) with
                  | none => rfl
                  | some pv =>
                    obtain ⟨v, rest3⟩ := pv
                    have l4 := (scan_length g2).1 _ _ _ hv
                    have l5 := skipSpace_length rest3
                    simp only
                    cases hsp3 : skipSpace rest3 with
                    | nil => rfl
                    | cons sep rest4 =>
                      rw [hsp3] at l5
                      simp only [List.length_cons] at l5
                      have l6 := skipSpace_length rest4
                      simp only
                      split_ifs
                      · rw [((ih g2 (skipSpace rest4)).1 (by omega) (by omega)).2]
                      · rfl
                      · rfl
                · rfl
          · rfl
    · intro h1 h2
      obtain ⟨g2, rfl⟩ : ∃ g2, f2 = g2 + 1 := ⟨f2 - 1, by omega⟩
      conv_lhs => rw [scanElements]
      conv_rhs => rw [scanElements]
      rw [((ih g2 input).1 (by omega) (by omega)).1]
      cases hv : scanValue g2 input with
      | none => rfl
      | some pv =>
        obtain ⟨v, rest1⟩ := pv
        have l1 := (scan_length g2).1 _ _ _ hv
        have l2 := skipSpace_length rest1
        simp only
        cases hsp : skipSpace rest1 with
        | nil => rfl
        | cons sep rest2 =>
          rw [hsp] at l2
          simp only [List.length_cons] at l2
          have l3 := skipSpace_length rest2
          simp only
          split_ifs
          · rw [(ih g2 (skipSpace rest2)).2 (by omega) (by omega)]
          · rfl
          · rfl

/-- The depth `scanFuel` grants for a payload is enough for every value in it:
any larger depth gives the same result. -/
theorem scanFuel_enough (data input : List Char) (fuel : Nat)
    (hlen : input.length ≤ data.length) (hfuel : scanFuel data ≤ fuel) :
    scanValue fuel input = scanValue (scanFuel data) input ∧
    scanMembers fuel input = scanMembers (scanFuel data) input := by
  unfold scanFuel at hfuel ⊢
  exact (scan_fuel fuel (2 * data.length + 2) input).1 (by omega) (by omega)


/-! ## The message router -/

/-- C2: a payload that parses as an envelope whose type is not `ping` (the type
`pong` included) makes `Handle` do one thing, a `Broadcast` with the connection
as sender; nothing is sent to the connection. The payload broadcast decodes to an
envelope with the identity of the connection as `clientId`, whatever the inbound
payload carried there, and with the type, position and timestamp of the inbound
envelope. -/
theorem Handle_broadcasts_stamped_envelope (conn : Connection) (data : Bytes)
    (msg : Message) (hparse : Unmarshal data = .ok msg) (hne : msg.Type_ ≠ "ping") :
    ∃ out sent, Handle conn data = [.Broadcast conn out] ∧
      Unmarshal out = .ok sent ∧ sent.ClientID = conn.ID ∧ sent.Type_ = msg.Type_ ∧
      sent.Position = msg.Position ∧ sent.Timestamp = msg.Timestamp := by
  obtain ⟨out, hout, hback⟩ := Unmarshal_Marshal { msg with ClientID := conn.ID }
  refine ⟨out, { msg with ClientID := conn.ID }, ?_, hback, rfl, rfl, rfl, rfl⟩
  unfold Handle
  simp only [hparse, hne, if_false, hout]

/-- C3: a payload that parses as an envelope of type `ping` with timestamp `t`
makes `Handle` do one thing, a `Send` on the connection; the payload sent decodes
to the envelope of type `pong` with timestamp `t`, the identity of the connection
as `clientId` and no position. There is no `Broadcast`. -/
theorem Handle_answers_ping_with_pong (conn : Connection) (data : Bytes)
    (msg : Message) (hparse : Unmarshal data = .ok msg) (hping : msg.Type_ = "ping") :
    ∃ resp, Handle conn data = [.Send conn resp] ∧
      Unmarshal resp = .ok ⟨"pong", none, msg.Timestamp, conn.ID⟩ := by
  obtain ⟨resp, hresp, hback⟩ := Unmarshal_Marshal ⟨"pong", none, msg.Timestamp, conn.ID⟩
  refine ⟨resp, ?_, hback⟩
  unfold Handle
  simp only [hparse, hping, if_true, hresp]

/-- C4: a payload that fails to parse as the envelope (not JSON, or JSON with a
value of the wrong type) makes `Handle` log a warning and do nothing else: no
`Send`, no `Broadcast`, no `Register`, no `Unregister`, no `Close`. -/
theorem Handle_drops_malformed_payload (conn : Connection) (data : Bytes)
    (e : UnmarshalError) (hfail : Unmarshal data = .error e) :
    Handle conn data = [.Warn "invalid message"] ∧
    ∀ ev ∈ Handle conn data, ∃ text, ev = .Warn text := by
  have h : Handle conn data = [.Warn "invalid message"] := by
    unfold Handle
    simp only [hfail]
  refine ⟨h, ?_⟩
  intro ev hev
  rw [h, List.mem_singleton] at hev
  exact ⟨_, hev⟩

/-- C9 as stated fails: the inbound object of `exChat` has the member `text`, and
the payload `Handle` broadcasts for it has the members `type`, `timestamp` and
`clientId` only. -/
theorem Handle_leaves_out_unknown_field :
    parseTop exChat = some (Value.object,
      [("type".toList, Value.string "chat".toList),
        ("timestamp".toList, Value.number "1".toList),
        ("text".toList, Value.string "hi".toList),
        ("clientId".toList, Value.string "someone".toList)]) ∧
    Handle exClient exChat = [.Broadcast exClient exChatRelayed] ∧
    parseTop exChatRelayed = some (Value.object,
      [("type".toList, Value.string "chat".toList),
        ("timestamp".toList, Value.number "1".toList),
        ("clientId".toList, Value.string "client1".toList)]) := by
  decide

/-- C9, amended: for a payload that parses as an envelope whose type is not
`ping`, the payload `Handle` broadcasts is an object with the members of the
envelope and no other: `type`, `position` when the inbound envelope has one,
`timestamp`, each with the value of the inbound envelope, and `clientId` with the
identity of the connection (left out when that identity is empty). -/
theorem Handle_relays_envelope_fields_only (conn : Connection) (data : Bytes)
    (msg : Message) (hparse : Unmarshal data = .ok msg) (hne : msg.Type_ ≠ "ping") :
    ∃ out, Handle conn data = [.Broadcast conn out] ∧
      parseTop out = some (Value.object,
        [("type".toList, Value.string msg.Type_.data)]
          ++ (match msg.Position with
              | some p => [("position".toList, Value.number (formatInt p.val))]
              | none => [])
          ++ [("timestamp".toList, Value.number (formatInt msg.Timestamp.val))]
          ++ (if conn.ID = "" then []
              else [("clientId".toList, Value.string conn.ID.data)])) := by
  obtain ⟨out, hout, hobj⟩ := parseTop_Marshal { msg with ClientID := conn.ID }
  refine ⟨out, ?_, hobj⟩
  unfold Handle
  simp only [hparse, hne, if_false, hout]

/-- C2 at the message of `TestHandler_Broadcast`. -/
theorem Handle_broadcasts_stamped_envelope_witness :
    ∃ out sent, Handle exClient exToggle = [.Broadcast exClient out] ∧
      Unmarshal out = .ok sent ∧ sent.ClientID = exClient.ID ∧ sent.Type_ = "toggle" ∧
      sent.Position = none ∧ sent.Timestamp = ⟨99999, by decide⟩ :=
  Handle_broadcasts_stamped_envelope exClient exToggle ⟨"toggle", none, ⟨99999, by decide⟩, ""⟩
    (by rfl) (by decide)

/-- C3 at the probe of `TestHandler_PingPong`. -/
theorem Handle_answers_ping_with_pong_witness :
    ∃ resp, Handle exClient exPing = [.Send exClient resp] ∧
      Unmarshal resp = .ok ⟨"pong", none, ⟨12345, by decide⟩, "client1"⟩ :=
  Handle_answers_ping_with_pong exClient exPing ⟨"ping", none, ⟨12345, by decide⟩, ""⟩
    (by rfl) (by decide)

/-- C4 at the payload of `TestHandler_InvalidJSON`. -/
theorem Handle_drops_malformed_payload_witness :
    Unmarshal "not json".toList = .error .syntaxError ∧
    Handle exClient "not json".toList = [.Warn "invalid message"] :=
  ⟨by rfl,
    (Handle_drops_malformed_payload exClient "not json".toList .syntaxError (by rfl)).1⟩

/-- C9, amended, at `exChat`. -/
theorem Handle_relays_envelope_fields_only_witness :
    ∃ out, Handle exClient exChat = [.Broadcast exClient out] ∧
      parseTop out = some (Value.object,
        [("type".toList, Value.string "chat".toList),
          ("timestamp".toList, Value.number "1".toList),
          ("clientId".toList, Value.string "client1".toList)]) :=
  Handle_relays_envelope_fields_only exClient exChat ⟨"chat", none, ⟨1, by decide⟩, "someone"⟩
    (by rfl) (by decide)

/-! ## Calls that do not overlap: the shared hub behaves as the hub -/

namespace GoMap
variable {V W : Type}

theorem get_map (m : GoMap V) (g : V → W) (k : String) :
    GoMap.get (m.map (fun e => (e.1, g e.2))) k = (m.get k).map g := by
  induction m with
  | nil => rfl
  | cons e rest ih =>
    obtain ⟨k', v⟩ := e
    by_cases hk : k' = k <;> simp [get, hk, ih]

theorem set_map (m : GoMap V) (g : V → W) (k : String) (v : V) :
    (m.set k v).map (fun e => (e.1, g e.2))
      = GoMap.set (m.map (fun e => (e.1, g e.2))) k (g v) := by
  induction m with
  | nil => rfl
  | cons e rest ih =>
    obtain ⟨k', v'⟩ := e
    by_cases hk : k' = k <;> simp [set, hk, ih]

theorem delete_map (m : GoMap V) (g : V → W) (k : String) :
    (m.delete k).map (fun e => (e.1, g e.2))
      = GoMap.delete (m.map (fun e => (e.1, g e.2))) k := by
  induction m with
  | nil => rfl
  | cons e rest ih =>
    obtain ⟨k', v'⟩ := e
    simp only [delete] at ih
    by_cases hk : k' = k <;> simp [delete, List.filter_cons, hk, ih]

/-- Replacing the value at the key `k` after mapping, when the mapped values
differ only at the value stored under `k`. -/
theorem map_update (m : GoMap V) (g1 g2 : V → W) (k : String) (v : V)
    (hget : m.get k = some v) (hnd : (m.map Prod.snd).Nodup) :
    (∀ v2, v2 ≠ v → g2 v2 = g1 v2) →
    m.map (fun e => (e.1, g2 e.2))
      = GoMap.set (m.map (fun e => (e.1, g1 e.2))) k (g2 v) := by
  intro hother
  induction m with
  | nil => simp [get] at hget
  | cons e rest ih =>
    obtain ⟨k', v'⟩ := e
    simp only [List.map_cons, List.nodup_cons] at hnd
    by_cases hk : k' = k
    · subst hk
      simp only [get, if_true, Option.some.injEq] at hget
      subst hget
      simp only [List.map_cons, set, if_true, List.cons.injEq, true_and]
      apply List.map_congr_left
      intro e he
      have : e.2 ≠ v' := by
        rintro rfl
        exact hnd.1 (List.mem_map.mpr ⟨e, he, rfl⟩)
      rw [hother _ this]
    · simp only [get, hk, if_false] at hget
      have hv : v' ≠ v := by
        rintro rfl
        exact hnd.1 (List.mem_map.mpr ⟨(k, v'), mem_of_get hget, rfl⟩)
      simp only [List.map_cons, set, hk, if_false, hother _ hv, ih hget hnd.2]

end GoMap

theorem SharedHub.clients_set_self (s : SharedHub) (r : Nat) (x : GoMap Connection)
    (hr : r < s.heap.length) :
    (⟨s.rooms, s.heap.set r x⟩ : SharedHub).clients r = x := by
  simp [SharedHub.clients, List.getD_eq_getElem?_getD, List.getElem?_set, hr]

theorem SharedHub.clients_set_ne (s : SharedHub) (r p : Nat) (x : GoMap Connection)
    (hp : p ≠ r) :
    (⟨s.rooms, s.heap.set r x⟩ : SharedHub).clients p = s.clients p := by
  simp [SharedHub.clients, List.getD_eq_getElem?_getD, List.getElem?_set, Ne.symm hp]

theorem SharedHub.view_get (s : SharedHub) (k : String) :
    s.view.rooms.get k = (s.rooms.get k).map (fun r => ⟨s.clients r⟩) :=
  GoMap.get_map s.rooms (fun r => (⟨s.clients r⟩ : room)) k

/-- Writing the member set of the room object that the registry holds under
`k`. -/
theorem SharedHub.view_set_heap (s : SharedHub) (hwf : s.WF) (k : String) (r : Nat)
    (x : GoMap Connection) (hget : s.rooms.get k = some r) :
    (⟨s.rooms, s.heap.set r x⟩ : SharedHub).view = ⟨s.view.rooms.set k ⟨x⟩⟩ := by
  have hr : r < s.heap.length := hwf.ptrValid _ (GoMap.mem_of_get hget)
  have := GoMap.map_update s.rooms (fun p => (⟨s.clients p⟩ : room))
    (fun p => (⟨(⟨s.rooms, s.heap.set r x⟩ : SharedHub).clients p⟩ : room)) k r hget
    hwf.ptrNodup (fun p hp => by simp only [SharedHub.clients_set_ne s r p x hp])
  simp only [SharedHub.clients_set_self s r x hr] at this
  simp only [SharedHub.view]
  rw [this]


theorem GoMap.set_of_none {V : Type} {m : GoMap V} {k : String} (v : V)
    (hget : m.get k = none) : m.set k v = m ++ [(k, v)] := by
  induction m with
  | nil => rfl
  | cons e rest ih =>
    obtain ⟨k', v'⟩ := e
    by_cases hk : k' = k
    · simp [GoMap.get, hk] at hget
    · simp only [GoMap.get, hk, if_false] at hget
      simp [GoMap.set, hk, ih hget]

theorem Hub.ext_rooms {h1 h2 : Hub} (h : h1.rooms = h2.rooms) : h1 = h2 := by
  cases h1; cases h2; simp only at h; rw [h]

/-- `Register(c)` run with no other call in between does on the shared hub what
`Hub.Register` does on the hub it stands for. -/
theorem Register_alone (s : SharedHub) (hwf : s.WF) (c : Connection) :
    (Call.finish s (.Register c)).view = s.view.Register c ∧
    (Call.finish s (.Register c)).WF := by
  cases hget : s.rooms.get c.Room with
  | some r =>
    have hfin : Call.finish s (.Register c)
        = ⟨s.rooms, s.heap.set r ((s.clients r).set c.ID c)⟩ := by
      simp [Call.finish, Call.step, hget]
    have hview : s.view.clientsOf c.Room = s.clients r := by
      simp [Hub.clientsOf, SharedHub.view_get, hget]
    rw [hfin]
    refine ⟨?_, ⟨hwf.keysNodup, hwf.ptrNodup, ?_⟩⟩
    · rw [SharedHub.view_set_heap s hwf c.Room r _ hget]
      apply Hub.ext_rooms
      rw [Hub.Register_rooms, hview]
    · intro e he
      simp only [List.length_set]
      exact hwf.ptrValid e he
  | none =>
    have hnew : (s.heap ++ [([] : GoMap Connection)]).getD s.heap.length [] = [] := by
      simp [List.getD_eq_getElem?_getD]
    have hfin : Call.finish s (.Register c)
        = ⟨s.rooms.set c.Room s.heap.length,
            (s.heap ++ [[]]).set s.heap.length (GoMap.set [] c.ID c)⟩ := by
      simp [Call.finish, Call.step, hget, SharedHub.clients, hnew]
    have hview : s.view.clientsOf c.Room = [] := by
      simp [Hub.clientsOf, SharedHub.view_get, hget]
    have hold : ∀ e ∈ s.rooms,
        ((s.heap ++ [[]]).set s.heap.length (GoMap.set [] c.ID c)).getD e.2 []
          = s.heap.getD e.2 [] := by
      intro e he
      have hlt := hwf.ptrValid e he
      have hne : s.heap.length ≠ e.2 := by omega
      simp [List.getD_eq_getElem?_getD, List.getElem?_set, hne,
        List.getElem?_append_left hlt]
    have hself : ((s.heap ++ [[]]).set s.heap.length (GoMap.set [] c.ID c)).getD
          s.heap.length [] = GoMap.set [] c.ID c := by
      simp [List.getD_eq_getElem?_getD, List.getElem?_set]
    rw [hfin]
    refine ⟨?_, ⟨GoMap.nodup_keys_set hwf.keysNodup _ _, ?_, ?_⟩⟩
    · apply Hub.ext_rooms
      rw [Hub.Register_rooms, hview]
      simp only [SharedHub.view, SharedHub.clients]
      refine (GoMap.set_map s.rooms (fun p => (⟨((s.heap ++ [[]]).set s.heap.length
          (GoMap.set [] c.ID c)).getD p []⟩ : room)) c.Room s.heap.length).trans ?_
      simp only [hself]
      congr 1
      apply List.map_congr_left
      intro e he
      rw [hold e he]
    · simp only [GoMap.set_of_none _ hget, List.map_append, List.map_cons, List.map_nil]
      refine List.Nodup.append hwf.ptrNodup (List.nodup_singleton _) ?_
      intro p hp hp2
      simp only [List.mem_singleton] at hp2
      obtain ⟨e, he, rfl⟩ := List.mem_map.mp hp
      have := hwf.ptrValid e he
      omega
    · intro e he
      simp only [GoMap.set_of_none _ hget, List.mem_append, List.mem_singleton] at he
      simp only [List.length_set, List.length_append, List.length_singleton]
      rcases he with he | rfl
      · have := hwf.ptrValid e he; omega
      · simp

/-- `Unregister(c)` run with no other call in between does on the shared hub
what `Hub.Unregister` does on the hub it stands for. -/
theorem Unregister_alone (s : SharedHub) (hwf : s.WF) (c : Connection) :
    (Call.finish s (.Unregister c)).view = s.view.Unregister c ∧
    (Call.finish s (.Unregister c)).WF := by
  cases hget : s.rooms.get c.Room with
  | none =>
    have hfin : Call.finish s (.Unregister c) = s := by
      simp [Call.finish, Call.step, hget]
    have hseq : s.view.Unregister c = s.view := by
      simp [Hub.Unregister, SharedHub.view_get, hget]
    rw [hfin, hseq]
    exact ⟨rfl, hwf⟩
  | some r =>
    have hvget : s.view.rooms.get c.Room = some ⟨s.clients r⟩ := by
      simp [SharedHub.view_get, hget]
    have hheap := SharedHub.view_set_heap s hwf c.Room r ((s.clients r).delete c.ID) hget
    by_cases hcount : ((s.clients r).delete c.ID).len = 0
    · have hfin : Call.finish s (.Unregister c)
          = ⟨s.rooms.delete c.Room, s.heap.set r ((s.clients r).delete c.ID)⟩ := by
        simp [Call.finish, Call.step, hget, hcount]
      have hseq : s.view.Unregister c
          = ⟨(s.view.rooms.set c.Room ⟨(s.clients r).delete c.ID⟩).delete c.Room⟩ := by
        simp [Hub.Unregister, hvget, hcount]
      rw [hfin, hseq]
      refine ⟨?_, ⟨GoMap.nodup_keys_delete hwf.keysNodup _, ?_, ?_⟩⟩
      · apply Hub.ext_rooms
        have h1 := congrArg Hub.rooms hheap
        simp only [SharedHub.view, SharedHub.clients] at h1 ⊢
        rw [← h1]
        exact GoMap.delete_map s.rooms
          (fun p => (⟨(s.heap.set r (GoMap.delete (s.heap.getD r []) c.ID)).getD p []⟩ : room))
          c.Room
      · exact List.Nodup.sublist ((List.filter_sublist _).map _) hwf.ptrNodup
      · intro e he
        simp only [List.length_set]
        exact hwf.ptrValid e (List.mem_filter.mp he).1
    · have hfin : Call.finish s (.Unregister c)
          = ⟨s.rooms, s.heap.set r ((s.clients r).delete c.ID)⟩ := by
        simp [Call.finish, Call.step, hget, hcount]
      have hseq : s.view.Unregister c
          = ⟨s.view.rooms.set c.Room ⟨(s.clients r).delete c.ID⟩⟩ := by
        simp [Hub.Unregister, hvget, hcount]
      rw [hfin, hseq]
      refine ⟨hheap, ⟨hwf.keysNodup, hwf.ptrNodup, ?_⟩⟩
      intro e he
      simp only [List.length_set]
      exact hwf.ptrValid e he

/-! ## A broadcast step by step: the invariant of a run -/

theorem GoMap.delete_delete {V : Type} (m : GoMap V) (k : String) :
    (m.delete k).delete k = m.delete k := by
  simp [GoMap.delete, List.filter_filter]

theorem map_fst_set {α β : Type} (l : List (α × β)) (i : Nat) (a : α) (b b2 : β)
    (hget : l.get? i = some (a, b)) : (l.set i (a, b2)).map Prod.fst = l.map Prod.fst := by
  induction l generalizing i with
  | nil => simp
  | cons x rest ih =>
    cases i with
    | zero =>
      simp only [List.get?_cons_zero, Option.some.injEq] at hget
      simp [hget]
    | succ j =>
      simp only [List.get?_cons_succ] at hget
      simp [ih j hget]

theorem SharedHub.view_clientsOf (s : SharedHub) (name : String) (r : Nat)
    (hget : s.rooms.get name = some r) : s.view.clientsOf name = s.clients r := by
  simp [Hub.clientsOf, SharedHub.view_get, hget]

theorem SharedHub.view_clientsOf_none (s : SharedHub) (name : String)
    (hget : s.rooms.get name = none) : s.view.clientsOf name = [] := by
  simp [Hub.clientsOf, SharedHub.view_get, hget]

theorem goroutineOk_mono {m m2 : GoMap Connection} {r : Nat} {p : Connection × Option Call}
    (hsub : ∀ e ∈ m2, e ∈ m) (h : goroutineOk m r p) : goroutineOk m2 r p := by
  rcases h with h | h | ⟨h, hm⟩ | ⟨h, hm⟩
  · exact Or.inl h
  · exact Or.inr (Or.inl h)
  · refine Or.inr (Or.inr (Or.inl ⟨h, ?_⟩))
    subst hm
    cases m2 with
    | nil => rfl
    | cons e t => exact absurd (hsub e (List.mem_cons_self _ _)) (by simp)
  · exact Or.inr (Or.inr (Or.inr ⟨h, fun e he => hm e (hsub e he)⟩))

theorem BroadcastRun.Inv_stepBroadcast {σ : Type} (send : Connection → Bytes → σ → Bool × σ)
    (range : GoMap Connection → List (String × Connection))
    (sender : Connection) (data : Bytes) (s : SharedHub) (w : σ)
    (hvwf : s.view.WF) (hrange : ∀ m, (range m).Perm m) (st : BroadcastRun σ)
    (hinv : st.Inv send range sender data s w) :
    (st.stepBroadcast send range sender data).Inv send range sender data s w := by
  obtain ⟨hub, rl, world, calls, pc, spawned⟩ := st
  cases pc with
  | start =>
    simp only [BroadcastRun.Inv, BroadcastRun.init, BroadcastRun.mk.injEq] at hinv
    obtain ⟨rfl, rfl, rfl, rfl, -, rfl⟩ := hinv
    simp only [BroadcastRun.stepBroadcast]
    cases hget : hub.rooms.get sender.Room with
    | none => simp [BroadcastRun.Inv, hget]
    | some r => simp [BroadcastRun.Inv, hget]
  | found r =>
    simp only [BroadcastRun.Inv, BroadcastRun.mk.injEq] at hinv
    obtain ⟨hget, rfl, rfl, rfl, rfl, -, rfl⟩ := hinv
    simp only [BroadcastRun.stepBroadcast]
    unfold BroadcastRun.Inv
    exact ⟨hget, rfl, rfl, fun e he => (hrange _).mem_iff.mp he, ⟨rfl, rfl, rfl⟩,
      fun p hp => absurd hp (List.not_mem_nil _)⟩
  | iter r todo =>
    simp only [BroadcastRun.Inv] at hinv
    obtain ⟨hget, hrl, hhub, htodo, hprog, hpre⟩ := hinv
    subst hhub
    have hcl : hub.view.clientsOf sender.Room = hub.clients r :=
      SharedHub.view_clientsOf hub _ r hget
    cases todo with
    | nil =>
      simp only [BroadcastRun.stepBroadcast]
      unfold BroadcastRun.Inv
      refine ⟨rfl, Or.inr ⟨r, hget, hprog, ⟨Or.inl rfl, rfl, fun e he => he,
        fun e he _ => he, ?_⟩⟩⟩
      intro p hp
      obtain ⟨hp1, hp2⟩ := hpre p hp
      refine ⟨?_, hp2⟩
      rcases hp1 with h | h
      · exact Or.inl h
      · exact Or.inr (Or.inl h)
    | cons e rest =>
      obtain ⟨id, conn⟩ := e
      have hrest : ∀ e ∈ rest, e ∈ hub.clients r :=
        fun e he => htodo e (List.mem_cons_of_mem _ he)
      obtain ⟨hp1, hp2, hp3⟩ := hprog
      simp only at hp1 hp2 hp3
      by_cases hid : id = sender.ID
      · have hstep : BroadcastRun.stepBroadcast send range sender data
            ⟨hub, rl, world, calls, .iter r ((id, conn) :: rest), spawned⟩
            = ⟨hub, rl, world, calls, .iter r rest, spawned⟩ := by
          simp only [BroadcastRun.stepBroadcast, hid, if_true]
        rw [hstep]
        unfold BroadcastRun.Inv
        refine ⟨hget, hrl, rfl, hrest, ⟨?_, ?_, ?_⟩, hpre⟩
        · simpa [broadcastLoop, hid] using hp1
        · simpa [broadcastLoop, hid] using hp2
        · simpa [broadcastLoop, hid] using hp3
      · have hroom : conn.Room = sender.Room := by
          have hmem : (id, conn) ∈ hub.view.clientsOf sender.Room := by
            rw [hcl]; exact htodo _ (List.mem_cons_self _ _)
          exact (hvwf.clientsOf_stored hmem).2
        simp only [broadcastLoop, hid, if_false] at hp1 hp2 hp3
        cases hs : (send conn data world).1 with
        | false =>
          have hstep : BroadcastRun.stepBroadcast send range sender data
              ⟨hub, rl, world, calls, .iter r ((id, conn) :: rest), spawned⟩
              = ⟨hub, rl, (send conn data world).2, calls ++ [⟨conn, data, false⟩],
                  .iter r rest, spawned⟩ := by
            simp [BroadcastRun.stepBroadcast, hid, hs]
          rw [hstep]
          unfold BroadcastRun.Inv
          simp only [hs] at hp2 hp3
          refine ⟨hget, hrl, rfl, hrest, ⟨hp1, ?_, ?_⟩, hpre⟩
          · simpa using hp2
          · simpa using hp3
        | true =>
          have hstep : BroadcastRun.stepBroadcast send range sender data
              ⟨hub, rl, world, calls, .iter r ((id, conn) :: rest), spawned⟩
              = ⟨hub, rl, (send conn data world).2, calls ++ [⟨conn, data, true⟩],
                  .iter r rest, spawned ++ [(conn, some (.Unregister conn))]⟩ := by
            simp [BroadcastRun.stepBroadcast, hid, hs]
          rw [hstep]
          unfold BroadcastRun.Inv
          simp only [hs] at hp2 hp3
          refine ⟨hget, hrl, rfl, hrest, ⟨hp1, ?_, ?_⟩, ?_⟩
          · simpa using hp2
          · simpa using hp3
          · intro p hp
            simp only [List.mem_append, List.mem_singleton] at hp
            rcases hp with hp | rfl
            · exact hpre p hp
            · exact ⟨Or.inl rfl, hroom⟩
  | done => exact hinv

theorem Call.waits_none (call : Call) : call.waits none = false := by
  cases call <;> rfl

theorem hubInv_update {σ : Type} {s : SharedHub} {name : String} {r : Nat}
    {st : BroadcastRun σ} (hI : hubInv s name r st) {i : Nat} {c : Connection}
    {t : Option Call} (hgi : st.spawned.get? i = some (c, t))
    (hub2 : SharedHub) (t2 : Option Call)
    (hrooms : hub2.rooms = s.rooms ∨ (hub2.rooms = s.rooms.delete name ∧ hub2.clients r = []))
    (hlen : hub2.heap.length = s.heap.length)
    (hsub : ∀ e ∈ hub2.clients r, e ∈ st.hub.clients r)
    (hkept : ∀ e ∈ st.hub.clients r, e.1 ≠ c.ID → e ∈ hub2.clients r)
    (hnew : goroutineOk (hub2.clients r) r (c, t2)) :
    hubInv s name r
      ⟨hub2, st.readLocked, st.world, st.calls, st.pc, st.spawned.set i (c, t2)⟩ := by
  have hfst : (st.spawned.set i (c, t2)).map Prod.fst = st.spawned.map Prod.fst :=
    map_fst_set _ _ _ _ _ hgi
  have hmem : (c, t) ∈ st.spawned := List.get?_mem hgi
  refine ⟨hrooms, hlen, fun e he => hI.sub e (hsub e he), ?_, ?_⟩
  · intro e he hall
    simp only [hfst] at hall
    refine hkept e (hI.kept e he hall) ?_
    exact Ne.symm (hall c (List.mem_map.mpr ⟨(c, t), hmem, rfl⟩))
  · intro p hp
    simp only at hp
    rcases List.mem_or_eq_of_mem_set hp with hp | rfl
    · exact ⟨goroutineOk_mono hsub (hI.tasks p hp).1, (hI.tasks p hp).2⟩
    · exact ⟨hnew, (hI.tasks _ hmem).2⟩

theorem BroadcastRun.Inv_stepGoroutine {σ : Type} (send : Connection → Bytes → σ → Bool × σ)
    (range : GoMap Connection → List (String × Connection))
    (sender : Connection) (data : Bytes) (s : SharedHub) (w : σ)
    (hwf : s.WF) (st : BroadcastRun σ)
    (hinv : st.Inv send range sender data s w) (i : Nat) :
    (st.stepGoroutine i).Inv send range sender data s w := by
  unfold BroadcastRun.stepGoroutine
  cases hgi : st.spawned.get? i with
  | none => exact hinv
  | some p =>
    obtain ⟨c, t⟩ := p
    cases t with
    | none => exact hinv
    | some call =>
      have hmem : (c, some call) ∈ st.spawned := List.get?_mem hgi
      obtain ⟨hub, rl, world, calls, pc, spawned⟩ := st
      simp only at hgi hmem ⊢
      cases pc with
      | start =>
        simp only [BroadcastRun.Inv, BroadcastRun.init, BroadcastRun.mk.injEq] at hinv
        obtain ⟨-, -, -, -, -, rfl⟩ := hinv
        simp at hmem
      | found r =>
        simp only [BroadcastRun.Inv, BroadcastRun.mk.injEq] at hinv
        obtain ⟨-, -, -, -, -, -, rfl⟩ := hinv
        simp at hmem
      | iter r todo =>
        have hinv2 := hinv
        simp only [BroadcastRun.Inv] at hinv2
        obtain ⟨hget, hrl, hhub, htodo, hprog, hpre⟩ := hinv2
        subst hhub
        subst hrl
        obtain ⟨hform, hroom⟩ := hpre _ hmem
        simp only at hform hroom
        rcases hform with hform | hform
        · cases hform
          have hstep : Call.step hub (.Unregister c) = (hub, some (.UnregisterRoom c r)) := by
            simp [Call.step, hroom, hget]
          rw [if_neg (by simp [Call.waits]), hstep]
          unfold BroadcastRun.Inv
          refine ⟨hget, rfl, rfl, htodo, ?_, ?_⟩
          · obtain ⟨hp1, hp2, hp3⟩ := hprog
            refine ⟨hp1, hp2, ?_⟩
            simp only [map_fst_set _ _ _ _ _ hgi]
            exact hp3
          · intro p hp
            rcases List.mem_or_eq_of_mem_set hp with hp | rfl
            · exact hpre p hp
            · exact ⟨Or.inr rfl, hroom⟩
        · cases hform
          rw [if_pos (by simp [Call.waits])]
          exact hinv
      | done =>
        have hinv2 := hinv
        simp only [BroadcastRun.Inv] at hinv2
        obtain ⟨hrl, hcase⟩ := hinv2
        subst hrl
        rw [if_neg (by simp [Call.waits_none])]
        rcases hcase with ⟨-, heq⟩ | ⟨r, hget, hprog, hI⟩
        · simp only [BroadcastRun.mk.injEq] at heq
          obtain ⟨-, -, -, -, -, rfl⟩ := heq
          simp at hmem
        · have hr : r < s.heap.length := hwf.ptrValid _ (GoMap.mem_of_get hget)
          obtain ⟨hok, hroom⟩ := hI.tasks _ hmem
          simp only at hok hroom
          have hprog2 : ∀ (hub2 : SharedHub) (t2 : Option Call),
              loopProgress send sender data (range (s.clients r)) w []
                ⟨hub2, none, world, calls, .done, spawned.set i (c, t2)⟩ := by
            intro hub2 t2
            obtain ⟨hp1, hp2, hp3⟩ := hprog
            refine ⟨hp1, hp2, ?_⟩
            simp only [map_fst_set _ _ _ _ _ hgi]
            exact hp3
          unfold BroadcastRun.Inv
          refine ⟨rfl, Or.inr ⟨r, hget, hprog2 _ _, ?_⟩⟩
          rcases hok with hform | hform | ⟨hform, hempty⟩ | ⟨hform, -⟩
          · obtain rfl : call = Call.Unregister c := Option.some.inj hform
            rcases hI.rooms with hrooms | ⟨hrooms, hcl⟩
            · simp only at hrooms
              have hstep : Call.step hub (.Unregister c)
                  = (hub, some (.UnregisterRoom c r)) := by
                simp [Call.step, hroom, hrooms, hget]
              rw [hstep]
              exact hubInv_update hI hgi hub _ hI.rooms hI.heapLen (fun e he => he)
                (fun e he _ => he) (Or.inr (Or.inl rfl))
            · simp only at hrooms hcl
              have hstep : Call.step hub (.Unregister c) = (hub, none) := by
                simp [Call.step, hroom, hrooms, GoMap.get_delete_self]
              rw [hstep]
              refine hubInv_update hI hgi hub _ hI.rooms hI.heapLen (fun e he => he)
                (fun e he _ => he) (Or.inr (Or.inr (Or.inr ⟨rfl, ?_⟩)))
              simp [hcl]
          · obtain rfl : call = Call.UnregisterRoom c r := Option.some.inj hform
            have hlen : r < hub.heap.length := by
              have := hI.heapLen
              simp only at this
              omega
            have hcl2 : (⟨hub.rooms, hub.heap.set r ((hub.clients r).delete c.ID)⟩
                : SharedHub).clients r = (hub.clients r).delete c.ID :=
              SharedHub.clients_set_self hub r _ hlen
            have hupd : ∀ t2, goroutineOk ((hub.clients r).delete c.ID) r (c, t2) →
                hubInv s sender.Room r
                  ⟨⟨hub.rooms, hub.heap.set r ((hub.clients r).delete c.ID)⟩, none, world,
                    calls, .done, spawned.set i (c, t2)⟩ := by
              intro t2 hnew
              refine hubInv_update hI hgi _ t2 ?_ ?_ ?_ ?_ ?_
              · rcases hI.rooms with hrooms | ⟨hrooms, hcl⟩
                · exact Or.inl hrooms
                · refine Or.inr ⟨hrooms, ?_⟩
                  simp only at hcl
                  rw [hcl2, hcl]
                  rfl
              · simp only [List.length_set]
                exact hI.heapLen
              · intro e he
                rw [hcl2] at he
                exact ((GoMap.mem_delete_iff _ _ _).mp he).1
              · intro e he hne
                rw [hcl2]
                exact (GoMap.mem_delete_iff _ _ _).mpr ⟨he, hne⟩
              · rw [hcl2]; exact hnew
            by_cases hcount : ((hub.clients r).delete c.ID).len = 0
            · have hstep : Call.step hub (.UnregisterRoom c r)
                  = (⟨hub.rooms, hub.heap.set r ((hub.clients r).delete c.ID)⟩,
                      some (.UnregisterEmpty c)) := by
                simp [Call.step, hcount]
              rw [hstep]
              refine hupd _ (Or.inr (Or.inr (Or.inl ⟨rfl, ?_⟩)))
              simpa [GoMap.len] using hcount
            · have hstep : Call.step hub (.UnregisterRoom c r)
                  = (⟨hub.rooms, hub.heap.set r ((hub.clients r).delete c.ID)⟩, none) := by
                simp [Call.step, hcount]
              rw [hstep]
              refine hupd _ (Or.inr (Or.inr (Or.inr ⟨rfl, ?_⟩)))
              intro e he
              exact ((GoMap.mem_delete_iff _ _ _).mp he).2
          · obtain rfl : call = Call.UnregisterEmpty c := Option.some.inj hform
            have hstep : Call.step hub (.UnregisterEmpty c)
                = (⟨hub.rooms.delete sender.Room, hub.heap⟩, none) := by
              simp [Call.step, hroom]
            rw [hstep]
            refine hubInv_update hI hgi _ none ?_ hI.heapLen (fun e he => he)
              (fun e he _ => he) (Or.inr (Or.inr (Or.inr ⟨rfl, ?_⟩)))
            · refine Or.inr ⟨?_, hempty⟩
              rcases hI.rooms with hrooms | ⟨hrooms, -⟩
              · simp only at hrooms; simp only [hrooms]
              · simp only at hrooms; simp only [hrooms, GoMap.delete_delete]
            · show ∀ e ∈ hub.clients r, e.1 ≠ c.ID
              intro e he
              rw [show hub.clients r = [] from hempty] at he
              exact absurd he (List.not_mem_nil _)
          · exact absurd hform (by simp)

theorem BroadcastRun.Inv_run {σ : Type} (send : Connection → Bytes → σ → Bool × σ)
    (range : GoMap Connection → List (String × Connection))
    (sender : Connection) (data : Bytes) (s : SharedHub) (w : σ)
    (hwf : s.WF) (hvwf : s.view.WF) (hrange : ∀ m, (range m).Perm m)
    (schedule : List (Option Nat)) (st : BroadcastRun σ)
    (hinv : st.Inv send range sender data s w) :
    (BroadcastRun.run send range sender data st schedule).Inv send range sender data s w := by
  induction schedule generalizing st with
  | nil => exact hinv
  | cons x rest ih =>
    simp only [BroadcastRun.run, List.foldl_cons]
    apply ih
    cases x with
    | none => exact BroadcastRun.Inv_stepBroadcast send range sender data s w hvwf hrange st hinv
    | some i => exact BroadcastRun.Inv_stepGoroutine send range sender data s w hwf st hinv i

theorem BroadcastRun.Inv_init {σ : Type} (send : Connection → Bytes → σ → Bool × σ)
    (range : GoMap Connection → List (String × Connection))
    (sender : Connection) (data : Bytes) (s : SharedHub) (w : σ) :
    (BroadcastRun.init s w).Inv send range sender data s w := by
  unfold BroadcastRun.Inv
  rfl

theorem BroadcastRun.Inv_running {σ : Type} {send : Connection → Bytes → σ → Bool × σ}
    {range : GoMap Connection → List (String × Connection)}
    {sender : Connection} {data : Bytes} {s : SharedHub} {w : σ} {st : BroadcastRun σ}
    (hinv : st.Inv send range sender data s w) (hp : st.pc ≠ .done) :
    st.hub = s ∧ ∀ r todo, st.pc = .iter r todo → st.readLocked = some r := by
  obtain ⟨hub, rl, world, calls, pc, spawned⟩ := st
  cases pc with
  | start =>
    simp only [BroadcastRun.Inv, BroadcastRun.init, BroadcastRun.mk.injEq] at hinv
    exact ⟨hinv.1, fun r todo h => by cases h⟩
  | found r =>
    simp only [BroadcastRun.Inv, BroadcastRun.mk.injEq] at hinv
    exact ⟨hinv.2.1, fun r todo h => by cases h⟩
  | iter r todo =>
    simp only [BroadcastRun.Inv] at hinv
    refine ⟨hinv.2.2.1, fun r2 todo2 h => ?_⟩
    cases h
    exact hinv.2.1
  | done => exact absurd rfl hp

theorem SharedHub.view_Broadcast {σ : Type} (s : SharedHub)
    (send : Connection → Bytes → σ → Bool × σ)
    (range : GoMap Connection → List (String × Connection))
    (sender : Connection) (data : Bytes) (w : σ) :
    s.view.Broadcast send range sender data w
      = match s.rooms.get sender.Room with
        | none => ⟨w, [], []⟩
        | some r => broadcastLoop send sender.ID data (range (s.clients r)) w := by
  unfold Hub.Broadcast
  rw [SharedHub.view_get]
  cases s.rooms.get sender.Room <;> rfl

/-- When the broadcaster has returned, the run has made the `Send` calls of
`Hub.Broadcast` and started its goroutines. -/
theorem BroadcastRun.Inv_done {σ : Type} {send : Connection → Bytes → σ → Bool × σ}
    {range : GoMap Connection → List (String × Connection)}
    {sender : Connection} {data : Bytes} {s : SharedHub} {w : σ} {st : BroadcastRun σ}
    (hinv : st.Inv send range sender data s w) (hd : st.pc = .done) :
    st.world = (s.view.Broadcast send range sender data w).world ∧
    st.calls = (s.view.Broadcast send range sender data w).calls ∧
    st.spawned.map Prod.fst = (s.view.Broadcast send range sender data w).spawned ∧
    ((s.rooms.get sender.Room = none ∧ st.hub = s) ∨
      ∃ r, s.rooms.get sender.Room = some r ∧ hubInv s sender.Room r st) := by
  obtain ⟨hub, rl, world, calls, pc, spawned⟩ := st
  simp only at hd
  subst hd
  simp only [BroadcastRun.Inv] at hinv
  obtain ⟨-, hcase⟩ := hinv
  rcases hcase with ⟨hget, heq⟩ | ⟨r, hget, hprog, hI⟩
  · simp only [BroadcastRun.mk.injEq] at heq
    obtain ⟨rfl, -, rfl, rfl, -, rfl⟩ := heq
    have hB : hub.view.Broadcast send range sender data world = ⟨world, [], []⟩ := by
      rw [SharedHub.view_Broadcast, hget]
    rw [hB]
    exact ⟨rfl, rfl, rfl, Or.inl ⟨hget, rfl⟩⟩
  · obtain ⟨hp1, hp2, hp3⟩ := hprog
    simp only [broadcastLoop, List.append_nil] at hp1 hp2 hp3
    have hB : s.view.Broadcast send range sender data w
        = broadcastLoop send sender.ID data (range (s.clients r)) w := by
      rw [SharedHub.view_Broadcast, hget]
    rw [hB]
    exact ⟨hp1.symm, hp2.symm, hp3.symm, Or.inr ⟨r, hget, hI⟩⟩

/-! ## Every run can be continued until all calls have returned -/

theorem BroadcastRun.run_append {σ : Type} (send : Connection → Bytes → σ → Bool × σ)
    (range : GoMap Connection → List (String × Connection))
    (sender : Connection) (data : Bytes) (st : BroadcastRun σ)
    (a b : List (Option Nat)) :
    BroadcastRun.run send range sender data st (a ++ b)
      = BroadcastRun.run send range sender data
          (BroadcastRun.run send range sender data st a) b := by
  simp [BroadcastRun.run, List.foldl_append]

theorem BroadcastRun.loop_returns {σ : Type} (send : Connection → Bytes → σ → Bool × σ)
    (range : GoMap Connection → List (String × Connection))
    (sender : Connection) (data : Bytes) (r : Nat) (todo : List (String × Connection)) :
    ∀ (hub : SharedHub) (rl : Option Nat) (world : σ) (calls : List SendCall)
      (spawned : List (Connection × Option Call)),
      (BroadcastRun.run send range sender data ⟨hub, rl, world, calls, .iter r todo, spawned⟩
        (List.replicate (todo.length + 1) none)).pc = .done := by
  induction todo with
  | nil =>
    intro hub rl world calls spawned
    simp [BroadcastRun.run, BroadcastRun.step, BroadcastRun.stepBroadcast]
  | cons e rest ih =>
    intro hub rl world calls spawned
    obtain ⟨id, conn⟩ := e
    simp only [List.length_cons, List.replicate_succ, BroadcastRun.run, List.foldl_cons,
      BroadcastRun.step, BroadcastRun.stepBroadcast]
    split_ifs
    all_goals exact ih _ _ _ _ _

/-- The broadcaster returns after finitely many of its own steps. -/
theorem BroadcastRun.broadcaster_returns {σ : Type} (send : Connection → Bytes → σ → Bool × σ)
    (range : GoMap Connection → List (String × Connection))
    (sender : Connection) (data : Bytes) (st : BroadcastRun σ) :
    ∃ k, (BroadcastRun.run send range sender data st (List.replicate k none)).pc = .done := by
  obtain ⟨hub, rl, world, calls, pc, spawned⟩ := st
  cases pc with
  | done => exact ⟨0, rfl⟩
  | iter r todo => exact ⟨_, BroadcastRun.loop_returns send range sender data r todo _ _ _ _ _⟩
  | found r =>
    refine ⟨(range (hub.clients r)).length + 1 + 1, ?_⟩
    rw [List.replicate_succ]
    simp only [BroadcastRun.run, List.foldl_cons, BroadcastRun.step,
      BroadcastRun.stepBroadcast]
    exact BroadcastRun.loop_returns send range sender data r _ _ _ _ _ _
  | start =>
    cases hget : hub.rooms.get sender.Room with
    | none =>
      refine ⟨1, ?_⟩
      simp [BroadcastRun.run, BroadcastRun.step, BroadcastRun.stepBroadcast, hget]
    | some r =>
      refine ⟨(range (hub.clients r)).length + 1 + 1 + 1, ?_⟩
      rw [List.replicate_succ, List.replicate_succ]
      simp only [BroadcastRun.run, List.foldl_cons, BroadcastRun.step,
        BroadcastRun.stepBroadcast, hget]
      exact BroadcastRun.loop_returns send range sender data r _ _ _ _ _ _

theorem Call.sectionsLeft_step (h : SharedHub) (c : Call) :
    Call.sectionsLeft ((c.step h).2) < Call.sectionsLeft (some c) := by
  cases c with
  | Register conn =>
    simp only [Call.step]
    cases h.rooms.get conn.Room <;> simp [Call.sectionsLeft]
  | RegisterRoom conn r => simp [Call.step, Call.sectionsLeft]
  | Unregister conn =>
    simp only [Call.step]
    cases h.rooms.get conn.Room <;> simp [Call.sectionsLeft]
  | UnregisterRoom conn r =>
    simp only [Call.step]
    split_ifs <;> simp [Call.sectionsLeft]
  | UnregisterEmpty conn => simp [Call.step, Call.sectionsLeft]

theorem Call.sectionsLeft_le (t : Option Call) : Call.sectionsLeft t ≤ 3 := by
  cases t with
  | none => simp [Call.sectionsLeft]
  | some c => cases c <;> simp [Call.sectionsLeft]

theorem Call.sectionsLeft_eq_zero {t : Option Call} (h : Call.sectionsLeft t = 0) :
    t = none := by
  cases t with
  | none => rfl
  | some c => cases c <;> simp [Call.sectionsLeft] at h

theorem BroadcastRun.sectionsLeft_of_get {σ : Type} (st : BroadcastRun σ) (j : Nat)
    (o : Option (Connection × Option Call)) (h : st.spawned.get? j = o) :
    st.sectionsLeft j = Call.sectionsLeft (o.bind Prod.snd) := by
  unfold BroadcastRun.sectionsLeft
  rw [h]

/-- A step of goroutine `i` while no read lock is held: it has one section fewer
to run, and no goroutine has more. -/
theorem BroadcastRun.stepGoroutine_sections {σ : Type} (st : BroadcastRun σ) (i : Nat)
    (hl : st.readLocked = none) :
    (st.stepGoroutine i).readLocked = none ∧ (st.stepGoroutine i).pc = st.pc ∧
    (st.stepGoroutine i).spawned.length = st.spawned.length ∧
    (∀ j, (st.stepGoroutine i).sectionsLeft j ≤ st.sectionsLeft j) ∧
    (st.stepGoroutine i).sectionsLeft i ≤ st.sectionsLeft i - 1 := by
  cases hgi : st.spawned.get? i with
  | none =>
    have hstep : st.stepGoroutine i = st := by
      unfold BroadcastRun.stepGoroutine
      rw [hgi]
    rw [hstep, BroadcastRun.sectionsLeft_of_get st i _ hgi]
    exact ⟨hl, rfl, rfl, fun j => Nat.le_refl _, Nat.zero_le _⟩
  | some p =>
    obtain ⟨c, t⟩ := p
    cases t with
    | none =>
      have hstep : st.stepGoroutine i = st := by
        unfold BroadcastRun.stepGoroutine
        rw [hgi]
      rw [hstep, BroadcastRun.sectionsLeft_of_get st i _ hgi]
      exact ⟨hl, rfl, rfl, fun j => Nat.le_refl _, Nat.zero_le _⟩
    | some call =>
      have hlt := Call.sectionsLeft_step st.hub call
      have hi : i < st.spawned.length := by
        rw [List.get?_eq_getElem?] at hgi
        exact (List.getElem?_eq_some.mp hgi).1
      have hstep : st.stepGoroutine i = { st with
          hub := (call.step st.hub).1
          spawned := st.spawned.set i (c, (call.step st.hub).2) } := by
        unfold BroadcastRun.stepGoroutine
        rw [hgi]
        simp only [hl, Call.waits_none, Bool.false_eq_true, if_false]
      have hself : (st.stepGoroutine i).sectionsLeft i
          = Call.sectionsLeft (call.step st.hub).2 := by
        rw [BroadcastRun.sectionsLeft_of_get _ i (some (c, (call.step st.hub).2))
          (by rw [hstep, List.get?_eq_getElem?]; simp [List.getElem?_set, hi])]
        rfl
      have hold : st.sectionsLeft i = Call.sectionsLeft (some call) := by
        rw [BroadcastRun.sectionsLeft_of_get st i _ hgi]
        rfl
      refine ⟨by rw [hstep]; exact hl, by rw [hstep], by rw [hstep]; simp, ?_, ?_⟩
      · intro j
        by_cases hj : i = j
        · subst hj
          rw [hself, hold]
          omega
        · have hsame : (st.stepGoroutine i).spawned.get? j = st.spawned.get? j := by
            rw [hstep, List.get?_eq_getElem?, List.get?_eq_getElem?]
            simp [List.getElem?_set, hj]
          unfold BroadcastRun.sectionsLeft
          rw [hsame]
      · rw [hself, hold]
        omega

/-- Steps of goroutines only, while no read lock is held. -/
theorem BroadcastRun.run_goroutines {σ : Type} (send : Connection → Bytes → σ → Bool × σ)
    (range : GoMap Connection → List (String × Connection))
    (sender : Connection) (data : Bytes) (js : List Nat) (st : BroadcastRun σ)
    (hl : st.readLocked = none) :
    (BroadcastRun.run send range sender data st (js.map some)).readLocked = none ∧
    (BroadcastRun.run send range sender data st (js.map some)).pc = st.pc ∧
    (BroadcastRun.run send range sender data st (js.map some)).spawned.length
      = st.spawned.length ∧
    (∀ j, (BroadcastRun.run send range sender data st (js.map some)).sectionsLeft j
      ≤ st.sectionsLeft j) := by
  induction js generalizing st with
  | nil => exact ⟨hl, rfl, rfl, fun j => Nat.le_refl _⟩
  | cons i rest ih =>
    obtain ⟨h1, h2, h3, h4, -⟩ := BroadcastRun.stepGoroutine_sections st i hl
    obtain ⟨k1, k2, k3, k4⟩ := ih (st.stepGoroutine i) h1
    simp only [List.map_cons, BroadcastRun.run, List.foldl_cons, BroadcastRun.step]
    simp only [BroadcastRun.run] at k1 k2 k3 k4
    exact ⟨k1, k2.trans h2, k3.trans h3, fun j => (k4 j).trans (h4 j)⟩

/-- Three steps for each goroutine of `idxs` in turn make each of them return. -/
theorem BroadcastRun.run_thrice {σ : Type} (send : Connection → Bytes → σ → Bool × σ)
    (range : GoMap Connection → List (String × Connection))
    (sender : Connection) (data : Bytes) (idxs : List Nat) (st : BroadcastRun σ)
    (hl : st.readLocked = none) :
    ∀ j ∈ idxs, (BroadcastRun.run send range sender data st
      ((idxs.flatMap (fun i => [i, i, i])).map some)).sectionsLeft j = 0 := by
  induction idxs generalizing st with
  | nil => intro j hj; simp at hj
  | cons i rest ih =>
    intro j hj
    have hsplit : ((i :: rest).flatMap (fun i => [i, i, i])).map some
        = [some i, some i, some i] ++ (rest.flatMap (fun i => [i, i, i])).map some := by
      simp [List.flatMap_cons]
    rw [hsplit, BroadcastRun.run_append]
    obtain ⟨a1, -, -, -, a5⟩ := BroadcastRun.stepGoroutine_sections st i hl
    obtain ⟨b1, -, -, -, b5⟩ := BroadcastRun.stepGoroutine_sections (st.stepGoroutine i) i a1
    obtain ⟨c1, -, -, -, c5⟩ :=
      BroadcastRun.stepGoroutine_sections ((st.stepGoroutine i).stepGoroutine i) i b1
    have hst3 : BroadcastRun.run send range sender data st [some i, some i, some i]
        = ((st.stepGoroutine i).stepGoroutine i).stepGoroutine i := rfl
    rw [hst3]
    have hzero : (((st.stepGoroutine i).stepGoroutine i).stepGoroutine i).sectionsLeft i
        = 0 := by
      have hle : st.sectionsLeft i ≤ 3 := by
        exact Call.sectionsLeft_le _
      omega
    rcases List.mem_cons.mp hj with rfl | hj
    · have := (BroadcastRun.run_goroutines send range sender data
        (rest.flatMap (fun i => [i, i, i])) _ c1).2.2.2 j
      omega
    · exact ih _ c1 j hj

/-- Every run can be continued so that the broadcaster and all the goroutines it
started return. -/
theorem BroadcastRun.exists_completion {σ : Type} (send : Connection → Bytes → σ → Bool × σ)
    (range : GoMap Connection → List (String × Connection))
    (sender : Connection) (data : Bytes) (s : SharedHub) (w : σ)
    (hwf : s.WF) (hvwf : s.view.WF) (hrange : ∀ m, (range m).Perm m)
    (st : BroadcastRun σ) (hinv : st.Inv send range sender data s w) :
    ∃ more, (BroadcastRun.run send range sender data st more).pc = .done ∧
      ∀ p ∈ (BroadcastRun.run send range sender data st more).spawned, p.2 = none := by
  obtain ⟨k, hk⟩ := BroadcastRun.broadcaster_returns send range sender data st
  have hinv1 := BroadcastRun.Inv_run send range sender data s w hwf hvwf hrange
    (List.replicate k none) st hinv
  have hl : (BroadcastRun.run send range sender data st (List.replicate k none)).readLocked
      = none := by
    by_contra hne
    have hinv2 := hinv1
    unfold BroadcastRun.Inv at hinv2
    rw [hk] at hinv2
    exact hne hinv2.1
  refine ⟨List.replicate k none ++ ((List.range (BroadcastRun.run send range sender data st
      (List.replicate k none)).spawned.length).flatMap (fun i => [i, i, i])).map some, ?_, ?_⟩
  · rw [BroadcastRun.run_append]
    rw [(BroadcastRun.run_goroutines send range sender data _ _ hl).2.1]
    exact hk
  · rw [BroadcastRun.run_append]
    intro p hp
    obtain ⟨j, hj, hpj⟩ := List.getElem_of_mem hp
    have hlen := (BroadcastRun.run_goroutines send range sender data
      ((List.range (BroadcastRun.run send range sender data st
        (List.replicate k none)).spawned.length).flatMap (fun i => [i, i, i])) _ hl).2.2.1
    have hz := BroadcastRun.run_thrice send range sender data
      (List.range (BroadcastRun.run send range sender data st
        (List.replicate k none)).spawned.length) _ hl j
      (List.mem_range.mpr (by rw [← hlen]; exact hj))
    rw [BroadcastRun.sectionsLeft_of_get _ j (some p)
      (by rw [List.get?_eq_getElem?, List.getElem?_eq_getElem hj, hpj])] at hz
    exact Call.sectionsLeft_eq_zero hz


theorem SharedHub.empty_view :
    (⟨[], []⟩ : SharedHub).view = New ∧ (⟨[], []⟩ : SharedHub).WF :=
  ⟨rfl, ⟨by simp [GoMap.keys], by simp, by simp⟩⟩

/-! ## A registration lost to a concurrent unregistration -/

/-- C10 on the code: goroutine 0 registers `c` and then unregisters it,
goroutine 1 registers `d` into the same room. When `Register(d)` runs between the
second and the third critical section of `Unregister(c)`, all calls return, `d`
has been registered and never unregistered, and yet the registry is empty and
`Stats()` reports no client. The same happens when `Unregister(c)` runs between
the two critical sections of `Register(d)`. Without an overlap the same calls
leave one room with one client. -/
theorem Register_lost_when_room_is_being_deleted :
    (raceSystem.run [0, 0, 0, 0, 1, 1, 0]).goroutines = [[], []] ∧
    (raceSystem.run [0, 0, 0, 0, 1, 1, 0]).hub.Stats = (0, 0) ∧
    (raceSystem.run [0, 0, 0, 0, 1, 1, 0]).hub.rooms.get "r" = none ∧
    (raceSystem.run [0, 0, 1, 0, 0, 0, 1]).goroutines = [[], []] ∧
    (raceSystem.run [0, 0, 1, 0, 0, 0, 1]).hub.Stats = (0, 0) ∧
    (raceSystem.run [0, 0, 0, 0, 0, 1, 1]).goroutines = [[], []] ∧
    (raceSystem.run [0, 0, 0, 0, 0, 1, 1]).hub.Stats = (1, 1) := by
  decide
/-- Every hub that `Register` and `Unregister` calls build from `New()` is the
hub a well-formed shared hub stands for. -/
theorem SharedHub.exists_of_reachable {h : Hub} (hr : Reachable h) :
    ∃ s : SharedHub, s.WF ∧ s.view = h := by
  induction hr with
  | new => exact ⟨⟨[], []⟩, SharedHub.empty_view.2, SharedHub.empty_view.1⟩
  | register c _ ih =>
    obtain ⟨s, hwf, rfl⟩ := ih
    exact ⟨Call.finish s (.Register c), (Register_alone s hwf c).2, (Register_alone s hwf c).1⟩
  | unregister c _ ih =>
    obtain ⟨s, hwf, rfl⟩ := ih
    exact ⟨Call.finish s (.Unregister c), (Unregister_alone s hwf c).2,
      (Unregister_alone s hwf c).1⟩

/-- C8: a reachable hub is the hub some well-formed shared hub stands for, and
for a broadcast from any such shared hub, run step by step together with the
goroutines it starts, under any schedule: (1) At every point of the run at which
the broadcaster has not returned, so during the whole iteration over the room, the
hub is the hub the broadcast started from: no critical section of an `Unregister`
has changed it; and during the iteration the read lock of the room is held.
(2) When the broadcaster has returned it has made the `Send` calls of
`Hub.Broadcast`, and the goroutines it has started are those of `Hub.Broadcast`.
(3) These goroutines are, each once, for the peers (the members of the sender's
room other than the sender, which are the connections sent to) whose `send`
returned an error. (4) Once the broadcaster and all the goroutines have returned,
however their critical sections were interleaved, no peer whose `send` returned an
error is a member of the room, and every peer whose `send` returned no error is
still a member, and so is the sender when it was one. (5) Every run can be
continued so that the broadcaster and all the goroutines return. -/
theorem Broadcast_unregisters_exactly_failing_peers {σ : Type} (h : Hub)
    (hr : Reachable h) :
    (∃ s : SharedHub, s.WF ∧ s.view = h) ∧
    ∀ (s : SharedHub), s.WF → s.view = h →
    ∀ (send : Connection → Bytes → σ → Bool × σ)
      (range : GoMap Connection → List (String × Connection)),
    (∀ m, (range m).Perm m) →
    ∀ (sender : Connection) (data : Bytes) (w : σ) (schedule : List (Option Nat)),
    (∀ n, (BroadcastRun.run send range sender data (BroadcastRun.init s w)
        (schedule.take n)).pc ≠ .done →
      (BroadcastRun.run send range sender data (BroadcastRun.init s w)
        (schedule.take n)).hub = s ∧
      ∀ r todo, (BroadcastRun.run send range sender data (BroadcastRun.init s w)
          (schedule.take n)).pc = .iter r todo →
        (BroadcastRun.run send range sender data (BroadcastRun.init s w)
          (schedule.take n)).readLocked = some r) ∧
    ((BroadcastRun.run send range sender data (BroadcastRun.init s w) schedule).pc = .done →
      (BroadcastRun.run send range sender data (BroadcastRun.init s w) schedule).world
        = (s.view.Broadcast send range sender data w).world ∧
      (BroadcastRun.run send range sender data (BroadcastRun.init s w) schedule).calls
        = (s.view.Broadcast send range sender data w).calls ∧
      (BroadcastRun.run send range sender data (BroadcastRun.init s w)
          schedule).spawned.map Prod.fst
        = (s.view.Broadcast send range sender data w).spawned) ∧
    ((s.view.Broadcast send range sender data w).spawned.Nodup ∧
      (∀ c, c ∈ (s.view.Broadcast send range sender data w).calls.map SendCall.conn
        ↔ s.view.isMember sender.Room c ∧ c.ID ≠ sender.ID) ∧
      ∀ c, c ∈ (s.view.Broadcast send range sender data w).spawned
        ↔ ∃ pre post,
          (s.view.Broadcast send range sender data w).calls.map SendCall.conn
            = pre ++ c :: post ∧
          (send c data (pre.foldl (fun w c => (send c data w).2) w)).1 = true) ∧
    ((BroadcastRun.run send range sender data (BroadcastRun.init s w) schedule).pc = .done →
      (∀ p ∈ (BroadcastRun.run send range sender data (BroadcastRun.init s w)
          schedule).spawned, p.2 = none) →
      (∀ pre c post,
        (s.view.Broadcast send range sender data w).calls.map SendCall.conn
          = pre ++ c :: post →
        ((send c data (pre.foldl (fun w c => (send c data w).2) w)).1 = true →
          ¬ (BroadcastRun.run send range sender data (BroadcastRun.init s w)
              schedule).hub.view.isMember sender.Room c) ∧
        ((send c data (pre.foldl (fun w c => (send c data w).2) w)).1 = false →
          (BroadcastRun.run send range sender data (BroadcastRun.init s w)
              schedule).hub.view.isMember sender.Room c)) ∧
      (s.view.isMember sender.Room sender →
        (BroadcastRun.run send range sender data (BroadcastRun.init s w)
            schedule).hub.view.isMember sender.Room sender)) ∧
    (∃ more,
      (BroadcastRun.run send range sender data (BroadcastRun.init s w)
        (schedule ++ more)).pc = .done ∧
      ∀ p ∈ (BroadcastRun.run send range sender data (BroadcastRun.init s w)
        (schedule ++ more)).spawned, p.2 = none) := by
  refine ⟨SharedHub.exists_of_reachable hr, ?_⟩
  intro s hwf hview send range hrange sender data w schedule
  subst hview
  have hvwf := hr.WF
  have hinv : ∀ sch, (BroadcastRun.run send range sender data (BroadcastRun.init s w)
      sch).Inv send range sender data s w := fun sch =>
    BroadcastRun.Inv_run send range sender data s w hwf hvwf hrange sch _
      (BroadcastRun.Inv_init send range sender data s w)
  have hcount := Hub.Broadcast_count hvwf send range hrange sender data w
  have hnd := (hcount sender).1
  have heff := (Hub.Broadcast_effect s.view send range sender data w).2
  -- the log entry of a connection sent to is the one that records what `send` returned
  have hflag : ∀ (pre : List Connection) (c : Connection) (post : List Connection) (f : Bool),
      (s.view.Broadcast send range sender data w).calls.map SendCall.conn
        = pre ++ c :: post →
      (⟨c, data, f⟩ : SendCall) ∈ (s.view.Broadcast send range sender data w).calls →
      (send c data (pre.foldl (fun w c => (send c data w).2) w)).1 = f := by
    intro pre c post f hsplit hin
    have := List.inj_on_of_nodup_map hnd (heff pre c post hsplit) hin rfl
    simpa using this
  have hsp : ∀ c, c ∈ (s.view.Broadcast send range sender data w).spawned
      ↔ ∃ pre post,
        (s.view.Broadcast send range sender data w).calls.map SendCall.conn
          = pre ++ c :: post ∧
        (send c data (pre.foldl (fun w c => (send c data w).2) w)).1 = true := by
    intro c
    rw [Hub.mem_spawned_iff]
    constructor
    · intro hin
      have hc : c ∈ (s.view.Broadcast send range sender data w).calls.map SendCall.conn :=
        List.mem_map.mpr ⟨_, hin, rfl⟩
      obtain ⟨pre, post, hsplit⟩ := List.append_of_mem hc
      exact ⟨pre, post, hsplit, hflag pre c post true hsplit hin⟩
    · rintro ⟨pre, post, hsplit, htrue⟩
      have := heff pre c post hsplit
      rwa [htrue] at this
  refine ⟨fun n hp => BroadcastRun.Inv_running (hinv _) hp,
    fun hd => ⟨(BroadcastRun.Inv_done (hinv _) hd).1, (BroadcastRun.Inv_done (hinv _) hd).2.1,
      (BroadcastRun.Inv_done (hinv _) hd).2.2.1⟩, ⟨?_, fun c => (hcount c).2, hsp⟩, ?_, ?_⟩
  · rw [Hub.Broadcast_spawned]
    exact (List.Nodup.of_map _ hnd |>.filter _).map_on
      (fun a ha b hb hab => List.inj_on_of_nodup_map hnd (List.mem_filter.mp ha).1
        (List.mem_filter.mp hb).1 hab)
  · intro hd hall
    obtain ⟨-, -, hspawn, hcase⟩ := BroadcastRun.Inv_done (hinv schedule) hd
    rcases hcase with ⟨hget, hhub⟩ | ⟨r, hget, hI⟩
    · -- the room does not exist: nothing was sent, nothing changed
      have hB : s.view.Broadcast send range sender data w = ⟨w, [], []⟩ := by
        rw [SharedHub.view_Broadcast, hget]
      rw [hB, hhub]
      exact ⟨fun pre c post hsplit => by simp at hsplit, fun h => h⟩
    · have hcl : s.view.clientsOf sender.Room = s.clients r :=
        SharedHub.view_clientsOf s _ r hget
      -- the member set of the room in the final hub
      have hfinal : ∀ e, e ∈ (BroadcastRun.run send range sender data
            (BroadcastRun.init s w) schedule).hub.view.clientsOf sender.Room →
          e ∈ (BroadcastRun.run send range sender data
            (BroadcastRun.init s w) schedule).hub.clients r := by
        intro e he
        rcases hI.rooms with hrooms | ⟨hrooms, -⟩
        · rwa [SharedHub.view_clientsOf _ _ r (by rw [hrooms]; exact hget)] at he
        · rw [SharedHub.view_clientsOf_none _ _
            (by rw [hrooms]; exact GoMap.get_delete_self _ _)] at he
          exact absurd he (List.not_mem_nil _)
      have hstay : ∀ e, e ∈ s.clients r →
          (∀ c ∈ (s.view.Broadcast send range sender data w).spawned, c.ID ≠ e.1) →
          e ∈ (BroadcastRun.run send range sender data
            (BroadcastRun.init s w) schedule).hub.view.clientsOf sender.Room := by
        intro e he hne
        have hk := hI.kept e he (by rw [hspawn]; exact hne)
        rcases hI.rooms with hrooms | ⟨-, hempty⟩
        · rwa [SharedHub.view_clientsOf _ _ r (by rw [hrooms]; exact hget)]
        · rw [hempty] at hk
          exact absurd hk (List.not_mem_nil _)
      have hpeer : ∀ {c : Connection} {f : Bool},
          (⟨c, data, f⟩ : SendCall) ∈ (s.view.Broadcast send range sender data w).calls →
          s.view.isMember sender.Room c ∧ c.ID ≠ sender.ID := fun {c f} hc =>
        (hcount c).2.mp (List.mem_map.mpr ⟨_, hc, rfl⟩)
      refine ⟨fun pre c post hsplit => ⟨?_, ?_⟩, ?_⟩
      · rintro htrue ⟨id, hmem⟩
        have hc : c ∈ (BroadcastRun.run send range sender data (BroadcastRun.init s w)
            schedule).spawned.map Prod.fst := by
          rw [hspawn]; exact (hsp c).mpr ⟨pre, post, hsplit, htrue⟩
        obtain ⟨p, hp, rfl⟩ := List.mem_map.mp hc
        have hnone := hall p hp
        have hin := hfinal _ hmem
        have hst := (hvwf.clientsOf_stored (by rw [hcl]; exact hI.sub _ hin)).1
        simp only at hst
        rcases (hI.tasks p hp).1 with h | h | ⟨h, -⟩ | ⟨-, h⟩
        · rw [hnone] at h; exact absurd h (by simp)
        · rw [hnone] at h; exact absurd h (by simp)
        · rw [hnone] at h; exact absurd h (by simp)
        · exact h _ hin hst.symm
      · intro hfalse
        have hrec := heff pre c post hsplit
        rw [hfalse] at hrec
        obtain ⟨⟨id, hmem0⟩, -⟩ := hpeer hrec
        rw [hcl] at hmem0
        refine ⟨id, hstay _ hmem0 ?_⟩
        intro u hu hid
        have hu2 := (Hub.mem_spawned_iff s.view send range sender data w u).mp hu
        obtain ⟨⟨idu, hmemu⟩, -⟩ := hpeer hu2
        have hstu := (hvwf.clientsOf_stored hmemu).1
        simp only at hstu hid
        have hkeys := hvwf.clientsOf_nodup sender.Room
        have h1 := GoMap.get_of_mem hkeys (by rw [hcl]; exact hmem0)
        have h2 := GoMap.get_of_mem hkeys hmemu
        rw [← hstu, hid, h1] at h2
        have hcu : c = u := Option.some.inj h2
        subst hcu
        have := List.inj_on_of_nodup_map hnd hrec hu2 rfl
        simp at this
      · rintro ⟨id, hmem0⟩
        have hst := (hvwf.clientsOf_stored hmem0).1
        simp only at hst
        rw [hcl] at hmem0
        refine ⟨id, hstay _ hmem0 ?_⟩
        intro u hu hid
        have hu2 := (Hub.mem_spawned_iff s.view send range sender data w u).mp hu
        exact (hpeer hu2).2 (by rw [hid, ← hst])
  · obtain ⟨more, h1, h2⟩ := BroadcastRun.exists_completion send range sender data s w
      hwf hvwf hrange _ (hinv schedule)
    refine ⟨more, ?_, ?_⟩
    · rw [BroadcastRun.run_append]; exact h1
    · rw [BroadcastRun.run_append]; exact h2

set_option maxRecDepth 20000 in
/-- C8 at the scenario of `exShared`: the sender broadcasts, the channel of
`recv2` is full, and the goroutine started for it first tries the room lock while
the broadcaster still iterates. Once both have returned `recv2` is no longer a
member of the room. -/
theorem Broadcast_unregisters_exactly_failing_peers_witness :
    Reachable exHub ∧ exShared.WF ∧ exShared.view = exHub ∧
    (∀ m : GoMap Connection, (List.reverse m).Perm m) ∧
    ¬ (BroadcastRun.run Conn.Send List.reverse exSender "test message".toList
        (BroadcastRun.init exShared exWorld)
        [none, none, none, some 0, some 0, none, none, none, some 0]).hub.view.isMember
      exSender.Room exRecv2 :=
  ⟨exHub_reachable, ⟨by decide, by decide, by decide⟩, by decide,
    fun m => List.reverse_perm m,
    (((Broadcast_unregisters_exactly_failing_peers exHub exHub_reachable).2 exShared
      ⟨by decide, by decide, by decide⟩ (by decide) Conn.Send List.reverse
      (fun m => List.reverse_perm m) exSender "test message".toList exWorld
      [none, none, none, some 0, some 0, none, none, none, some 0]).2.2.2.1
      (by decide) (by decide)).1 [] exRecv2 [exRecv1] (by decide) |>.1 (by decide)⟩


end MediaSync
